import Mathlib

/-!
The small-object, copy-on-write vector `socow_vector`

A shallow embedding of `src/socow-vector.h`.

* Raw element storage (`T static_data[SMALL_SIZE]`, `T dynamic_data[0]`) is a map from
  slot index to `Option α`: `some x` is a live object, `none` is raw memory.  The code
  does no bounds checking, so a slot index at or past the capacity of its array denotes
  the memory right behind that array; capacities are tracked as numbers, exactly as the
  code does.  What the code does with that memory is undefined behaviour: the theorems
  that exhibit a defect follow such a run only to show which index is written, and
  `Bounded` names the states in which no element lives behind its array.
* The heap holds the `dynamic_buffer` blocks; `operator new` returns a fresh address,
  `operator delete` empties the address.  The member functions are first given with an
  `operator new` that always returns a block of the size asked for; the definitions
  named `..._alloc` add `std::bad_alloc` and the `size_t` byte count for the functions
  whose claims depend on them.  Where the code cleans a new block and deletes it right
  away (the `catch` blocks), the block is just emptied: the slots written into it are
  gone with it.
* An element reference is a place (the inline array, or a block) and a slot index;
  `index_ref` is `operator[]` returning it and `write_ref` the assignment through it.
* Copy construction of an element may throw.  The world counts the copy constructions
  attempted so far (`copies`), and the `k`-th one throws iff `thr k`.  Element swap and
  element destructors do not throw.
* A function that may let an exception escape returns `Except`: `.error s` carries the
  state the exception leaves behind, `.ok s` the state on normal return.
* Sizes and capacities (`size_t`) are natural numbers; the byte count that
  `allocate_buffer` computes in `size_t`, and that wraps for large requests, is
  `Allocator.bytes`.
-/

namespace Socow

variable {α : Type}

/-! ## Raw storage -/

/-- Raw element storage: slot `i` holds a live object or nothing. -/
abbrev Slots (α : Type) := Nat → Option α

/-- Placement-new of a copy of the object `x` into slot `i`. -/
def construct_at (a : Slots α) (i : Nat) (x : Option α) : Slots α :=
  fun j => if j = i then x else a j

/-- Destructor call `a[i].~T()`. -/
def destroy_at (a : Slots α) (i : Nat) : Slots α :=
  fun j => if j = i then none else a j

/-- Element swap `swap(a[i], a[j])` inside one array. -/
def swap_at (a : Slots α) (i j : Nat) : Slots α :=
  fun k => if k = i then a j else if k = j then a i else a k

/-- Storage with no live object. -/
def raw : Slots α := fun _ => none

/-- `struct dynamic_buffer`. -/
structure dynamic_buffer (α : Type) where
  ref_count : Nat
  capacity_ : Nat
  dynamic_data : Slots α

/-- `struct socow_vector`; both members of the anonymous union are kept as fields, the
flag `dynamic_` says which one is in use. -/
structure socow_vector (α : Type) where
  size_ : Nat
  dynamic_ : Bool
  static_data : Slots α
  dynamic_buffer_ : Nat

/-- The heap of `dynamic_buffer` blocks and the count of element copy constructions. -/
structure World (α : Type) where
  heap : List (Option (dynamic_buffer α))
  copies : Nat

/-- Address of no buffer; allocated blocks have addresses `1, 2, ...`. -/
def nullptr : Nat := 0

/-- The block at address `p`, if it is allocated. -/
def World.read (w : World α) (p : Nat) : Option (dynamic_buffer α) :=
  if p = 0 then none else (w.heap[p - 1]?).getD none

/-- Overwrite the block at address `p`. -/
def World.write (w : World α) (p : Nat) (b : dynamic_buffer α) : World α :=
  if p = 0 then w else { w with heap := w.heap.set (p - 1) (some b) }

/-- Update the block at address `p` in place (nothing happens at an unallocated
address). -/
def World.modify (w : World α) (p : Nat) (f : dynamic_buffer α → dynamic_buffer α) :
    World α :=
  match w.read p with
  | some b => w.write p (f b)
  | none => w

/-- Deallocate: `operator delete(p)`. -/
def World.free (w : World α) (p : Nat) : World α :=
  if p = 0 then w else { w with heap := w.heap.set (p - 1) none }

/-- Allocate: `operator new`, returning the fresh address. -/
def World.alloc (w : World α) (b : dynamic_buffer α) : Nat × World α :=
  (w.heap.length + 1, { w with heap := w.heap ++ [some b] })

/-- Dereference `p`; an unallocated address reads as an empty block. -/
def World.buf (w : World α) (p : Nat) : dynamic_buffer α :=
  (w.read p).getD ⟨0, 0, raw⟩

/-- A world and one container in it. -/
abbrev St (α : Type) := World α × socow_vector α

/-! ## Private static helpers -/

/-- `clear_range(array_, start, length)`: destroys slots `start+length-1` down to
`start`. -/
def clear_range (array_ : Slots α) (start : Nat) : Nat → Slots α
  | 0 => array_
  | length + 1 => clear_range (destroy_at array_ (start + length)) start length

/-- `clear_prefix(array_, prefix_length)`. -/
def clear_prefix (array_ : Slots α) (prefix_length : Nat) : Slots α :=
  clear_range array_ 0 prefix_length

/-- The loop of `copy_range`, with `n` iterations left and loop variable `i`; `c` is the
copy counter.  Returns whether it threw, the destination and the counter. -/
def copy_range_loop (thr : Nat → Bool) (src : Slots α) (start : Nat) :
    Nat → Nat → Slots α → Nat → Bool × Slots α × Nat
  | 0, _, dst, c => (false, dst, c)
  | n + 1, i, dst, c =>
    if thr c then (true, clear_range dst start i, c + 1)
    else copy_range_loop thr src start n (i + 1)
      (construct_at dst (start + i) (src (start + i))) (c + 1)

/-- `copy_range(from, dst, start, size)`. -/
def copy_range (thr : Nat → Bool) (src dst : Slots α) (start size c : Nat) :
    Bool × Slots α × Nat :=
  copy_range_loop thr src start size 0 dst c

/-- The loop of `copy_from_begin`, with `n` iterations left and loop variable `i`. -/
def copy_from_begin_loop (thr : Nat → Bool) (src : Slots α) :
    Nat → Nat → Slots α → Nat → Bool × Slots α × Nat
  | 0, _, dst, c => (false, dst, c)
  | n + 1, i, dst, c =>
    if thr c then (true, clear_prefix dst i, c + 1)
    else copy_from_begin_loop thr src n (i + 1) (construct_at dst i (src i)) (c + 1)

/-- `copy_from_begin(from, dst, size)`. -/
def copy_from_begin (thr : Nat → Bool) (src dst : Slots α) (size c : Nat) :
    Bool × Slots α × Nat :=
  copy_from_begin_loop thr src size 0 dst c

/-- `allocate_buffer(new_cap)`. -/
def allocate_buffer (w : World α) (new_cap : Nat) : Nat × World α :=
  w.alloc ⟨1, new_cap, raw⟩

/-! ## Member functions -/

section members

variable (K : Nat) (thr : Nat → Bool)

/-- The default constructor. -/
def default_ctor : socow_vector α := ⟨0, false, raw, nullptr⟩

/-- `size()`. -/
def size (v : socow_vector α) : Nat := v.size_

/-- `empty()`. -/
def empty (v : socow_vector α) : Bool := v.size_ == 0

/-- `capacity()`; `K` is `SMALL_SIZE`. -/
def capacity (w : World α) (v : socow_vector α) : Nat :=
  if v.dynamic_ then (w.buf v.dynamic_buffer_).capacity_ else K

/-- `data() const` (and `cbegin()`): the array in use, no detach. -/
def cdata (w : World α) (v : socow_vector α) : Slots α :=
  if v.dynamic_ then (w.buf v.dynamic_buffer_).dynamic_data else v.static_data

/-- Write the array in use back through the pointer `data()` returned. -/
def store (s : St α) (a : Slots α) : St α :=
  if s.2.dynamic_ then
    (s.1.modify s.2.dynamic_buffer_ (fun b => { b with dynamic_data := a }), s.2)
  else (s.1, { s.2 with static_data := a })

/-- `clear_dynamic()`. -/
def clear_dynamic (w : World α) (v : socow_vector α) : World α :=
  if (w.buf v.dynamic_buffer_).ref_count > 1 then
    w.modify v.dynamic_buffer_ (fun b => { b with ref_count := b.ref_count - 1 })
  else
    (w.modify v.dynamic_buffer_
      (fun b => { b with dynamic_data := clear_prefix b.dynamic_data v.size_ })).free
      v.dynamic_buffer_

/-- `reset()`. -/
def reset (s : St α) : St α :=
  if s.2.dynamic_ then (clear_dynamic s.1 s.2, s.2)
  else (s.1, { s.2 with static_data := clear_prefix s.2.static_data s.2.size_ })

/-- The destructor: `reset()`, after which the object is gone. -/
def dtor (s : St α) : World α := (reset s).1

/-- The copy constructor `socow_vector(other)`; a throw leaves no new object. -/
def copy_ctor (w : World α) (other : socow_vector α) :
    Except (World α) (St α) :=
  if other.dynamic_ then
    .ok (w.modify other.dynamic_buffer_ (fun b => { b with ref_count := b.ref_count + 1 }),
      ⟨other.size_, other.dynamic_, raw, other.dynamic_buffer_⟩)
  else
    match copy_from_begin thr other.static_data raw other.size_ w.copies with
    | (true, _, c) => .error { w with copies := c }
    | (false, dst, c) =>
      .ok ({ w with copies := c }, ⟨other.size_, other.dynamic_, dst, nullptr⟩)

/-- `change_capacity(new_capacity)`. -/
def change_capacity (new_capacity : Nat) (s : St α) : Except (St α) (St α) :=
  let w := s.1
  let v := s.2
  if new_capacity ≤ K && v.dynamic_ then
    let tmp := v.dynamic_buffer_
    match copy_from_begin thr (w.buf tmp).dynamic_data v.static_data v.size_ w.copies with
    | (true, dst, c) =>
      .error ({ w with copies := c }, { v with static_data := dst, dynamic_buffer_ := tmp })
    | (false, dst, c) =>
      let w1 : World α := { w with copies := c }
      let w2 := w1.modify tmp (fun b => { b with ref_count := b.ref_count - 1 })
      let w3 :=
        if (w2.buf tmp).ref_count = 0 then
          (w2.modify tmp
            (fun b => { b with dynamic_data := clear_range b.dynamic_data 0 v.size_ })).free tmp
        else w2
      .ok (w3, { v with static_data := dst, dynamic_ := false })
  else if new_capacity > K then
    let a := allocate_buffer w new_capacity
    let new_dynamic_buffer := a.1
    let w1 := a.2
    if v.dynamic_ then
      match copy_from_begin thr (w1.buf v.dynamic_buffer_).dynamic_data
          (w1.buf new_dynamic_buffer).dynamic_data v.size_ w1.copies with
      | (true, _, c) => .error ({ (w1.free new_dynamic_buffer) with copies := c }, v)
      | (false, dst, c) =>
        let w2 := ({ w1 with copies := c } : World α).modify new_dynamic_buffer
          (fun b => { b with dynamic_data := dst })
        .ok (clear_dynamic w2 v,
          { v with dynamic_buffer_ := new_dynamic_buffer, dynamic_ := true })
    else
      match copy_from_begin thr v.static_data
          (w1.buf new_dynamic_buffer).dynamic_data v.size_ w1.copies with
      | (true, _, c) => .error ({ (w1.free new_dynamic_buffer) with copies := c }, v)
      | (false, dst, c) =>
        let w2 := ({ w1 with copies := c } : World α).modify new_dynamic_buffer
          (fun b => { b with dynamic_data := dst })
        .ok (w2, { v with static_data := clear_prefix v.static_data v.size_,
                          dynamic_buffer_ := new_dynamic_buffer, dynamic_ := true })
  else .ok s

/-- `unshare()`. -/
def unshare (s : St α) : Except (St α) (St α) :=
  if s.2.dynamic_ && (s.1.buf s.2.dynamic_buffer_).ref_count > 1 then
    if s.2.size_ > K then
      change_capacity K thr (s.1.buf s.2.dynamic_buffer_).capacity_ s
    else
      change_capacity K thr K s
  else .ok s

/-- The non-const `data()`: detach, then the array in use is `cdata` of the result and
the pointer returned is its `place`.  `operator[]`, `front`, `back`, `begin` and `end`
(non-const) are `data()` plus an offset. -/
def data (s : St α) : Except (St α) (St α) := unshare K thr s

/-- `push_back(value)`. -/
def push_back (value : α) (s : St α) : Except (St α) (St α) :=
  if size s.2 = capacity K s.1 s.2 then
    let a := allocate_buffer s.1 (capacity K s.1 s.2 * 2)
    let tmp := a.1
    match data K thr (a.2, s.2) with
    | .error (w, v) => .error (w.free tmp, v)
    | .ok (w, v) =>
      match copy_from_begin thr (cdata w v) (w.buf tmp).dynamic_data v.size_ w.copies with
      | (true, _, c) => .error ({ (w.free tmp) with copies := c }, v)
      | (false, dst, c) =>
        if thr c then .error ({ (w.free tmp) with copies := c + 1 }, v)
        else
          let w1 := ({ w with copies := c + 1 } : World α).modify tmp
            (fun b => { b with dynamic_data := construct_at dst v.size_ (some value) })
          let r := reset (w1, v)
          .ok (r.1, { r.2 with dynamic_buffer_ := tmp, dynamic_ := true,
                               size_ := r.2.size_ + 1 })
  else
    match data K thr s with
    | .error e => .error e
    | .ok (w, v) =>
      if thr w.copies then .error ({ w with copies := w.copies + 1 }, v)
      else
        let r := store ({ w with copies := w.copies + 1 }, v)
          (construct_at (cdata w v) v.size_ (some value))
        .ok (r.1, { r.2 with size_ := r.2.size_ + 1 })

/-- `pop_back()`; the caller guarantees `size_ > 0`. -/
def pop_back (s : St α) : Except (St α) (St α) :=
  match data K thr s with
  | .error e => .error e
  | .ok (w, v) =>
    let v1 := { v with size_ := v.size_ - 1 }
    .ok (store (w, v1) (destroy_at (cdata w v1) v1.size_))

/-- `reserve(new_capacity)`. -/
def reserve (new_capacity : Nat) (s : St α) : Except (St α) (St α) :=
  if capacity K s.1 s.2 < new_capacity then change_capacity K thr new_capacity s
  else unshare K thr s

/-- `shrink_to_fit()`. -/
def shrink_to_fit (s : St α) : Except (St α) (St α) :=
  if s.2.size_ ≠ capacity K s.1 s.2 then change_capacity K thr s.2.size_ s
  else .ok s

/-- `clear()`. -/
def clear (s : St α) : Except (St α) (St α) :=
  match unshare K thr s with
  | .error e => .error e
  | .ok (w, v) =>
    let r := store (w, v) ( clear_prefix (cdata w v) v.size_)
    .ok (r.1, { r.2 with size_ := 0 })

/-- The loop of the inline/inline case of `swap`: `n` iterations left, loop variable `i`,
each one `swap(static_data[i], other.static_data[i])`. -/
def swap_loop : Nat → Nat → Slots α × Slots α → Slots α × Slots α
  | 0, _, ab => ab
  | n + 1, i, ab =>
    swap_loop n (i + 1) (construct_at ab.1 i (ab.2 i), construct_at ab.2 i (ab.1 i))

/-- A world and two distinct containers in it. -/
abbrev St2 (α : Type) := World α × socow_vector α × socow_vector α

/-- `swap_static_and_dynamic(stat, dynamic)`; the state is `(world, stat, dynamic)`. -/
def swap_static_and_dynamic (s : St2 α) : Except (St2 α) (St2 α) :=
  let w := s.1
  let stat := s.2.1
  let dynamic := s.2.2
  let tmp_dynamic_buffer := dynamic.dynamic_buffer_
  match copy_from_begin thr stat.static_data dynamic.static_data stat.size_ w.copies with
  | (true, dst, c) =>
    .error ({ w with copies := c }, stat,
      { dynamic with static_data := dst, dynamic_buffer_ := tmp_dynamic_buffer })
  | (false, dst, c) =>
    .ok ({ w with copies := c },
      { stat with static_data := clear_prefix stat.static_data stat.size_,
                  dynamic_buffer_ := tmp_dynamic_buffer },
      { dynamic with static_data := dst, dynamic_buffer_ := nullptr })

/-- The part of `swap` before the two final `std::swap` calls; the state is
`(world, *this, other)`. -/
def swap_storage (s : St2 α) : Except (St2 α) (St2 α) :=
  let w := s.1
  let this := s.2.1
  let other := s.2.2
  if this.dynamic_ && other.dynamic_ then
    .ok (w, { this with dynamic_buffer_ := other.dynamic_buffer_ },
      { other with dynamic_buffer_ := this.dynamic_buffer_ })
  else if this.dynamic_ && !other.dynamic_ then
    match swap_static_and_dynamic thr (w, other, this) with
    | .error (w1, stat, dynamic) => .error (w1, dynamic, stat)
    | .ok (w1, stat, dynamic) => .ok (w1, dynamic, stat)
  else if !this.dynamic_ && other.dynamic_ then
    swap_static_and_dynamic thr (w, this, other)
  else
    let ab := swap_loop (min this.size_ other.size_) 0 (this.static_data, other.static_data)
    if this.size_ < other.size_ then
      match copy_range thr ab.2 ab.1 this.size_ (other.size_ - this.size_) w.copies with
      | (true, dst, c) =>
        .error ({ w with copies := c }, { this with static_data := dst },
          { other with static_data := ab.2 })
      | (false, dst, c) =>
        .ok ({ w with copies := c }, { this with static_data := dst },
          { other with
            static_data := clear_range ab.2 this.size_ (other.size_ - this.size_) })
    else
      match copy_range thr ab.1 ab.2 other.size_ (this.size_ - other.size_) w.copies with
      | (true, dst, c) =>
        .error ({ w with copies := c }, { this with static_data := ab.1 },
          { other with static_data := dst })
      | (false, dst, c) =>
        .ok ({ w with copies := c },
          { this with
            static_data := clear_range ab.1 other.size_ (this.size_ - other.size_) },
          { other with static_data := dst })

/-- `swap(other)`; the state is `(world, *this, other)`. -/
def swap (s : St2 α) : Except (St2 α) (St2 α) :=
  match swap_storage thr s with
  | .error e => .error e
  | .ok (w, this, other) =>
    .ok (w, { this with size_ := other.size_, dynamic_ := other.dynamic_ },
      { other with size_ := this.size_, dynamic_ := this.dynamic_ })

/-- `operator=(other)` for `this != &other` (self-assignment does nothing): the
temporary copy is swapped with `*this` and then destroyed, also when `swap` throws. -/
def assign (w : World α) (this other : socow_vector α) : Except (St α) (St α) :=
  match copy_ctor thr w other with
  | .error w1 => .error (w1, this)
  | .ok (w1, tmp) =>
    match swap thr (w1, tmp, this) with
    | .error (w2, tmp2, this2) => .error (dtor (w2, tmp2), this2)
    | .ok (w2, tmp2, this2) => .ok (dtor (w2, tmp2), this2)

/-- The loop of `insert`: `n` iterations left, loop variable `i` counting down, each one
`swap(cur_data[i - 1], cur_data[i])`. -/
def insert_loop : Nat → Nat → Slots α → Slots α
  | 0, _, a => a
  | n + 1, i, a => insert_loop n (i - 1) (swap_at a (i - 1) i)

/-- `insert(pos, value)` with `pos = cbegin() + ind`; the loop runs from `size_ - 1` down
to `ind + 1`.  Returns the index the returned iterator points at. -/
def insert (ind : Nat) (value : α) (s : St α) : Except (St α) (St α × Nat) :=
  match push_back K thr value s with
  | .error e => .error e
  | .ok s1 =>
    match data K thr s1 with
    | .error e => .error e
    | .ok (w, v) =>
      .ok (store (w, v) (insert_loop (v.size_ - 1 - ind) (v.size_ - 1) (cdata w v)), ind)

/-- The first loop of `erase`: `n` iterations left, loop variable `i`, each one
`swap(cur_data[ind1 + i], cur_data[ind2 + i])`. -/
def erase_loop (ind1 ind2 : Nat) : Nat → Nat → Slots α → Slots α
  | 0, _, a => a
  | n + 1, i, a => erase_loop ind1 ind2 n (i + 1) (swap_at a (ind1 + i) (ind2 + i))

/-- The second loop of `erase`: `n` calls of `pop_back()`. -/
def pop_back_loop : Nat → St α → Except (St α) (St α)
  | 0, s => .ok s
  | n + 1, s =>
    match pop_back K thr s with
    | .error e => .error e
    | .ok s1 => pop_back_loop n s1

/-- `erase(first, last)` with `first = cbegin() + ind1`, `last = cbegin() + ind2`.
Returns the index the returned iterator points at. -/
def erase (ind1 ind2 : Nat) (s : St α) : Except (St α) (St α × Nat) :=
  match data K thr s with
  | .error e => .error e
  | .ok (w, v) =>
    let s1 := store (w, v) (erase_loop ind1 ind2 (size v - ind2) 0 (cdata w v))
    match pop_back_loop K thr (ind2 - ind1) s1 with
    | .error e => .error e
    | .ok s2 => .ok (s2, ind1)

/-- `erase(pos)` with `pos = cbegin() + ind`. -/
def erase_one (ind : Nat) (s : St α) : Except (St α) (St α × Nat) :=
  erase K thr ind (ind + 1) s

/-! ### References into the storage -/

/-- Where an element reference `T&` (or a `T*`) points: into the inline array of the
container it was taken from, or into the block at a heap address. -/
inductive Place where
  | own_array
  | block (p : Nat)

/-- A reference to slot `i` of the array at a place. -/
abbrev Ref := Place × Nat

/-- The place of the array in use, which is what `data()` returns after its detach. -/
def place (v : socow_vector α) : Place :=
  if v.dynamic_ then .block v.dynamic_buffer_ else .own_array

/-- The non-const `operator[](i)`: `data()` detaches, and the reference returned is to
slot `i` of the array then in use. -/
def index_ref (i : Nat) (s : St α) : Except (St α) (St α × Ref) :=
  match data K thr s with
  | .error e => .error e
  | .ok (w, v) => .ok ((w, v), (place v, i))

/-- The assignment `r = x` through an element reference `r`; `s.2` is the container the
reference was taken from.  When `r` points into that container's inline array, the array
is written; when it points into a block, that block is written, whichever containers
reference it by now. -/
def write_ref (r : Ref) (x : α) (s : St α) : St α :=
  match r.1 with
  | .own_array =>
    (s.1, { s.2 with static_data := construct_at s.2.static_data r.2 (some x) })
  | .block p =>
    (s.1.modify p
      (fun b => { b with dynamic_data := construct_at b.dynamic_data r.2 (some x) }), s.2)

/-- The statement `(*this)[i] = x`: the non-const `operator[]` detaches and returns a
reference, then the caller assigns through that reference. -/
def index_assign (i : Nat) (x : α) (s : St α) : Except (St α) (St α) :=
  match index_ref K thr i s with
  | .error e => .error e
  | .ok r => .ok (write_ref r.2 x r.1)

/-- The const `operator[]`. -/
def index_const (w : World α) (v : socow_vector α) (i : Nat) : Option α := cdata w v i

/-- The element sequence observed through the container: slots `0 .. size()-1` of
`data() const`. -/
def elems (w : World α) (v : socow_vector α) : List (Option α) :=
  (List.range (size v)).map (cdata w v)

/-! ### Allocation that can fail -/

/-- The allocator `allocate_buffer` talks to: `header` is `sizeof(dynamic_buffer)`,
`tsize` is `sizeof(T)`, and `grants n` tells whether `operator new(n)` returns a block of
`n` bytes; when not, it throws `std::bad_alloc`. -/
structure Allocator where
  header : Nat
  tsize : Nat
  grants : Nat → Bool

/-- The argument `sizeof(dynamic_buffer) + sizeof(T) * new_cap` that `allocate_buffer`
passes to `operator new`, computed in `size_t` (64 bits). -/
def Allocator.bytes (A : Allocator) (new_cap : Nat) : Nat :=
  (A.header + A.tsize * new_cap) % 2 ^ 64

/-- `allocate_buffer(new_cap)` with an `operator new` that can throw: `none` is
`std::bad_alloc`.  When the byte count has wrapped, the block granted is shorter than
`new_cap` slots while `capacity_` is `new_cap`. -/
def try_allocate_buffer (A : Allocator) (w : World α) (new_cap : Nat) :
    Option (Nat × World α) :=
  if A.grants (A.bytes new_cap) then some (allocate_buffer w new_cap) else none

/-- `change_capacity(new_capacity)` with an `operator new` that can throw: the code of
`change_capacity`, with `allocate_buffer(new_capacity)`, the first statement of the
branch for `new_capacity > SMALL_SIZE` and outside any `try`, letting `std::bad_alloc`
out before anything is changed. -/
def change_capacity_alloc (A : Allocator) (new_capacity : Nat) (s : St α) :
    Except (St α) (St α) :=
  let w := s.1
  let v := s.2
  if new_capacity ≤ K && v.dynamic_ then
    let tmp := v.dynamic_buffer_
    match copy_from_begin thr (w.buf tmp).dynamic_data v.static_data v.size_ w.copies with
    | (true, dst, c) =>
      .error ({ w with copies := c }, { v with static_data := dst, dynamic_buffer_ := tmp })
    | (false, dst, c) =>
      let w1 : World α := { w with copies := c }
      let w2 := w1.modify tmp (fun b => { b with ref_count := b.ref_count - 1 })
      let w3 :=
        if (w2.buf tmp).ref_count = 0 then
          (w2.modify tmp
            (fun b => { b with dynamic_data := clear_range b.dynamic_data 0 v.size_ })).free tmp
        else w2
      .ok (w3, { v with static_data := dst, dynamic_ := false })
  else if new_capacity > K then
    match try_allocate_buffer A w new_capacity with
    | none => .error s
    | some a =>
      let new_dynamic_buffer := a.1
      let w1 := a.2
      if v.dynamic_ then
        match copy_from_begin thr (w1.buf v.dynamic_buffer_).dynamic_data
            (w1.buf new_dynamic_buffer).dynamic_data v.size_ w1.copies with
        | (true, _, c) => .error ({ (w1.free new_dynamic_buffer) with copies := c }, v)
        | (false, dst, c) =>
          let w2 := ({ w1 with copies := c } : World α).modify new_dynamic_buffer
            (fun b => { b with dynamic_data := dst })
          .ok (clear_dynamic w2 v,
            { v with dynamic_buffer_ := new_dynamic_buffer, dynamic_ := true })
      else
        match copy_from_begin thr v.static_data
            (w1.buf new_dynamic_buffer).dynamic_data v.size_ w1.copies with
        | (true, _, c) => .error ({ (w1.free new_dynamic_buffer) with copies := c }, v)
        | (false, dst, c) =>
          let w2 := ({ w1 with copies := c } : World α).modify new_dynamic_buffer
            (fun b => { b with dynamic_data := dst })
          .ok (w2, { v with static_data := clear_prefix v.static_data v.size_,
                            dynamic_buffer_ := new_dynamic_buffer, dynamic_ := true })
  else .ok s

/-- `unshare()` with an `operator new` that can throw. -/
def unshare_alloc (A : Allocator) (s : St α) : Except (St α) (St α) :=
  if s.2.dynamic_ && (s.1.buf s.2.dynamic_buffer_).ref_count > 1 then
    if s.2.size_ > K then
      change_capacity_alloc K thr A (s.1.buf s.2.dynamic_buffer_).capacity_ s
    else
      change_capacity_alloc K thr A K s
  else .ok s

/-- `reserve(new_capacity)` with an `operator new` that can throw. -/
def reserve_alloc (A : Allocator) (new_capacity : Nat) (s : St α) : Except (St α) (St α) :=
  if capacity K s.1 s.2 < new_capacity then change_capacity_alloc K thr A new_capacity s
  else unshare_alloc K thr A s

/-- `shrink_to_fit()` with an `operator new` that can throw. -/
def shrink_to_fit_alloc (A : Allocator) (s : St α) : Except (St α) (St α) :=
  if s.2.size_ ≠ capacity K s.1 s.2 then change_capacity_alloc K thr A s.2.size_ s
  else .ok s

end members

/-! ## Programs over several containers -/

/-- A program state: the heap and the live containers, in order of construction. -/
structure Sys (α : Type) where
  w : World α
  vecs : List (socow_vector α)

/-- The state an operation leaves behind, whether it returned or threw. -/
def final {β : Type} (r : Except β β) : β :=
  match r with
  | .ok s => s
  | .error s => s

/-- Forget the iterator an operation returned. -/
def no_iter (r : Except (St α) (St α × Nat)) : Except (St α) (St α) :=
  match r with
  | .ok (s, _) => .ok s
  | .error s => .error s

/-- The operations that change the contents of one container. -/
inductive Mutation (α : Type) where
  | push_back (x : α)
  | pop_back
  | insert (pos : Nat) (x : α)
  | erase (first last : Nat)
  | clear
  | index_assign (k : Nat) (x : α)

/-- The precondition of a mutation on container `v`: `pop_back` needs an element,
`insert` a position within `[begin, end]`, `erase` a range within `[begin, end]`, and an
indexed write an index below `size()`. -/
def Mutation.pre (m : Mutation α) (v : socow_vector α) : Bool :=
  match m with
  | .push_back _ => true
  | .pop_back => decide (0 < v.size_)
  | .insert pos _ => decide (pos ≤ v.size_)
  | .erase first last => decide (first ≤ last ∧ last ≤ v.size_)
  | .clear => true
  | .index_assign k _ => decide (k < v.size_)

/-- Run a mutation on a container. -/
def Mutation.run (K : Nat) (thr : Nat → Bool) (m : Mutation α) (s : St α) :
    Except (St α) (St α) :=
  match m with
  | .push_back x => Socow.push_back K thr x s
  | .pop_back => Socow.pop_back K thr s
  | .insert pos x => no_iter (Socow.insert K thr pos x s)
  | .erase first last => no_iter (Socow.erase K thr first last s)
  | .clear => Socow.clear K thr s
  | .index_assign k x => Socow.index_assign K thr k x s

/-- The public operations of a program; containers are named by their index. -/
inductive Op (α : Type) where
  | construct
  | copy (i : Nat)
  | destroy (i : Nat)
  | assign (i j : Nat)
  | swap (i j : Nat)
  | mutate (i : Nat) (m : Mutation α)
  | reserve (i n : Nat)
  | shrink_to_fit (i : Nat)
  | data (i : Nat)

/-- Run a member function on container `i`; an exception is caught by the program, which
goes on with the state the exception left behind. -/
def on_vec (s : Sys α) (i : Nat) (f : St α → Except (St α) (St α)) : Option (Sys α) :=
  match s.vecs[i]? with
  | none => none
  | some v => some ⟨(final (f (s.w, v))).1, s.vecs.set i (final (f (s.w, v))).2⟩

/-- One step of a program: `none` when the operation names a container that does not
exist or is called outside its precondition.  `construct` and `copy` add the new
container at the end, `destroy` removes container `i`; `assign i j` is
`vecs[i] = vecs[j]`, `swap i j` is `vecs[i].swap(vecs[j])`; self-assignment does nothing
(the guard `this != &other`), and neither does a self-swap: on one object `swap` swaps
each field and each inline element with itself and copies an empty range. -/
def exec (K : Nat) (thr : Nat → Bool) (op : Op α) (s : Sys α) : Option (Sys α) :=
  match op with
  | .construct => some ⟨s.w, s.vecs ++ [default_ctor]⟩
  | .copy i =>
    match s.vecs[i]? with
    | none => none
    | some v =>
      match copy_ctor thr s.w v with
      | .ok (w', b) => some ⟨w', s.vecs ++ [b]⟩
      | .error w' => some ⟨w', s.vecs⟩
  | .destroy i =>
    match s.vecs[i]? with
    | none => none
    | some v => some ⟨dtor (s.w, v), s.vecs.eraseIdx i⟩
  | .assign i j =>
    match s.vecs[i]?, s.vecs[j]? with
    | some a, some b =>
      if i = j then some s
      else some ⟨(final (assign thr s.w a b)).1, s.vecs.set i (final (assign thr s.w a b)).2⟩
    | _, _ => none
  | .swap i j =>
    match s.vecs[i]?, s.vecs[j]? with
    | some a, some b =>
      if i = j then some s
      else some ⟨(final (swap thr (s.w, a, b))).1,
        (s.vecs.set i (final (swap thr (s.w, a, b))).2.1).set j
          (final (swap thr (s.w, a, b))).2.2⟩
    | _, _ => none
  | .mutate i m =>
    match s.vecs[i]? with
    | none => none
    | some v => if m.pre v then on_vec s i (m.run K thr) else none
  | .reserve i n => on_vec s i (reserve K thr n)
  | .shrink_to_fit i => on_vec s i (shrink_to_fit K thr)
  | .data i => on_vec s i (data K thr)

/-- The states a program can reach from the empty program state. -/
inductive Reachable (K : Nat) (thr : Nat → Bool) : Sys α → Prop where
  | init : Reachable K thr ⟨⟨[], 0⟩, []⟩
  | step {s s' : Sys α} (op : Op α) : Reachable K thr s → exec K thr op s = some s' →
      Reachable K thr s'

/-- Run a list of operations. -/
def run (K : Nat) (thr : Nat → Bool) : List (Op α) → Sys α → Option (Sys α)
  | [], s => some s
  | op :: ops, s =>
    match exec K thr op s with
    | none => none
    | some s' => run K thr ops s'

/-- What a program observes through container `i`: its size and its elements. -/
def observe (s : Sys α) (i : Nat) : Option (Nat × List (Option α)) :=
  (s.vecs[i]?).map (fun v => (size v, elems s.w v))

/-! ## Vocabulary of the statements -/

/-- The slots a copy loop has filled after running to the end. -/
def filled (src dst : Slots α) (start n : Nat) : Slots α :=
  fun j => if start ≤ j ∧ j < start + n then src j else dst j

/-- The slots a copy loop leaves behind when its `k`-th copy throws. -/
def unwound (dst : Slots α) (start k : Nat) : Slots α :=
  fun j => if start ≤ j ∧ j < start + k then none else dst j


/-- The reference count stored in the block at `p` (`0` when nothing is allocated
there). -/
def rc (w : World α) (p : Nat) : Nat := (w.buf p).ref_count

/-- Whether container `v` references the block at `p`: `1` if it is in Shared mode and
its pointer is `p`, else `0`. -/
def refOf (v : socow_vector α) (p : Nat) : Nat :=
  if v.dynamic_ = true ∧ v.dynamic_buffer_ = p then 1 else 0

/-- Every allocated block has a positive reference count. -/
def HeapOK (w : World α) : Prop :=
  ∀ q b, w.read q = some b → 1 ≤ b.ref_count

/-- A container in Shared mode points at an allocated block. -/
def Valid (w : World α) (v : socow_vector α) : Prop :=
  v.dynamic_ = true → ∃ b, w.read v.dynamic_buffer_ = some b

/-- The container owns its storage alone: it is Inline, or its block has reference count
at most `1`. -/
def Excl (w : World α) (v : socow_vector α) : Prop :=
  v.dynamic_ = true → rc w v.dynamic_buffer_ ≤ 1

/-- What an operation on one container `x`, taking `(w, x)` to `(w', x')`, may do to the
heap: reference counts move with the references of `x`; a block `x` shares with others
keeps its capacity and elements; a block `x` does not reference is untouched, or it is a
fresh block that `x'` alone references. -/
structure Eff (w : World α) (x : socow_vector α) (w' : World α) (x' : socow_vector α) :
    Prop where
  heapOK : HeapOK w'
  valid : Valid w' x'
  count : ∀ q, rc w' q + refOf x q = rc w q + refOf x' q
  shared : ∀ q b, w.read q = some b → refOf x q = 1 → 2 ≤ b.ref_count →
    ∃ b', w'.read q = some b' ∧ b'.capacity_ = b.capacity_ ∧
      b'.dynamic_data = b.dynamic_data
  other : ∀ q, refOf x q = 0 →
    w'.read q = w.read q ∨ (w.read q = none ∧ refOf x' q = 1 ∧ rc w' q = 1)


/-- What a detach of container `v`, whose block `b` is shared with other containers, may
give as result `r`: either it returns with `v` on storage of its own holding the same
elements and the old block one reference short, or a copy threw and nothing changed. -/
def DetachSpec (K : Nat) (thr : Nat → Bool) (w : World α) (v : socow_vector α)
    (b : dynamic_buffer α) (r : Except (St α) (St α)) : Prop :=
  (∃ w' v', r = .ok (w', v') ∧
    v'.size_ = v.size_ ∧
    (∀ j, j < v.size_ → cdata w' v' j = b.dynamic_data j) ∧
    (∀ j, v.size_ ≤ j → v'.dynamic_ = true → cdata w' v' j = none) ∧
    w'.copies = w.copies + v.size_ ∧
    (∀ k, k < v.size_ → thr (w.copies + k) = false) ∧
    w'.read v.dynamic_buffer_ = some { b with ref_count := b.ref_count - 1 } ∧
    ((v'.dynamic_ = false ∧ v.size_ ≤ K ∧
        ∀ q, q ≠ v.dynamic_buffer_ → w'.read q = w.read q) ∨
     (v'.dynamic_ = true ∧ v'.dynamic_buffer_ = w.heap.length + 1 ∧
      K < v.size_ ∧ K < b.capacity_ ∧
      (∃ d, w'.read (w.heap.length + 1) = some ⟨1, b.capacity_, d⟩) ∧
      ∀ q, q ≠ v.dynamic_buffer_ → q ≠ w.heap.length + 1 → w'.read q = w.read q) ∨
     (v'.dynamic_ = false ∧ K < v.size_ ∧ b.capacity_ ≤ K ∧
      ∀ q, q ≠ v.dynamic_buffer_ → w'.read q = w.read q))) ∨
  ∃ k w' v', k < v.size_ ∧ thr (w.copies + k) = true ∧
    (∀ m, m < k → thr (w.copies + m) = false) ∧
    r = .error (w', v') ∧ w'.copies = w.copies + k + 1 ∧
    (∀ q, w'.read q = w.read q) ∧ v'.size_ = v.size_ ∧ v'.dynamic_ = true ∧
    v'.dynamic_buffer_ = v.dynamic_buffer_

/-- The container and the heap look the same in `(w', v')` as in `(w, v)`: same mode,
size, capacity and elements, same block when Shared, and every block of the heap
untouched (reference count, capacity and elements). -/
def Unchanged (K : Nat) (w : World α) (v : socow_vector α) (w' : World α)
    (v' : socow_vector α) : Prop :=
  v'.dynamic_ = v.dynamic_ ∧ size v' = size v ∧ capacity K w' v' = capacity K w v ∧
  elems w' v' = elems w v ∧
  (v.dynamic_ = true → v'.dynamic_buffer_ = v.dynamic_buffer_) ∧
  ∀ q, w'.read q = w.read q

/-! ## Concrete inputs -/

/-- An empty heap. -/
def emptyWorld : World Nat := ⟨[], 0⟩

/-- Elements that never throw. -/
def noThrow : Nat → Bool := fun _ => false

/-- Elements whose `k`-th copy construction (counted from `0`) throws. -/
def throwAt (k : Nat) : Nat → Bool := fun i => decide (i = k)

/-- Slots holding the given values from index `0` on. -/
def slotsOf : List Nat → Slots Nat
  | [] => raw
  | x :: xs => fun j => if j = 0 then some x else slotsOf xs (j - 1)

/-- A heap with one block of capacity `4` holding `[1, 2]`, referenced twice. -/
def sharedWorld : World Nat := ⟨[some ⟨2, 4, slotsOf [1, 2]⟩], 0⟩

/-- A container of size `2` in Shared mode on the block at address `1`. -/
def sharedVec : socow_vector Nat := ⟨2, true, raw, 1⟩

/-- One reference to the block at `p`, as a count per address. -/
def own1 (p : Nat) : Nat → Nat := fun q => if q = p then 1 else 0

/-- What a piece of code that holds `ρ q` references to each block `q` before and `ρ' q`
after may do to the heap on the way from `w` to `w'`: reference counts move with the
references held; a block somebody else references too keeps its capacity and elements; a
block not referenced before is untouched, or it is a fresh block referenced by nobody
else. -/
structure Moves (w : World α) (ρ : Nat → Nat) (w' : World α) (ρ' : Nat → Nat) : Prop where
  heapOK : HeapOK w'
  count : ∀ q, rc w' q + ρ q = rc w q + ρ' q
  shared : ∀ q b, w.read q = some b → ρ q < b.ref_count →
    ∃ b', w'.read q = some b' ∧ b'.capacity_ = b.capacity_ ∧
      b'.dynamic_data = b.dynamic_data
  other : ∀ q, ρ q = 0 → w'.read q = w.read q ∨ (w.read q = none ∧ rc w' q = ρ' q)

/-- Mode and capacity of `(w', v')` are those of `(w, v)`, or else `v` sat on a block
shared with others, with a size or capacity within `SMALL_SIZE`, and `v'` is Inline. -/
def ModeKept (K : Nat) (w : World α) (v : socow_vector α) (w' : World α)
    (v' : socow_vector α) : Prop :=
  (v'.dynamic_ = v.dynamic_ ∧ capacity K w' v' = capacity K w v) ∨
  (v.dynamic_ = true ∧ v'.dynamic_ = false ∧ ¬ Excl w v ∧
    (v.size_ ≤ K ∨ capacity K w v ≤ K))

/-- The state `(w', v')` a `push_back` leaves behind when it throws. -/
def PushFail (K : Nat) (w : World α) (v : socow_vector α) (w' : World α)
    (v' : socow_vector α) : Prop :=
  v'.size_ = v.size_ ∧ (∀ j, j < v.size_ → cdata w' v' j = cdata w v j) ∧
  Valid w' v' ∧ Moves w (refOf v) w' (refOf v') ∧ ModeKept K w v w' v'

/-- The state `(w', v')` a `push_back(x)` that returns leaves behind. -/
def PushOk (K : Nat) (x : α) (w : World α) (v : socow_vector α) (w' : World α)
    (v' : socow_vector α) : Prop :=
  v'.size_ = v.size_ + 1 ∧ (∀ j, j < v.size_ → cdata w' v' j = cdata w v j) ∧
  cdata w' v' v.size_ = some x ∧ Excl w' v' ∧ Valid w' v' ∧
  Moves w (refOf v) w' (refOf v') ∧
  (if v.size_ = capacity K w v then
     v'.dynamic_ = true ∧ capacity K w' v' = capacity K w v * 2
   else ModeKept K w v w' v')

/-- An Inline container holding the given values. -/
def inlineVec (xs : List Nat) : socow_vector Nat := ⟨xs.length, false, slotsOf xs, nullptr⟩

/-- Every container of the state is within its capacity: no element lives behind the
end of its array. -/
def Bounded (K : Nat) (s : Sys α) : Prop :=
  ∀ v ∈ s.vecs, size v ≤ capacity K s.w v

/-- A request for `new_cap` slots is served in full: its byte count fits `size_t` and
`operator new` returns. -/
def Allocator.serves (A : Allocator) (new_cap : Nat) : Prop :=
  A.header + A.tsize * new_cap < 2 ^ 64 ∧ A.grants (A.header + A.tsize * new_cap) = true

/-- An allocator for 4-byte elements and a 16-byte block header that grants requests of
up to `2 ^ 32` bytes. -/
def smallAlloc : Allocator := ⟨16, 4, fun n => decide (n ≤ 2 ^ 32)⟩

/-- Every block of the heap has more slots than the inline array (nothing is asked when
`SMALL_SIZE = 0`). -/
def CapOK (K : Nat) (w : World α) : Prop :=
  ∀ q b, w.read q = some b → K = 0 ∨ K < b.capacity_

/-- A container in Shared mode has a capacity above `SMALL_SIZE` (nothing is asked when
`SMALL_SIZE = 0`). -/
def Roomy (K : Nat) (w : World α) (v : socow_vector α) : Prop :=
  v.dynamic_ = true → K = 0 ∨ K < capacity K w v

/-- The small-object rule for a container filled by `push_back` alone: it owns its storage
alone; up to `SMALL_SIZE` elements it is Inline and the heap is empty, above that it is
Shared with room for its elements. -/
def SsoOK (K : Nat) (s : St α) : Prop :=
  HeapOK s.1 ∧ Valid s.1 s.2 ∧ Excl s.1 s.2 ∧
  (s.2.size_ ≤ K → s.2.dynamic_ = false ∧ s.1.heap = []) ∧
  (K < s.2.size_ → s.2.dynamic_ = true ∧ s.2.size_ ≤ capacity K s.1 s.2)

/-- The number of element copy constructions a `swap` of `a` and `b` that returns has
made. -/
def swap_copies (a b : socow_vector α) : Nat :=
  if a.dynamic_ && b.dynamic_ then 0
  else if a.dynamic_ then b.size_
  else if b.dynamic_ then a.size_
  else if a.size_ < b.size_ then b.size_ - a.size_ else a.size_ - b.size_

/-- Container `a'` has taken over size, mode and storage contents of `b`. -/
def TookOver (b a' : socow_vector α) : Prop :=
  a'.size_ = b.size_ ∧ a'.dynamic_ = b.dynamic_ ∧
  (b.dynamic_ = true → a'.dynamic_buffer_ = b.dynamic_buffer_) ∧
  (b.dynamic_ = false → ∀ j, j < b.size_ → a'.static_data j = b.static_data j)

/-- Mode, pointer and size of `a'` are those of `a`. -/
def SameRef (a a' : socow_vector α) : Prop :=
  a'.size_ = a.size_ ∧ a'.dynamic_ = a.dynamic_ ∧ a'.dynamic_buffer_ = a.dynamic_buffer_

/-- A run of `push_back` calls with elements that never throw. -/
def push_all (K : Nat) (xs : List Nat) (s : St Nat) : St Nat :=
  xs.foldl (fun s x => final (push_back K noThrow x s)) s

/-- The scenario `a = [1,2,3,4,5,6]` with `SMALL_SIZE = 4`: the world and `a`. -/
def scenario_a : St Nat := push_all 4 [1, 2, 3, 4, 5, 6] (emptyWorld, default_ctor)

/-- The scenario continued with `b = a` (copy construction): the world and `b`. -/
def scenario_b : St Nat :=
  match copy_ctor noThrow scenario_a.1 scenario_a.2 with
  | .ok s => s
  | .error w => (w, default_ctor)

/-- The state `(w', v')` a mutating operation on `(w, v)` leaves behind when it returns:
the container owns its storage alone, and the heap has changed as `Eff` allows. -/
def MutOk (K : Nat) (w : World α) (v : socow_vector α) (w' : World α)
    (v' : socow_vector α) : Prop :=
  Excl w' v' ∧ Valid w' v' ∧ Eff w v w' v' ∧ ModeKept K w v w' v'

/-- Decidable form of `HeapOK`. -/
def heap_ok (w : World α) : Bool :=
  w.heap.all (fun o => match o with
    | none => true
    | some b => decide (1 ≤ b.ref_count))

/-- Decidable form of `Valid`. -/
def valid_in (w : World α) (v : socow_vector α) : Bool :=
  !v.dynamic_ || (w.read v.dynamic_buffer_).isSome

/-- The number of containers in Shared mode that reference the block at `q`. -/
def refs (vecs : List (socow_vector α)) (q : Nat) : Nat :=
  (vecs.map (fun v => refOf v q)).sum

/-- The reference-count invariant of a program state: every allocated block has a
positive reference count, and the reference count at every address (`0` where nothing is
allocated) is the number of containers referencing it. -/
def RefInv (s : Sys α) : Prop :=
  HeapOK s.w ∧ ∀ q, rc s.w q = refs s.vecs q

/-- The empty program state. -/
def initSys : Sys Nat := ⟨⟨[], 0⟩, []⟩

/-- The state after running a program from the empty state (the empty state again if the
program violates a precondition). -/
def state_after (K : Nat) (ops : List (Op Nat)) : Sys Nat :=
  (run K noThrow ops initSys).getD initSys

/-- The program `a; a.push_back(1), (2), (3); a.pop_back(); b(a); a.push_back(9)`. -/
def shared_push_program : List (Op Nat) :=
  [.construct, .mutate 0 (.push_back 1), .mutate 0 (.push_back 2), .mutate 0 (.push_back 3),
   .mutate 0 .pop_back, .copy 0, .mutate 0 (.push_back 9)]

/-- The program `a; a.push_back(1), (2), (3), (4)`. -/
def four_program : List (Op Nat) :=
  [.construct, .mutate 0 (.push_back 1), .mutate 0 (.push_back 2), .mutate 0 (.push_back 3),
   .mutate 0 (.push_back 4)]

/-- The program `a; a.push_back(1), ..., a.push_back(6); b(a)`: with `SMALL_SIZE = 4` it
leaves `a = [1,2,3,4,5,6]` and `b` on one block of capacity 8. -/
def six_copy_program : List (Op Nat) :=
  [.construct, .mutate 0 (.push_back 1), .mutate 0 (.push_back 2), .mutate 0 (.push_back 3),
   .mutate 0 (.push_back 4), .mutate 0 (.push_back 5), .mutate 0 (.push_back 6), .copy 0]

/-- Container `i` of a program state (a default-constructed one if there is none). -/
def vec_at (s : Sys α) (i : Nat) : socow_vector α := (s.vecs[i]?).getD default_ctor

/-- With `SMALL_SIZE = 2`, the state after `a; a.push_back(1), (2), (3); a.pop_back();
b(a)`: the containers `a = [1,2]` and `b` share one block of capacity 4. -/
def sharedSys : Sys Nat := state_after 2 (shared_push_program.take 6)

/-- The state after one more operation (the empty state if it violates a
precondition). -/
def step_after (K : Nat) (op : Op Nat) (s : Sys Nat) : Sys Nat :=
  (exec K noThrow op s).getD initSys

/-! ## The heap -/

theorem World.read_alloc (w : World α) (b : dynamic_buffer α) (q : Nat) :
    (w.alloc b).2.read q = if q = w.heap.length + 1 then some b else w.read q := by
  unfold World.alloc World.read
  rcases Nat.eq_zero_or_pos q with h | h
  · subst h; simp
  · have h0 : q ≠ 0 := by omega
    simp only [h0, if_false]
    by_cases h1 : q = w.heap.length + 1
    · subst h1; simp
    · simp only [h1, if_false]
      by_cases h2 : q - 1 < w.heap.length
      · rw [List.getElem?_append_left h2]
      · have h3 : w.heap.length < q - 1 := by omega
        rw [List.getElem?_eq_none (by simp; omega), List.getElem?_eq_none (by omega)]

theorem World.read_fresh (w : World α) : w.read (w.heap.length + 1) = none := by
  unfold World.read
  simp

theorem World.read_le (w : World α) (q : Nat) (b : dynamic_buffer α)
    (h : w.read q = some b) : 0 < q ∧ q ≤ w.heap.length := by
  unfold World.read at h
  by_cases h0 : q = 0
  · simp [h0] at h
  · simp only [h0, if_false] at h
    by_cases h2 : q - 1 < w.heap.length
    · omega
    · rw [List.getElem?_eq_none (by omega)] at h
      simp at h

theorem World.read_free (w : World α) (p q : Nat) :
    (w.free p).read q = if q = p then none else w.read q := by
  unfold World.free World.read
  by_cases hp : p = 0
  · subst hp
    by_cases hq : q = 0 <;> simp [hq]
  · by_cases hq : q = 0
    · subst hq; simp [hp]
    · simp only [hp, hq, if_false]
      by_cases h : q = p
      · subst h
        simp only [if_true]
        by_cases h2 : q - 1 < w.heap.length
        · simp [List.getElem?_set, h2]
        · simp [List.getElem?_set, h2]
      · have : p - 1 ≠ q - 1 := by omega
        simp [List.getElem?_set, this, h]

theorem World.read_modify (w : World α) (p q : Nat) (f : dynamic_buffer α → dynamic_buffer α) :
    (w.modify p f).read q = if q = p then (w.read p).map f else w.read q := by
  unfold World.modify
  cases hr : w.read p with
  | none =>
    by_cases h : q = p
    · subst h; simp [hr]
    · simp [h]
  | some b =>
    have hb := w.read_le p b hr
    simp only [Option.map_some']
    unfold World.write World.read
    have hp : p ≠ 0 := by omega
    by_cases hq : q = 0
    · subst hq
      have : (0 : Nat) ≠ p := by omega
      simp [hp, this]
    · simp only [hp, hq, if_false]
      by_cases h : q = p
      · subst h
        have h2 : q - 1 < w.heap.length := by omega
        simp [List.getElem?_set, h2]
      · have : p - 1 ≠ q - 1 := by omega
        simp [List.getElem?_set, this, h]


/-! ## Raw storage loops -/

theorem clear_range_apply (a : Slots α) (start n j : Nat) :
    clear_range a start n j = if start ≤ j ∧ j < start + n then none else a j := by
  induction n generalizing a with
  | zero =>
    have : ¬ (start ≤ j ∧ j < start) := by omega
    simp [clear_range, this]
  | succ n ih =>
    rw [clear_range, ih]
    unfold destroy_at
    by_cases h1 : start ≤ j ∧ j < start + n
    · have h2 : start ≤ j ∧ j < start + (n + 1) := by omega
      simp [h1, h2]
    · by_cases h3 : j = start + n
      · have h2 : start ≤ j ∧ j < start + (n + 1) := by omega
        simp [h1, h2, h3]
      · have h2 : ¬ (start ≤ j ∧ j < start + (n + 1)) := by omega
        simp [h1, h2, h3]

theorem clear_prefix_apply (a : Slots α) (n j : Nat) :
    clear_prefix a n j = if j < n then none else a j := by
  unfold clear_prefix
  rw [clear_range_apply]
  by_cases h : j < n
  · have : 0 ≤ j ∧ j < 0 + n := by omega
    simp [h, this]
  · have : ¬ (0 ≤ j ∧ j < 0 + n) := by omega
    simp [h, this]

theorem copy_range_loop_spec (thr : Nat → Bool) (src : Slots α) (start n i : Nat)
    (dst0 dst : Slots α) (c : Nat)
    (hd : dst = filled src dst0 start i) :
    (copy_range_loop thr src start n i dst c = (false, filled src dst0 start (i + n), c + n)
      ∧ ∀ k, k < n → thr (c + k) = false) ∨
    ∃ k, k < n ∧ thr (c + k) = true ∧ (∀ m, m < k → thr (c + m) = false) ∧
      copy_range_loop thr src start n i dst c = (true, unwound dst0 start (i + k), c + k + 1) := by
  induction n generalizing i dst c with
  | zero =>
    left
    refine ⟨?_, fun k hk => absurd hk (Nat.not_lt_zero k)⟩
    simp [copy_range_loop, hd]
  | succ n ih =>
    rw [copy_range_loop]
    by_cases ht : thr c = true
    · right
      refine ⟨0, Nat.succ_pos n, by simpa using ht, fun m hm => absurd hm (Nat.not_lt_zero m), ?_⟩
      simp only [ht, if_true, Nat.add_zero]
      congr 2
      funext j
      rw [clear_range_apply, hd]
      unfold unwound filled
      by_cases h : start ≤ j ∧ j < start + i <;> simp [h]
    · have ht' : thr c = false := by simpa using ht
      simp only [ht', Bool.false_eq_true, if_false]
      have hd' : construct_at dst (start + i) (src (start + i)) =
          filled src dst0 start (i + 1) := by
        funext j
        rw [hd]
        unfold construct_at filled
        by_cases h1 : j = start + i
        · have h2 : start ≤ j ∧ j < start + (i + 1) := by omega
          simp [h1]
        · by_cases h3 : start ≤ j ∧ j < start + i
          · have h2 : start ≤ j ∧ j < start + (i + 1) := by omega
            simp [h1, h2, h3]
          · have h2 : ¬ (start ≤ j ∧ j < start + (i + 1)) := by omega
            simp [h1, h2, h3]
      rcases ih (i + 1) _ (c + 1) hd' with ⟨h1, h2⟩ | ⟨k, hk, hk1, hk2, hk3⟩
      · left
        refine ⟨?_, ?_⟩
        · rw [h1]
          have e1 : i + 1 + n = i + (n + 1) := by omega
          have e2 : c + 1 + n = c + (n + 1) := by omega
          rw [e1, e2]
        · intro k hk
          rcases Nat.eq_zero_or_pos k with h0 | h0
          · subst h0; simpa using ht'
          · have := h2 (k - 1) (by omega)
            have e : c + 1 + (k - 1) = c + k := by omega
            rw [e] at this
            exact this
      · right
        refine ⟨k + 1, by omega, ?_, ?_, ?_⟩
        · have e : c + (k + 1) = c + 1 + k := by omega
          rw [e]; exact hk1
        · intro m hm
          rcases Nat.eq_zero_or_pos m with h0 | h0
          · subst h0; simpa using ht'
          · have := hk2 (m - 1) (by omega)
            have e : c + 1 + (m - 1) = c + m := by omega
            rw [e] at this
            exact this
        · rw [hk3]
          have e1 : i + 1 + k = i + (k + 1) := by omega
          have e2 : c + 1 + k + 1 = c + (k + 1) + 1 := by omega
          rw [e1, e2]

theorem filled_zero (src dst : Slots α) (start : Nat) : filled src dst start 0 = dst := by
  funext j
  unfold filled
  have : ¬ (start ≤ j ∧ j < start + 0) := by omega
  simp [this]

theorem copy_range_spec (thr : Nat → Bool) (src dst : Slots α) (start n c : Nat) :
    (copy_range thr src dst start n c = (false, filled src dst start n, c + n)
      ∧ ∀ k, k < n → thr (c + k) = false) ∨
    ∃ k, k < n ∧ thr (c + k) = true ∧ (∀ m, m < k → thr (c + m) = false) ∧
      copy_range thr src dst start n c = (true, unwound dst start k, c + k + 1) := by
  have h := copy_range_loop_spec thr src start n 0 dst dst c (filled_zero src dst start).symm
  simpa [copy_range] using h

theorem copy_from_begin_loop_eq (thr : Nat → Bool) (src : Slots α) (n i : Nat)
    (dst : Slots α) (c : Nat) :
    copy_from_begin_loop thr src n i dst c = copy_range_loop thr src 0 n i dst c := by
  induction n generalizing i dst c with
  | zero => simp [copy_from_begin_loop, copy_range_loop]
  | succ n ih =>
    rw [copy_from_begin_loop, copy_range_loop, ih]
    simp [ clear_prefix]

theorem copy_from_begin_eq (thr : Nat → Bool) (src dst : Slots α) (n c : Nat) :
    copy_from_begin thr src dst n c = copy_range thr src dst 0 n c := by
  simp [copy_from_begin, copy_range, copy_from_begin_loop_eq]

theorem copy_from_begin_spec (thr : Nat → Bool) (src dst : Slots α) (n c : Nat) :
    (copy_from_begin thr src dst n c = (false, filled src dst 0 n, c + n)
      ∧ ∀ k, k < n → thr (c + k) = false) ∨
    ∃ k, k < n ∧ thr (c + k) = true ∧ (∀ m, m < k → thr (c + m) = false) ∧
      copy_from_begin thr src dst n c = (true, unwound dst 0 k, c + k + 1) := by
  rw [copy_from_begin_eq]
  exact copy_range_spec thr src dst 0 n c

theorem copy_from_begin_ok (thr : Nat → Bool) (src dst : Slots α) (n c : Nat)
    (h : ∀ k, thr k = false) :
    copy_from_begin thr src dst n c = (false, filled src dst 0 n, c + n) := by
  rcases copy_from_begin_spec thr src dst n c with ⟨h1, _⟩ | ⟨k, _, hk, _⟩
  · exact h1
  · rw [h] at hk; cases hk

theorem copy_range_ok (thr : Nat → Bool) (src dst : Slots α) (start n c : Nat)
    (h : ∀ k, thr k = false) :
    copy_range thr src dst start n c = (false, filled src dst start n, c + n) := by
  rcases copy_range_spec thr src dst start n c with ⟨h1, _⟩ | ⟨k, _, hk, _⟩
  · exact h1
  · rw [h] at hk; cases hk

/-! ## Effects of the operations on the heap -/

@[simp] theorem World.read_copies (w : World α) (c q : Nat) :
    ({ w with copies := c } : World α).read q = w.read q := rfl

@[simp] theorem World.copies_modify (w : World α) (p : Nat) (f : dynamic_buffer α → dynamic_buffer α) :
    (w.modify p f).copies = w.copies := by
  unfold World.modify
  cases w.read p with
  | none => rfl
  | some b =>
    show (w.write p (f b)).copies = w.copies
    unfold World.write
    split <;> rfl

@[simp] theorem World.copies_free (w : World α) (p : Nat) :
    (w.free p).copies = w.copies := by
  unfold World.free
  split <;> rfl

theorem rc_eq (w : World α) (p : Nat) :
    rc w p = match w.read p with | some b => b.ref_count | none => 0 := by
  unfold rc World.buf
  cases w.read p <;> rfl

theorem Valid.rc_pos {w : World α} {v : socow_vector α} (h1 : HeapOK w) (h2 : Valid w v)
    (hd : v.dynamic_ = true) : ∃ b, w.read v.dynamic_buffer_ = some b ∧ 1 ≤ b.ref_count := by
  obtain ⟨b, hb⟩ := h2 hd
  exact ⟨b, hb, h1 _ b hb⟩

theorem change_capacity_static_ok (K : Nat) (thr : Nat → Bool) (n : Nat) (w : World α)
    (v : socow_vector α) (hn : n ≤ K) (hd : v.dynamic_ = true) :
    (∃ w', change_capacity K thr n (w, v) = .ok (w',
        { v with static_data := filled (w.buf v.dynamic_buffer_).dynamic_data v.static_data 0 v.size_,
                 dynamic_ := false }) ∧
      w'.copies = w.copies + v.size_ ∧
      (∀ k, k < v.size_ → thr (w.copies + k) = false) ∧
      ∀ q, w'.read q =
        if q = v.dynamic_buffer_ then
          (match w.read q with
           | some b => if b.ref_count - 1 = 0 then none
                       else some { b with ref_count := b.ref_count - 1 }
           | none => none)
        else w.read q) ∨
    ∃ k, k < v.size_ ∧ thr (w.copies + k) = true ∧
      (∀ m, m < k → thr (w.copies + m) = false) ∧
      change_capacity K thr n (w, v) = .error ({ w with copies := w.copies + k + 1 },
        { v with static_data := unwound v.static_data 0 k }) := by
  unfold change_capacity
  simp only [hn, hd, decide_True, Bool.and_self, if_true]
  rcases copy_from_begin_spec thr (w.buf v.dynamic_buffer_).dynamic_data v.static_data
      v.size_ w.copies with ⟨h1, h2⟩ | ⟨k, hk, hk1, hk2, hk3⟩
  · left
    rw [h1]
    refine ⟨_, rfl, ?_, h2, ?_⟩
    · split <;> simp
    · intro q
      by_cases hq : q = v.dynamic_buffer_
      · subst hq
        simp only [if_true]
        cases hr : w.read v.dynamic_buffer_ with
        | none => split <;> simp [World.read_modify, World.read_free, hr]
        | some b =>
          simp only [World.buf, World.read_modify, World.read_copies, hr, if_true,
            Option.map_some', Option.getD_some]
          split <;> simp [World.read_modify, World.read_free, hr]
      · simp only [hq, if_false]
        split <;> simp [World.read_modify, World.read_free, hq]
  · right
    exact ⟨k, hk, hk1, hk2, by rw [hk3]⟩

theorem World.read_allocate (w : World α) (n q : Nat) :
    (allocate_buffer w n).2.read q =
      if q = w.heap.length + 1 then some ⟨1, n, raw⟩ else w.read q :=
  World.read_alloc w _ q

theorem allocate_buffer_fst (w : World α) (n : Nat) :
    (allocate_buffer w n).1 = w.heap.length + 1 := rfl

theorem allocate_buffer_copies (w : World α) (n : Nat) :
    (allocate_buffer w n).2.copies = w.copies := rfl

theorem World.ne_fresh_addr {w : World α} {p : Nat} {b : dynamic_buffer α}
    (h : w.read p = some b) : p ≠ w.heap.length + 1 := by
  have := w.read_le p b h
  omega

theorem change_capacity_dynamic_dynamic (K : Nat) (thr : Nat → Bool) (n : Nat) (w : World α)
    (v : socow_vector α) (hn : K < n) (hd : v.dynamic_ = true) (b : dynamic_buffer α)
    (hb : w.read v.dynamic_buffer_ = some b) :
    (∃ w', change_capacity K thr n (w, v) = .ok (w',
        { v with dynamic_buffer_ := w.heap.length + 1, dynamic_ := true }) ∧
      w'.copies = w.copies + v.size_ ∧
      (∀ k, k < v.size_ → thr (w.copies + k) = false) ∧
      ∀ q, w'.read q =
        if q = w.heap.length + 1 then some ⟨1, n, filled b.dynamic_data raw 0 v.size_⟩
        else if q = v.dynamic_buffer_ then
          (if b.ref_count > 1 then some { b with ref_count := b.ref_count - 1 } else none)
        else w.read q) ∨
    ∃ k w', k < v.size_ ∧ thr (w.copies + k) = true ∧
      (∀ m, m < k → thr (w.copies + m) = false) ∧
      change_capacity K thr n (w, v) = .error (w', v) ∧ w'.copies = w.copies + k + 1 ∧
      ∀ q, w'.read q = w.read q := by
  have hne := World.ne_fresh_addr hb
  have hn' : ¬ n ≤ K := by omega
  unfold change_capacity
  simp only [hn, hn', hd, decide_True, decide_False, Bool.and_self, Bool.false_and, if_true,
    if_false, Bool.false_eq_true]
  have e1 : ((allocate_buffer w n).2.buf v.dynamic_buffer_).dynamic_data = b.dynamic_data := by
    simp [World.buf, World.read_allocate, hne, hb]
  have e2 : ((allocate_buffer w n).2.buf (allocate_buffer w n).1).dynamic_data = raw := by
    simp [World.buf, World.read_allocate, allocate_buffer_fst]
  rw [e1, e2, allocate_buffer_copies]
  rcases copy_from_begin_spec thr b.dynamic_data raw v.size_ w.copies with
    ⟨h1, h2⟩ | ⟨k, hk, hk1, hk2, hk3⟩
  · left
    rw [h1]
    refine ⟨_, rfl, ?_, h2, ?_⟩
    · unfold clear_dynamic
      split <;> simp
    · intro q
      have hne' : w.heap.length + 1 ≠ v.dynamic_buffer_ := fun h => hne h.symm
      have e3 : ((World.modify { heap := (allocate_buffer w n).2.heap, copies := w.copies + v.size_ }
          (allocate_buffer w n).1 fun b' =>
            { ref_count := b'.ref_count, capacity_ := b'.capacity_,
              dynamic_data := filled b.dynamic_data raw 0 v.size_ }).buf
          v.dynamic_buffer_).ref_count = b.ref_count := by
        simp only [World.buf, World.read_modify, allocate_buffer_fst]
        rw [if_neg hne]
        show (((allocate_buffer w n).2.read v.dynamic_buffer_).getD _).ref_count = _
        simp [World.read_allocate, hne, hb]
      unfold clear_dynamic
      simp only [e3]
      by_cases hrc : b.ref_count > 1
      · simp only [hrc, if_true, World.read_modify, allocate_buffer_fst]
        by_cases hq1 : q = w.heap.length + 1
        · subst hq1
          rw [if_neg hne', if_pos rfl, if_pos rfl]
          show Option.map _ ((allocate_buffer w n).2.read _) = _
          simp [World.read_allocate]
        · by_cases hq2 : q = v.dynamic_buffer_
          · subst hq2
            simp only [if_true, hq1, if_false]
            show Option.map _ ((allocate_buffer w n).2.read _) = _
            simp [World.read_allocate, hq1, hb]
          · simp only [hq1, hq2, if_false]
            show (allocate_buffer w n).2.read q = _
            simp [World.read_allocate, hq1]
      · simp only [hrc, if_false, World.read_free, World.read_modify, allocate_buffer_fst]
        by_cases hq1 : q = w.heap.length + 1
        · subst hq1
          rw [if_neg hne', if_neg hne', if_pos rfl, if_pos rfl]
          show Option.map _ ((allocate_buffer w n).2.read _) = _
          simp [World.read_allocate]
        · by_cases hq2 : q = v.dynamic_buffer_
          · subst hq2
            simp [hq1]
          · simp only [hq1, hq2, if_false]
            show (allocate_buffer w n).2.read q = _
            simp [World.read_allocate, hq1]
  · right
    rw [hk3]
    refine ⟨k, _, hk, hk1, hk2, rfl, by simp, ?_⟩
    intro q
    show ((allocate_buffer w n).2.free (allocate_buffer w n).1).read q = _
    rw [World.read_free, World.read_allocate, allocate_buffer_fst]
    by_cases hq1 : q = w.heap.length + 1
    · subst hq1
      simp [World.read_fresh]
    · simp [hq1]

theorem change_capacity_static_dynamic (K : Nat) (thr : Nat → Bool) (n : Nat) (w : World α)
    (v : socow_vector α) (hn : K < n) (hd : v.dynamic_ = false) :
    (∃ w', change_capacity K thr n (w, v) = .ok (w',
        { v with static_data := clear_prefix v.static_data v.size_,
                 dynamic_buffer_ := w.heap.length + 1, dynamic_ := true }) ∧
      w'.copies = w.copies + v.size_ ∧
      (∀ k, k < v.size_ → thr (w.copies + k) = false) ∧
      ∀ q, w'.read q =
        if q = w.heap.length + 1 then some ⟨1, n, filled v.static_data raw 0 v.size_⟩
        else w.read q) ∨
    ∃ k w', k < v.size_ ∧ thr (w.copies + k) = true ∧
      (∀ m, m < k → thr (w.copies + m) = false) ∧
      change_capacity K thr n (w, v) = .error (w', v) ∧ w'.copies = w.copies + k + 1 ∧
      ∀ q, w'.read q = w.read q := by
  have hn' : ¬ n ≤ K := by omega
  unfold change_capacity
  simp only [hn, hn', hd, decide_True, decide_False, Bool.and_self, Bool.false_and, if_true,
    if_false, Bool.false_eq_true, Bool.and_false]
  have e2 : ((allocate_buffer w n).2.buf (allocate_buffer w n).1).dynamic_data = raw := by
    simp [World.buf, World.read_allocate, allocate_buffer_fst]
  rw [e2, allocate_buffer_copies]
  rcases copy_from_begin_spec thr v.static_data raw v.size_ w.copies with
    ⟨h1, h2⟩ | ⟨k, hk, hk1, hk2, hk3⟩
  · left
    rw [h1]
    refine ⟨_, rfl, by simp, h2, ?_⟩
    intro q
    simp only [World.read_modify, allocate_buffer_fst]
    by_cases hq1 : q = w.heap.length + 1
    · subst hq1
      rw [if_pos rfl, if_pos rfl]
      show Option.map _ ((allocate_buffer w n).2.read _) = _
      simp [World.read_allocate]
    · simp only [hq1, if_false]
      show (allocate_buffer w n).2.read q = _
      simp [World.read_allocate, hq1]
  · right
    rw [hk3]
    refine ⟨k, _, hk, hk1, hk2, rfl, by simp, ?_⟩
    intro q
    show ((allocate_buffer w n).2.free (allocate_buffer w n).1).read q = _
    rw [World.read_free, World.read_allocate, allocate_buffer_fst]
    by_cases hq1 : q = w.heap.length + 1
    · subst hq1
      simp [World.read_fresh]
    · simp [hq1]

theorem change_capacity_static_static (K : Nat) (thr : Nat → Bool) (n : Nat) (w : World α)
    (v : socow_vector α) (hn : n ≤ K) (hd : v.dynamic_ = false) :
    change_capacity K thr n (w, v) = .ok (w, v) := by
  have hn' : ¬ K < n := by omega
  unfold change_capacity
  simp [hn, hn', hd]

/-! ## Detach -/

theorem filled_lt (src dst : Slots α) (n j : Nat) (h : j < n) : filled src dst 0 n j = src j := by
  unfold filled
  rw [if_pos]
  omega

theorem filled_ge (src dst : Slots α) (start n j : Nat) (h : start + n ≤ j) :
    filled src dst start n j = dst j := by
  unfold filled
  rw [if_neg]
  omega

theorem unshare_noop (K : Nat) (thr : Nat → Bool) (w : World α) (v : socow_vector α)
    (h : Excl w v) : unshare K thr (w, v) = .ok (w, v) := by
  unfold unshare
  cases hd : v.dynamic_ with
  | false => simp
  | true =>
    have := h hd
    unfold rc at this
    have h' : ¬ (w.buf v.dynamic_buffer_).ref_count > 1 := by omega
    simp [h']

theorem detach_to_static (K : Nat) (thr : Nat → Bool) (w : World α) (v : socow_vector α)
    (b : dynamic_buffer α) (hd : v.dynamic_ = true) (hb : w.read v.dynamic_buffer_ = some b)
    (hrc : 1 < b.ref_count) (n : Nat) (hn : n ≤ K)
    (hcase : v.size_ ≤ K ∨ (K < v.size_ ∧ b.capacity_ ≤ K)) :
    DetachSpec K thr w v b (change_capacity K thr n (w, v)) := by
  have hbuf : w.buf v.dynamic_buffer_ = b := by simp [World.buf, hb]
  have hrc1 : ¬ b.ref_count - 1 = 0 := by omega
  rcases change_capacity_static_ok K thr n w v hn hd with
    ⟨w', e, hc, ht, hr⟩ | ⟨k, hk, hk1, hk2, e⟩
  · left
    refine ⟨w', _, e, rfl, ?_, ?_, hc, ht, ?_, ?_⟩
    · intro j hj
      simp [cdata, hbuf, filled_lt _ _ _ _ hj]
    · intro j _ h
      simp at h
    · simp [hr, hb, hrc1]
    · have hq : ∀ q, q ≠ v.dynamic_buffer_ → w'.read q = w.read q := by
        intro q hq
        simp [hr, hq]
      rcases hcase with h | ⟨h, h'⟩
      · exact Or.inl ⟨rfl, h, hq⟩
      · exact Or.inr (Or.inr ⟨rfl, h, h', hq⟩)
  · right
    exact ⟨k, _, _, hk, hk1, hk2, e, rfl, fun _ => rfl, rfl, hd, rfl⟩

theorem detach_to_dynamic (K : Nat) (thr : Nat → Bool) (w : World α) (v : socow_vector α)
    (b : dynamic_buffer α) (hd : v.dynamic_ = true) (hb : w.read v.dynamic_buffer_ = some b)
    (hrc : 1 < b.ref_count) (hs : K < v.size_) (hcap : K < b.capacity_) :
    DetachSpec K thr w v b (change_capacity K thr b.capacity_ (w, v)) := by
  have hne := World.ne_fresh_addr hb
  rcases change_capacity_dynamic_dynamic K thr b.capacity_ w v hcap hd b hb with
    ⟨w', e, hc, ht, hr⟩ | ⟨k, w', hk, hk1, hk2, e, hc, hr⟩
  · left
    have hrd : w'.read (w.heap.length + 1) =
        some ⟨1, b.capacity_, filled b.dynamic_data raw 0 v.size_⟩ := by simp [hr]
    refine ⟨w', _, e, rfl, ?_, ?_, hc, ht, ?_,
      Or.inr (Or.inl ⟨rfl, rfl, hs, hcap, ⟨_, hrd⟩, ?_⟩)⟩
    · intro j hj
      simp [cdata, World.buf, hrd, filled_lt _ _ _ _ hj]
    · intro j hj _
      simp [cdata, World.buf, hrd, filled_ge _ _ 0 _ _ (by omega : 0 + v.size_ ≤ j), raw]
    · simp [hr, hne, hrc]
    · intro q hq1 hq2
      simp [hr, hq1, hq2]
  · right
    exact ⟨k, w', v, hk, hk1, hk2, e, hc, hr, rfl, hd, rfl⟩

/-- What a detach of a block shared with other containers does. -/
theorem unshare_shared (K : Nat) (thr : Nat → Bool) (w : World α) (v : socow_vector α)
    (b : dynamic_buffer α) (hd : v.dynamic_ = true) (hb : w.read v.dynamic_buffer_ = some b)
    (hrc : 1 < b.ref_count) :
    DetachSpec K thr w v b (unshare K thr (w, v)) := by
  have hbuf : w.buf v.dynamic_buffer_ = b := by simp [World.buf, hb]
  by_cases hs : v.size_ > K
  · have e : unshare K thr (w, v) = change_capacity K thr b.capacity_ (w, v) := by
      unfold unshare
      simp [hd, hbuf, hrc, hs]
    rw [e]
    by_cases hcap : K < b.capacity_
    · exact detach_to_dynamic K thr w v b hd hb hrc hs hcap
    · exact detach_to_static K thr w v b hd hb hrc _ (by omega) (Or.inr ⟨hs, by omega⟩)
  · have e : unshare K thr (w, v) = change_capacity K thr K (w, v) := by
      unfold unshare
      simp [hd, hbuf, hrc, hs]
    rw [e]
    exact detach_to_static K thr w v b hd hb hrc _ (Nat.le_refl K) (Or.inl (by omega))

/-! ## The effect relation -/

theorem refOf_le (v : socow_vector α) (q : Nat) : refOf v q ≤ 1 := by
  unfold refOf; split <;> omega

theorem refOf_static (v : socow_vector α) (q : Nat) (h : v.dynamic_ = false) :
    refOf v q = 0 := by
  simp [refOf, h]

theorem refOf_self (v : socow_vector α) (h : v.dynamic_ = true) :
    refOf v v.dynamic_buffer_ = 1 := by
  simp [refOf, h]

theorem refOf_ne (v : socow_vector α) (q : Nat) (h : q ≠ v.dynamic_buffer_) :
    refOf v q = 0 := by
  have : ¬ v.dynamic_buffer_ = q := fun e => h e.symm
  simp [refOf, this]

theorem refOf_eq_one {v : socow_vector α} {q : Nat} (h : refOf v q = 1) :
    v.dynamic_ = true ∧ v.dynamic_buffer_ = q := by
  unfold refOf at h
  split at h
  · assumption
  · cases h

theorem refOf_zero_ne {v : socow_vector α} {q : Nat} (h : refOf v q = 0)
    (hd : v.dynamic_ = true) : q ≠ v.dynamic_buffer_ := by
  intro e
  subst e
  rw [refOf_self v hd] at h
  cases h

theorem rc_of_read {w : World α} {q : Nat} {b : dynamic_buffer α} (h : w.read q = some b) :
    rc w q = b.ref_count := by
  rw [rc_eq, h]

theorem rc_of_none {w : World α} {q : Nat} (h : w.read q = none) : rc w q = 0 := by
  rw [rc_eq, h]

theorem HeapOK.read_none {w : World α} (h : HeapOK w) {q : Nat} (h0 : rc w q = 0) :
    w.read q = none := by
  cases hr : w.read q with
  | none => rfl
  | some b =>
    have := h q b hr
    rw [rc_of_read hr] at h0
    omega

theorem Eff.refl_eff (w : World α) (x : socow_vector α) (h1 : HeapOK w) (h2 : Valid w x) :
    Eff w x w x :=
  ⟨h1, h2, fun _ => rfl, fun _ b hb _ _ => ⟨b, hb, rfl, rfl⟩, fun _ _ => Or.inl rfl⟩

theorem Eff.trans_eff {w w' w'' : World α} {x x' x'' : socow_vector α}
    (h1 : Eff w x w' x') (h2 : Eff w' x' w'' x'') : Eff w x w'' x'' := by
  refine ⟨h2.heapOK, h2.valid, ?_, ?_, ?_⟩
  · intro q
    have a := h1.count q
    have b := h2.count q
    omega
  · intro q b hb hx hrc
    obtain ⟨b', hb', hc, hd⟩ := h1.shared q b hb hx hrc
    have a := h1.count q
    rw [rc_of_read hb, rc_of_read hb', hx] at a
    by_cases hx' : refOf x' q = 1
    · rw [hx'] at a
      obtain ⟨b'', hb'', hc', hd'⟩ := h2.shared q b' hb' hx' (by omega)
      exact ⟨b'', hb'', hc'.trans hc, hd'.trans hd⟩
    · have hx0 : refOf x' q = 0 := by have := refOf_le x' q; omega
      rcases h2.other q hx0 with h | ⟨h, _⟩
      · exact ⟨b', by rw [h, hb'], hc, hd⟩
      · rw [hb'] at h; cases h
  · intro q hx
    have a := h1.count q
    have b := h2.count q
    rcases h1.other q hx with h | ⟨h, hr, hc⟩
    · by_cases hx' : refOf x' q = 1
      · exfalso
        simp only [rc_eq, h] at a
        omega
      · have hx0 : refOf x' q = 0 := by have := refOf_le x' q; omega
        rcases h2.other q hx0 with h' | ⟨h', hr', hc'⟩
        · exact Or.inl (h'.trans h)
        · exact Or.inr ⟨h ▸ h', hr', hc'⟩
    · by_cases hx'' : refOf x'' q = 1
      · right
        refine ⟨h, hx'', ?_⟩
        omega
      · left
        have hx0 : refOf x'' q = 0 := by have := refOf_le x'' q; omega
        rw [h]
        apply h2.heapOK.read_none
        omega

/-- A block that the container does not own alone keeps its capacity and elements. -/
theorem Eff.frame_eff {w w' : World α} {x x' : socow_vector α} (h : Eff w x w' x')
    (q : Nat) (b : dynamic_buffer α) (hb : w.read q = some b)
    (hx : refOf x q = 1 → 2 ≤ b.ref_count) :
    ∃ b', w'.read q = some b' ∧ b'.capacity_ = b.capacity_ ∧
      b'.dynamic_data = b.dynamic_data := by
  by_cases h1 : refOf x q = 1
  · exact h.shared q b hb h1 (hx h1)
  · have hx0 : refOf x q = 0 := by have := refOf_le x q; omega
    rcases h.other q hx0 with h' | ⟨h', _⟩
    · exact ⟨b, by rw [h', hb], rfl, rfl⟩
    · rw [hb] at h'; cases h'

/-- An operation that leaves every block and the container's mode and pointer alone. -/
theorem Eff.of_same_heap_eff {w w' : World α} {x x' : socow_vector α} (h1 : HeapOK w)
    (h2 : Valid w x) (hr : ∀ q, w'.read q = w.read q) (hd : x'.dynamic_ = x.dynamic_)
    (hp : x'.dynamic_buffer_ = x.dynamic_buffer_) : Eff w x w' x' := by
  refine ⟨?_, ?_, ?_, ?_, ?_⟩
  · intro q b hb
    rw [hr] at hb
    exact h1 q b hb
  · intro hx
    rw [hd] at hx
    rw [hp, hr]
    exact h2 hx
  · intro q
    simp only [rc_eq, hr, refOf, hd, hp]
  · intro q b hb _ _
    exact ⟨b, by rw [hr, hb], rfl, rfl⟩
  · intro q _
    exact Or.inl (hr q)

theorem change_capacity_eff (K : Nat) (thr : Nat → Bool) (n : Nat) (w : World α)
    (v : socow_vector α) (h1 : HeapOK w) (h2 : Valid w v) :
    Eff w v (final (change_capacity K thr n (w, v))).1
      (final (change_capacity K thr n (w, v))).2 := by
  cases hd : v.dynamic_ with
  | false =>
    by_cases hn : K < n
    · rcases change_capacity_static_dynamic K thr n w v hn hd with
        ⟨w', e, _, _, hr⟩ | ⟨k, w', _, _, _, e, _, hr⟩
      · rw [e]
        simp only [final]
        have hf := w.read_fresh
        have hnew : w'.read (w.heap.length + 1) =
            some ⟨1, n, filled v.static_data raw 0 v.size_⟩ := by simp [hr]
        refine ⟨?_, ?_, ?_, ?_, ?_⟩
        · intro q b hb
          rw [hr] at hb
          by_cases hq : q = w.heap.length + 1
          · simp only [hq, if_true, Option.some.injEq] at hb
            rw [← hb]
          · simp only [hq, if_false] at hb
            exact h1 q b hb
        · intro _
          simp [hr]
        · intro q
          rw [refOf_static v q hd]
          simp only [rc_eq, hr, refOf]
          by_cases hq : q = w.heap.length + 1
          · subst hq
            simp [hf]
          · have : ¬ w.heap.length + 1 = q := fun e => hq e.symm
            simp [hq, this]
        · intro q b _ hx _
          rw [refOf_static v q hd] at hx
          cases hx
        · intro q _
          by_cases hq : q = w.heap.length + 1
          · subst hq
            exact Or.inr ⟨hf, by simp [refOf], rc_of_read hnew⟩
          · exact Or.inl (by simp [hr, hq])
      · rw [e]
        exact Eff.of_same_heap_eff h1 h2 hr rfl rfl
    · rw [change_capacity_static_static K thr n w v (by omega) hd]
      exact Eff.refl_eff w v h1 h2
  | true =>
    obtain ⟨b, hb, hb1⟩ := Valid.rc_pos h1 h2 hd
    by_cases hn : K < n
    · rcases change_capacity_dynamic_dynamic K thr n w v hn hd b hb with
        ⟨w', e, _, _, hr⟩ | ⟨k, w', _, _, _, e, _, hr⟩
      · rw [e]
        simp only [final]
        have hf := w.read_fresh
        have hne := World.ne_fresh_addr hb
        have hnew : w'.read (w.heap.length + 1) =
            some ⟨1, n, filled b.dynamic_data raw 0 v.size_⟩ := by simp [hr]
        refine ⟨?_, ?_, ?_, ?_, ?_⟩
        · intro q b' hb'
          rw [hr] at hb'
          by_cases hq : q = w.heap.length + 1
          · simp only [hq, if_true, Option.some.injEq] at hb'
            rw [← hb']
          · simp only [hq, if_false] at hb'
            by_cases hq2 : q = v.dynamic_buffer_
            · simp only [hq2, if_true] at hb'
              by_cases hrc : b.ref_count > 1
              · simp only [hrc, if_true, Option.some.injEq] at hb'
                rw [← hb']
                show 1 ≤ b.ref_count - 1
                omega
              · simp [hrc] at hb'
            · simp only [hq2, if_false] at hb'
              exact h1 q b' hb'
        · intro _
          simp [hr]
        · intro q
          simp only [rc_eq, hr, refOf, hd]
          by_cases hq : q = w.heap.length + 1
          · subst hq
            simp [hf, hne]
          · have hq' : ¬ w.heap.length + 1 = q := fun e => hq e.symm
            by_cases hq2 : q = v.dynamic_buffer_
            · subst hq2
              by_cases hrc : b.ref_count > 1
              · simp [hq, hq', hrc, hb]
                exact Nat.sub_add_cancel hb1
              · simp [hq, hq', hrc, hb]
                omega
            · have hq2' : ¬ v.dynamic_buffer_ = q := fun e => hq2 e.symm
              simp [hq, hq', hq2, hq2']
        · intro q b0 hb0 hx hrc
          have hq := World.ne_fresh_addr hb0
          have hq2 := (refOf_eq_one hx).2
          subst hq2
          rw [hb] at hb0
          cases hb0
          have hrc' : b.ref_count > 1 := by omega
          exact ⟨{ b with ref_count := b.ref_count - 1 }, by simp [hr, hq, hrc'], rfl, rfl⟩
        · intro q hx
          have hq2 := refOf_zero_ne hx hd
          by_cases hq : q = w.heap.length + 1
          · subst hq
            exact Or.inr ⟨hf, by simp [refOf], rc_of_read hnew⟩
          · exact Or.inl (by simp [hr, hq, hq2])
      · rw [e]
        exact Eff.of_same_heap_eff h1 h2 hr rfl rfl
    · rcases change_capacity_static_ok K thr n w v (by omega) hd with
        ⟨w', e, _, _, hr⟩ | ⟨k, _, _, _, e⟩
      · rw [e]
        simp only [final]
        refine ⟨?_, ?_, ?_, ?_, ?_⟩
        · intro q b' hb'
          rw [hr] at hb'
          by_cases hq2 : q = v.dynamic_buffer_
          · subst hq2
            simp only [if_true, hb] at hb'
            by_cases hrc : b.ref_count - 1 = 0
            · simp [hrc] at hb'
            · simp only [hrc, if_false, Option.some.injEq] at hb'
              rw [← hb']
              show 1 ≤ b.ref_count - 1
              omega
          · simp only [hq2, if_false] at hb'
            exact h1 q b' hb'
        · intro hx
          simp at hx
        · intro q
          simp only [rc_eq, hr, refOf, hd]
          by_cases hq2 : q = v.dynamic_buffer_
          · subst hq2
            by_cases hrc : b.ref_count - 1 = 0
            · simp [hrc, hb]
              omega
            · simp [hrc, hb]
              exact Nat.sub_add_cancel hb1
          · have hq2' : ¬ v.dynamic_buffer_ = q := fun e => hq2 e.symm
            simp [hq2, hq2']
        · intro q b0 hb0 hx hrc
          have hq2 := (refOf_eq_one hx).2
          subst hq2
          rw [hb] at hb0
          cases hb0
          have hrc' : ¬ b.ref_count - 1 = 0 := by omega
          exact ⟨{ b with ref_count := b.ref_count - 1 }, by simp [hr, hrc', hb], rfl, rfl⟩
        · intro q hx
          have hq2 := refOf_zero_ne hx hd
          exact Or.inl (by simp [hr, hq2])
      · rw [e]
        exact Eff.of_same_heap_eff h1 h2 (fun _ => rfl) rfl rfl

theorem unshare_eff (K : Nat) (thr : Nat → Bool) (w : World α) (v : socow_vector α)
    (h1 : HeapOK w) (h2 : Valid w v) :
    Eff w v (final (unshare K thr (w, v))).1 (final (unshare K thr (w, v))).2 := by
  unfold unshare
  split
  · split
    · exact change_capacity_eff K thr _ w v h1 h2
    · exact change_capacity_eff K thr _ w v h1 h2
  · exact Eff.refl_eff w v h1 h2

/-- A detach that returns leaves the size and the elements as they were, on storage the
container owns alone. -/
theorem unshare_ok_spec (K : Nat) (thr : Nat → Bool) (w w' : World α)
    (v v' : socow_vector α) (hv : Valid w v)
    (he : unshare K thr (w, v) = .ok (w', v')) :
    v'.size_ = v.size_ ∧ (∀ j, j < v.size_ → cdata w' v' j = cdata w v j) ∧ Excl w' v' ∧
      Valid w' v' := by
  by_cases hx : Excl w v
  · rw [unshare_noop K thr w v hx] at he
    cases he
    exact ⟨rfl, fun _ _ => rfl, hx, hv⟩
  · unfold Excl at hx
    have hd : v.dynamic_ = true := by
      by_contra h
      exact hx (fun h' => absurd h' h)
    obtain ⟨b, hb⟩ := hv hd
    have hrc : 1 < b.ref_count := by
      have : ¬ rc w v.dynamic_buffer_ ≤ 1 := fun h => hx (fun _ => h)
      rw [rc_of_read hb] at this
      omega
    have hcd : cdata w v = b.dynamic_data := by simp [cdata, hd, World.buf, hb]
    rcases unshare_shared K thr w v b hd hb hrc with
      ⟨w1, v1, e, hs, hc, _, _, _, _, hm⟩ | ⟨k, w1, v1, _, _, _, e, _⟩
    · rw [e] at he
      cases he
      refine ⟨hs, fun j hj => by rw [hc j hj, hcd], ?_, ?_⟩
      · intro hd'
        rcases hm with ⟨h, _⟩ | ⟨_, hp, _, _, ⟨d, hr⟩, _⟩ | ⟨h, _⟩
        · rw [h] at hd'; cases hd'
        · rw [hp, rc_of_read hr]
        · rw [h] at hd'; cases hd'
      · intro hd'
        rcases hm with ⟨h, _⟩ | ⟨_, hp, _, _, ⟨d, hr⟩, _⟩ | ⟨h, _⟩
        · rw [h] at hd'; cases hd'
        · exact ⟨_, hp ▸ hr⟩
        · rw [h] at hd'; cases hd'
    · rw [e] at he
      cases he

theorem unshare_ok (K : Nat) (thr : Nat → Bool) (w : World α) (v : socow_vector α)
    (hv : Valid w v) (hthr : ∀ k, thr k = false) :
    ∃ w' v', unshare K thr (w, v) = .ok (w', v') := by
  cases h : unshare K thr (w, v) with
  | ok s => exact ⟨s.1, s.2, rfl⟩
  | error s =>
    exfalso
    by_cases hx : Excl w v
    · rw [unshare_noop K thr w v hx] at h
      cases h
    · unfold Excl at hx
      have hd : v.dynamic_ = true := by
        by_contra h
        exact hx (fun h' => absurd h' h)
      obtain ⟨b, hb⟩ := hv hd
      have hrc : 1 < b.ref_count := by
        have : ¬ rc w v.dynamic_buffer_ ≤ 1 := fun h => hx (fun _ => h)
        rw [rc_of_read hb] at this
        omega
      rcases unshare_shared K thr w v b hd hb hrc with
        ⟨w1, v1, e, _⟩ | ⟨k, w1, v1, _, hk, _⟩
      · rw [e] at h
        cases h
      · rw [hthr] at hk
        cases hk

/-! ## Writing through `data()` -/

theorem store_snd (w : World α) (v : socow_vector α) (a : Slots α) :
    (store (w, v) a).2.size_ = v.size_ ∧ (store (w, v) a).2.dynamic_ = v.dynamic_ ∧
      (store (w, v) a).2.dynamic_buffer_ = v.dynamic_buffer_ := by
  unfold store
  split <;> simp

theorem store_read (w : World α) (v : socow_vector α) (a : Slots α) (q : Nat) :
    (store (w, v) a).1.read q =
      if v.dynamic_ = true ∧ q = v.dynamic_buffer_ then
        (w.read q).map (fun b => { b with dynamic_data := a })
      else w.read q := by
  unfold store
  cases hd : v.dynamic_ with
  | false => simp
  | true =>
    simp only [if_true, World.read_modify, true_and]
    by_cases hq : q = v.dynamic_buffer_
    · subst hq; simp
    · simp [hq]

theorem store_copies (w : World α) (v : socow_vector α) (a : Slots α) :
    (store (w, v) a).1.copies = w.copies := by
  unfold store
  split <;> simp

theorem cdata_store (w : World α) (v : socow_vector α) (a : Slots α) (hv : Valid w v) :
    cdata (store (w, v) a).1 (store (w, v) a).2 = a := by
  unfold cdata
  rw [(store_snd w v a).2.1, (store_snd w v a).2.2]
  cases hd : v.dynamic_ with
  | false => simp [store, hd]
  | true =>
    obtain ⟨b, hb⟩ := hv hd
    simp [World.buf, store_read, hd, hb]

theorem capacity_store (K : Nat) (w : World α) (v : socow_vector α) (a : Slots α) :
    capacity K (store (w, v) a).1 (store (w, v) a).2 = capacity K w v := by
  unfold capacity
  rw [(store_snd w v a).2.1, (store_snd w v a).2.2]
  cases hd : v.dynamic_ with
  | false => simp
  | true =>
    simp only [if_true, World.buf, store_read, hd, true_and]
    cases w.read v.dynamic_buffer_ <;> simp

theorem rc_store (w : World α) (v : socow_vector α) (a : Slots α) (q : Nat) :
    rc (store (w, v) a).1 q = rc w q := by
  simp only [rc_eq, store_read]
  by_cases h : v.dynamic_ = true ∧ q = v.dynamic_buffer_
  · rw [if_pos h]
    cases w.read q <;> rfl
  · rw [if_neg h]

theorem store_eff (w : World α) (v : socow_vector α) (a : Slots α) (h1 : HeapOK w)
    (h2 : Valid w v) (h3 : Excl w v) :
    Eff w v (store (w, v) a).1 (store (w, v) a).2 := by
  obtain ⟨e1, e2, e3⟩ := store_snd w v a
  refine ⟨?_, ?_, ?_, ?_, ?_⟩
  · intro q b hb
    have := rc_store w v a q
    rw [rc_of_read hb] at this
    rw [store_read] at hb
    split at hb
    · cases hr : w.read q with
      | none => rw [hr] at hb; cases hb
      | some b0 =>
        rw [rc_of_read hr] at this
        rw [this]
        exact h1 q b0 hr
    · exact h1 q b hb
  · intro hd
    rw [e2] at hd
    obtain ⟨b, hb⟩ := h2 hd
    rw [e3]
    exact ⟨{ b with dynamic_data := a }, by rw [store_read, hb]; simp [hd]⟩
  · intro q
    rw [rc_store]
    simp [refOf, e2, e3]
  · intro q b hb hx hrc
    exfalso
    obtain ⟨hd, hp⟩ := refOf_eq_one hx
    subst hp
    have := h3 hd
    rw [rc_of_read hb] at this
    omega
  · intro q hx
    left
    rw [store_read]
    split
    · rename_i h
      exact absurd h.2 (refOf_zero_ne hx h.1)
    · rfl

theorem Excl_store (w : World α) (v : socow_vector α) (a : Slots α) (h : Excl w v) :
    Excl (store (w, v) a).1 (store (w, v) a).2 := by
  obtain ⟨_, e2, e3⟩ := store_snd w v a
  intro hd
  rw [e3, rc_store]
  exact h (e2 ▸ hd)

theorem Valid_store (w : World α) (v : socow_vector α) (a : Slots α) (h : Valid w v) :
    Valid (store (w, v) a).1 (store (w, v) a).2 := by
  obtain ⟨_, e2, e3⟩ := store_snd w v a
  intro hd
  rw [e2] at hd
  obtain ⟨b, hb⟩ := h hd
  rw [e3]
  exact ⟨{ b with dynamic_data := a }, by rw [store_read, hb]; simp [hd]⟩

/-! ## Reference bookkeeping -/

theorem Moves.refl_moves (w : World α) (ρ : Nat → Nat) (h : HeapOK w) : Moves w ρ w ρ :=
  ⟨h, fun _ => rfl, fun _ b hb _ => ⟨b, hb, rfl, rfl⟩, fun _ _ => Or.inl rfl⟩

theorem Moves.trans_moves {w w' w'' : World α} {ρ ρ' ρ'' : Nat → Nat}
    (h1 : Moves w ρ w' ρ') (h2 : Moves w' ρ' w'' ρ'') : Moves w ρ w'' ρ'' := by
  refine ⟨h2.heapOK, ?_, ?_, ?_⟩
  · intro q
    have a := h1.count q
    have b := h2.count q
    omega
  · intro q b hb hx
    obtain ⟨b', hb', hc, hd⟩ := h1.shared q b hb hx
    have a := h1.count q
    rw [rc_of_read hb, rc_of_read hb'] at a
    obtain ⟨b'', hb'', hc', hd'⟩ := h2.shared q b' hb' (by omega)
    exact ⟨b'', hb'', hc'.trans hc, hd'.trans hd⟩
  · intro q hx
    have a := h1.count q
    have b := h2.count q
    rcases h1.other q hx with h | ⟨h, hc⟩
    · have e : rc w' q = rc w q := by simp only [rc_eq, h]
      rcases h2.other q (by omega) with h' | ⟨h', hc'⟩
      · exact Or.inl (h'.trans h)
      · exact Or.inr ⟨h ▸ h', hc'⟩
    · exact Or.inr ⟨h, by omega⟩

/-- References held by somebody else ride along. -/
theorem Moves.frame_moves {w w' : World α} {ρ ρ' : Nat → Nat} (h : Moves w ρ w' ρ')
    (σ : Nat → Nat) : Moves w (fun q => ρ q + σ q) w' (fun q => ρ' q + σ q) := by
  refine ⟨h.heapOK, ?_, ?_, ?_⟩
  · intro q
    have := h.count q
    show rc w' q + (ρ q + σ q) = rc w q + (ρ' q + σ q)
    omega
  · intro q b hb hx
    exact h.shared q b hb (by
      have : ρ q + σ q < b.ref_count := hx
      omega)
  · intro q hx
    have hx' : ρ q + σ q = 0 := hx
    rcases h.other q (by omega) with h' | ⟨h', hc⟩
    · exact Or.inl h'
    · exact Or.inr ⟨h', by show rc w' q = ρ' q + σ q; omega⟩

theorem Moves.congr {w w' : World α} {ρ ρ' σ σ' : Nat → Nat} (h : Moves w ρ w' ρ')
    (e1 : ∀ q, σ q = ρ q) (e2 : ∀ q, σ' q = ρ' q) : Moves w σ w' σ' := by
  have h1 : σ = ρ := funext e1
  have h2 : σ' = ρ' := funext e2
  rw [h1, h2]
  exact h

theorem Moves.of_same_heap_moves {w w' : World α} (ρ : Nat → Nat) (h : HeapOK w)
    (hr : ∀ q, w'.read q = w.read q) : Moves w ρ w' ρ := by
  refine ⟨?_, ?_, ?_, ?_⟩
  · intro q b hb
    rw [hr] at hb
    exact h q b hb
  · intro q
    simp only [rc_eq, hr]
  · intro q b hb _
    exact ⟨b, by rw [hr, hb], rfl, rfl⟩
  · intro q _
    exact Or.inl (hr q)

theorem Moves.of_same_heap_to {w : World α} (w' : World α) (ρ : Nat → Nat) (h : HeapOK w)
    (hr : ∀ q, w'.read q = w.read q) : Moves w ρ w' ρ :=
  Moves.of_same_heap_moves ρ h hr

theorem Eff.moves {w w' : World α} {x x' : socow_vector α} (h : Eff w x w' x') :
    Moves w (refOf x) w' (refOf x') := by
  refine ⟨h.heapOK, h.count, ?_, ?_⟩
  · intro q b hb hx
    exact h.frame_eff q b hb (fun h1 => by omega)
  · intro q hx
    rcases h.other q hx with h' | ⟨h', h1, h2⟩
    · exact Or.inl h'
    · exact Or.inr ⟨h', by rw [h1, h2]⟩

theorem Eff.of_moves {w w' : World α} {x x' : socow_vector α}
    (h : Moves w (refOf x) w' (refOf x')) (hv : Valid w' x') : Eff w x w' x' := by
  refine ⟨h.heapOK, hv, h.count, ?_, ?_⟩
  · intro q b hb hx hrc
    exact h.shared q b hb (by omega)
  · intro q hx
    rcases h.other q hx with h' | ⟨h', hc⟩
    · exact Or.inl h'
    · by_cases h1 : refOf x' q = 1
      · exact Or.inr ⟨h', h1, by omega⟩
      · have h0 : refOf x' q = 0 := by have := refOf_le x' q; omega
        left
        rw [h']
        exact h.heapOK.read_none (by omega)

theorem Moves.alloc (w : World α) (ρ : Nat → Nat) (n : Nat) (h : HeapOK w) :
    Moves w ρ (allocate_buffer w n).2 (fun q => ρ q + own1 (w.heap.length + 1) q) := by
  have hf := w.read_fresh
  refine ⟨?_, ?_, ?_, ?_⟩
  · intro q b hb
    rw [World.read_allocate] at hb
    by_cases hq : q = w.heap.length + 1
    · simp only [hq, if_true, Option.some.injEq] at hb
      rw [← hb]
    · simp only [hq, if_false] at hb
      exact h q b hb
  · intro q
    simp only [rc_eq, World.read_allocate, own1]
    by_cases hq : q = w.heap.length + 1
    · subst hq
      simp [hf]
      omega
    · simp [hq]
  · intro q b hb _
    have hq := World.ne_fresh_addr hb
    exact ⟨b, by simp [World.read_allocate, hq, hb], rfl, rfl⟩
  · intro q hx
    by_cases hq : q = w.heap.length + 1
    · subst hq
      right
      refine ⟨hf, ?_⟩
      simp [rc_eq, World.read_allocate, own1, hx]
    · left
      simp [World.read_allocate, hq]

/-- Deleting a block whose only reference is held by the code itself. -/
theorem Moves.free (w : World α) (ρ : Nat → Nat) (p : Nat) (b : dynamic_buffer α)
    (h : HeapOK w) (hb : w.read p = some b) (hrc : b.ref_count = 1) (hp : ρ p = 1) :
    Moves w ρ (w.free p) (fun q => ρ q - own1 p q) := by
  refine ⟨?_, ?_, ?_, ?_⟩
  · intro q b' hb'
    rw [World.read_free] at hb'
    by_cases hq : q = p
    · simp [hq] at hb'
    · simp only [hq, if_false] at hb'
      exact h q b' hb'
  · intro q
    simp only [rc_eq, World.read_free, own1]
    by_cases hq : q = p
    · subst hq
      simp [hb, hrc, hp]
    · simp [hq]
  · intro q b' hb' hx
    have hq : q ≠ p := by
      intro e
      subst e
      rw [hb] at hb'
      cases hb'
      omega
    exact ⟨b', by simp [World.read_free, hq, hb'], rfl, rfl⟩
  · intro q hx
    have hq : q ≠ p := by
      intro e
      subst e
      omega
    left
    simp [World.read_free, hq]

/-- Writing the elements of a block all of whose references the code holds itself. -/
theorem Moves.modify_data (w : World α) (ρ : Nat → Nat) (p : Nat)
    (f : dynamic_buffer α → dynamic_buffer α) (h : HeapOK w)
    (hf : ∀ b, (f b).ref_count = b.ref_count) (hp : rc w p ≤ ρ p) :
    Moves w ρ (w.modify p f) ρ := by
  refine ⟨?_, ?_, ?_, ?_⟩
  · intro q b' hb'
    rw [World.read_modify] at hb'
    by_cases hq : q = p
    · subst hq
      simp only [if_true] at hb'
      cases hr : w.read q with
      | none => rw [hr] at hb'; cases hb'
      | some b0 =>
        rw [hr] at hb'
        simp only [Option.map_some', Option.some.injEq] at hb'
        rw [← hb', hf]
        exact h q b0 hr
    · simp only [hq, if_false] at hb'
      exact h q b' hb'
  · intro q
    simp only [rc_eq, World.read_modify]
    by_cases hq : q = p
    · subst hq
      cases hr : w.read q <;> simp [hf]
    · simp [hq]
  · intro q b' hb' hx
    have hq : q ≠ p := by
      intro e
      subst e
      rw [rc_of_read hb'] at hp
      omega
    exact ⟨b', by simp [World.read_modify, hq, hb'], rfl, rfl⟩
  · intro q hx
    by_cases hq : q = p
    · subst hq
      left
      have h0 : rc w q = 0 := by omega
      have hn := h.read_none h0
      simp [World.read_modify, hn]
    · left
      simp [World.read_modify, hq]

theorem clear_dynamic_read (w : World α) (v : socow_vector α) (b : dynamic_buffer α)
    (hb : w.read v.dynamic_buffer_ = some b) (q : Nat) :
    (clear_dynamic w v).read q =
      if q = v.dynamic_buffer_ then
        (if b.ref_count > 1 then some { b with ref_count := b.ref_count - 1 } else none)
      else w.read q := by
  unfold clear_dynamic
  have hbuf : w.buf v.dynamic_buffer_ = b := by simp [World.buf, hb]
  rw [hbuf]
  by_cases hrc : b.ref_count > 1
  · simp only [hrc, if_true, World.read_modify]
    by_cases hq : q = v.dynamic_buffer_
    · subst hq; simp [hb]
    · simp [hq]
  · simp only [hrc, if_false, World.read_free, World.read_modify]
    by_cases hq : q = v.dynamic_buffer_
    · simp [hq]
    · simp [hq]

theorem clear_dynamic_copies (w : World α) (v : socow_vector α) :
    (clear_dynamic w v).copies = w.copies := by
  unfold clear_dynamic
  split <;> simp

/-- Dropping the reference a container in Shared mode holds. -/
theorem clear_dynamic_moves (w : World α) (v : socow_vector α) (b : dynamic_buffer α)
    (h : HeapOK w) (hb : w.read v.dynamic_buffer_ = some b) :
    Moves w (own1 v.dynamic_buffer_) (clear_dynamic w v) (fun _ => 0) := by
  have hr := clear_dynamic_read w v b hb
  have hb1 := h _ b hb
  refine ⟨?_, ?_, ?_, ?_⟩
  · intro q b' hb'
    rw [hr] at hb'
    by_cases hq : q = v.dynamic_buffer_
    · simp only [hq, if_true] at hb'
      by_cases hrc : b.ref_count > 1
      · simp only [hrc, if_true, Option.some.injEq] at hb'
        rw [← hb']
        show 1 ≤ b.ref_count - 1
        omega
      · simp [hrc] at hb'
    · simp only [hq, if_false] at hb'
      exact h q b' hb'
  · intro q
    simp only [rc_eq, hr, own1]
    by_cases hq : q = v.dynamic_buffer_
    · subst hq
      by_cases hrc : b.ref_count > 1
      · simp [hrc, hb]
        exact Nat.sub_add_cancel hb1
      · simp [hrc, hb]
        omega
    · simp [hq]
  · intro q b0 hb0 hx
    by_cases hq : q = v.dynamic_buffer_
    · subst hq
      rw [hb] at hb0
      cases hb0
      have hrc : b.ref_count > 1 := by simpa [own1] using hx
      exact ⟨{ b with ref_count := b.ref_count - 1 }, by simp [hr, hrc], rfl, rfl⟩
    · exact ⟨b0, by simp [hr, hq, hb0], rfl, rfl⟩
  · intro q hx
    have hq : q ≠ v.dynamic_buffer_ := by
      intro e
      simp [own1, e] at hx
    exact Or.inl (by simp [hr, hq])

theorem refOf_dynamic (v : socow_vector α) (h : v.dynamic_ = true) (q : Nat) :
    refOf v q = own1 v.dynamic_buffer_ q := by
  unfold refOf own1
  by_cases hq : q = v.dynamic_buffer_
  · subst hq; simp [h]
  · have : ¬ v.dynamic_buffer_ = q := fun e => hq e.symm
    simp [h, hq, this]

theorem reset_snd (s : St α) :
    (reset s).2.size_ = s.2.size_ ∧ (reset s).2.dynamic_ = s.2.dynamic_ ∧
      (reset s).2.dynamic_buffer_ = s.2.dynamic_buffer_ := by
  unfold reset
  split <;> simp

theorem reset_copies (s : St α) : (reset s).1.copies = s.1.copies := by
  unfold reset
  split
  · exact clear_dynamic_copies _ _
  · rfl

/-- The destructor gives up whatever the container referenced. -/
theorem reset_moves (w : World α) (v : socow_vector α) (h : HeapOK w) (hv : Valid w v) :
    Moves w (refOf v) (reset (w, v)).1 (fun _ => 0) := by
  unfold reset
  cases hd : v.dynamic_ with
  | true =>
    obtain ⟨b, hb⟩ := hv hd
    simp only [if_true]
    exact (clear_dynamic_moves w v b h hb).congr (refOf_dynamic v hd) (fun _ => rfl)
  | false =>
    simp only [Bool.false_eq_true, if_false]
    exact (Moves.refl_moves w (fun _ => 0) h).congr (fun q => refOf_static v q hd) (fun _ => rfl)

theorem Excl.cases (w : World α) (v : socow_vector α) (hv : Valid w v) :
    Excl w v ∨ ∃ b, v.dynamic_ = true ∧ w.read v.dynamic_buffer_ = some b ∧
      1 < b.ref_count := by
  by_cases hx : Excl w v
  · exact Or.inl hx
  · right
    unfold Excl at hx
    have hd : v.dynamic_ = true := by
      by_contra h
      exact hx (fun h' => absurd h' h)
    obtain ⟨b, hb⟩ := hv hd
    have hrc : 1 < b.ref_count := by
      have : ¬ rc w v.dynamic_buffer_ ≤ 1 := fun h => hx (fun _ => h)
      rw [rc_of_read hb] at this
      omega
    exact ⟨b, hd, hb, hrc⟩

/-- Mode and capacity after a detach that returned: unchanged, unless the container left
a shared block for its inline storage. -/
theorem unshare_ok_mode (K : Nat) (thr : Nat → Bool) (w w' : World α)
    (v v' : socow_vector α) (hv : Valid w v)
    (he : unshare K thr (w, v) = .ok (w', v')) : ModeKept K w v w' v' := by
  rcases Excl.cases w v hv with hx | ⟨b, hd, hb, hrc⟩
  · rw [unshare_noop K thr w v hx] at he
    cases he
    exact Or.inl ⟨rfl, rfl⟩
  · have hcap : capacity K w v = b.capacity_ := by simp [capacity, hd, World.buf, hb]
    have hnx : ¬ Excl w v := by
      intro h
      have := h hd
      rw [rc_of_read hb] at this
      omega
    rcases unshare_shared K thr w v b hd hb hrc with
      ⟨w1, v1, e, _, _, _, _, _, _, hm⟩ | ⟨k, w1, v1, _, _, _, e, _⟩
    · rw [e] at he
      cases he
      rcases hm with ⟨h, hs, _⟩ | ⟨h, hp, hs, _, ⟨d, hr⟩, _⟩ | ⟨h, _, hc, _⟩
      · exact Or.inr ⟨hd, h, hnx, Or.inl hs⟩
      · left
        refine ⟨by rw [h, hd], ?_⟩
        rw [hcap]
        simp [capacity, h, hp, World.buf, hr]
      · exact Or.inr ⟨hd, h, hnx, Or.inr (by rw [hcap]; exact hc)⟩
    · rw [e] at he
      cases he

theorem unshare_error_throws (K : Nat) (thr : Nat → Bool) (w w' : World α)
    (v v' : socow_vector α) (hv : Valid w v)
    (he : unshare K thr (w, v) = .error (w', v')) : ∃ k, thr k = true := by
  rcases Excl.cases w v hv with hx | ⟨b, hd, hb, hrc⟩
  · rw [unshare_noop K thr w v hx] at he
    cases he
  · rcases unshare_shared K thr w v b hd hb hrc with
      ⟨w1, v1, e, _⟩ | ⟨k, w1, v1, _, hk, _⟩
    · rw [e] at he
      cases he
    · exact ⟨_, hk⟩

/-! ## Failure of a capacity change -/

theorem World.buf_congr {w w' : World α} (h : ∀ q, w'.read q = w.read q) (p : Nat) :
    w'.buf p = w.buf p := by
  simp [World.buf, h]

theorem Unchanged.of_same {K : Nat} {w w' : World α} {v v' : socow_vector α}
    (hr : ∀ q, w'.read q = w.read q) (hd : v'.dynamic_ = v.dynamic_)
    (hs : v'.size_ = v.size_) (hp : v.dynamic_ = true → v'.dynamic_buffer_ = v.dynamic_buffer_)
    (hx : v.dynamic_ = false → ∀ j, j < v.size_ → v'.static_data j = v.static_data j) :
    Unchanged K w v w' v' := by
  have hc : ∀ j, j < v.size_ → cdata w' v' j = cdata w v j := by
    intro j hj
    unfold cdata
    cases h : v.dynamic_ with
    | true => simp [hd, h, hp h, World.buf_congr hr]
    | false => simp [hd, h, hx h j hj]
  refine ⟨hd, hs, ?_, ?_, hp, hr⟩
  · unfold capacity
    cases h : v.dynamic_ with
    | true => simp [hd, h, hp h, World.buf_congr hr]
    | false => simp [hd, h]
  · unfold elems size
    rw [hs]
    apply List.map_congr_left
    intro j hj
    exact hc j (List.mem_range.mp hj)

theorem change_capacity_error (K : Nat) (thr : Nat → Bool) (n : Nat) (w w' : World α)
    (v v' : socow_vector α) (hv : Valid w v)
    (he : change_capacity K thr n (w, v) = .error (w', v')) : Unchanged K w v w' v' := by
  cases hd : v.dynamic_ with
  | false =>
    by_cases hn : K < n
    · rcases change_capacity_static_dynamic K thr n w v hn hd with
        ⟨w1, e, _⟩ | ⟨k, w1, _, _, _, e, _, hr⟩
      · rw [e] at he; cases he
      · rw [e] at he
        cases he
        exact Unchanged.of_same hr rfl rfl (fun _ => rfl) (fun _ _ _ => rfl)
    · rw [change_capacity_static_static K thr n w v (by omega) hd] at he
      cases he
  | true =>
    obtain ⟨b, hb⟩ := hv hd
    by_cases hn : K < n
    · rcases change_capacity_dynamic_dynamic K thr n w v hn hd b hb with
        ⟨w1, e, _⟩ | ⟨k, w1, _, _, _, e, _, hr⟩
      · rw [e] at he; cases he
      · rw [e] at he
        cases he
        exact Unchanged.of_same hr rfl rfl (fun _ => rfl) (fun _ _ _ => rfl)
    · rcases change_capacity_static_ok K thr n w v (by omega) hd with
        ⟨w1, e, _⟩ | ⟨k, _, _, _, e⟩
      · rw [e] at he; cases he
      · rw [e] at he
        cases he
        exact Unchanged.of_same (fun _ => rfl) rfl rfl (fun _ => rfl)
          (fun h => by rw [hd] at h; cases h)

theorem unshare_error (K : Nat) (thr : Nat → Bool) (w w' : World α)
    (v v' : socow_vector α) (hv : Valid w v)
    (he : unshare K thr (w, v) = .error (w', v')) : Unchanged K w v w' v' := by
  unfold unshare at he
  split at he
  · split at he
    · exact change_capacity_error K thr _ w w' v v' hv he
    · exact change_capacity_error K thr _ w w' v v' hv he
  · cases he

/-! ## push_back -/

/-- Observations of a container depend only on the block it references. -/
theorem obs_congr (K : Nat) {w w' : World α} (v : socow_vector α)
    (h : v.dynamic_ = true → w'.read v.dynamic_buffer_ = w.read v.dynamic_buffer_) :
    cdata w' v = cdata w v ∧ capacity K w' v = capacity K w v ∧
      (Valid w v → Valid w' v) ∧ (Excl w v → Excl w' v) ∧ (Excl w' v → Excl w v) := by
  cases hd : v.dynamic_ with
  | false =>
    refine ⟨by simp [cdata, hd], by simp [capacity, hd], ?_, ?_, ?_⟩ <;>
      intro _ h' <;> rw [hd] at h' <;> cases h'
  | true =>
    have e := h hd
    have eb : w'.buf v.dynamic_buffer_ = w.buf v.dynamic_buffer_ := by simp [World.buf, e]
    refine ⟨by simp [cdata, hd, eb], by simp [capacity, hd, eb], ?_, ?_, ?_⟩
    · intro hv _
      rw [e]
      exact hv hd
    · intro hx _
      have := hx hd
      simpa [rc, eb] using this
    · intro hx _
      have := hx hd
      simpa [rc, eb] using this

theorem Valid.ne_fresh_vec {w : World α} {v : socow_vector α} (hv : Valid w v) :
    refOf v (w.heap.length + 1) = 0 := by
  cases hd : v.dynamic_ with
  | false => exact refOf_static v _ hd
  | true =>
    obtain ⟨b, hb⟩ := hv hd
    exact refOf_ne v _ (fun e => World.ne_fresh_addr hb e.symm)

theorem refOf_zero_read {w w' : World α} {v : socow_vector α} {p : Nat}
    (h0 : refOf v p = 0) (hr : ∀ q, q ≠ p → w'.read q = w.read q) :
    v.dynamic_ = true → w'.read v.dynamic_buffer_ = w.read v.dynamic_buffer_ := by
  intro hd
  exact hr _ (fun e => refOf_zero_ne h0 hd e.symm)

theorem allocate_facts (K n : Nat) (w : World α) (v : socow_vector α) (hh : HeapOK w)
    (hv : Valid w v) :
    HeapOK (allocate_buffer w n).2 ∧ Valid (allocate_buffer w n).2 v ∧
      cdata (allocate_buffer w n).2 v = cdata w v ∧
      capacity K (allocate_buffer w n).2 v = capacity K w v ∧
      (Excl w v ↔ Excl (allocate_buffer w n).2 v) := by
  have h0 := hv.ne_fresh_vec
  have hr : ∀ q, q ≠ w.heap.length + 1 → (allocate_buffer w n).2.read q = w.read q := by
    intro q hq
    simp [World.read_allocate, hq]
  obtain ⟨a, b, c, d, e⟩ := obs_congr K v (refOf_zero_read h0 hr)
  exact ⟨(Moves.alloc w (refOf v) n hh).heapOK, c hv, a, b, d, e⟩

theorem push_back_spare (K : Nat) (thr : Nat → Bool) (x : α) (w : World α)
    (v : socow_vector α) (hne : v.size_ ≠ capacity K w v) :
    push_back K thr x (w, v) =
      match unshare K thr (w, v) with
      | .error e => .error e
      | .ok (w2, v2) =>
        if thr w2.copies then .error ({ w2 with copies := w2.copies + 1 }, v2)
        else
          .ok ((store ({ w2 with copies := w2.copies + 1 }, v2)
                (construct_at (cdata w2 v2) v2.size_ (some x))).1,
            { (store ({ w2 with copies := w2.copies + 1 }, v2)
                (construct_at (cdata w2 v2) v2.size_ (some x))).2 with
              size_ := (store ({ w2 with copies := w2.copies + 1 }, v2)
                (construct_at (cdata w2 v2) v2.size_ (some x))).2.size_ + 1 }) := by
  unfold push_back data size
  simp only [hne, if_false]

theorem push_back_grow (K : Nat) (thr : Nat → Bool) (x : α) (w : World α)
    (v : socow_vector α) (he : v.size_ = capacity K w v) :
    push_back K thr x (w, v) =
      match unshare K thr ((allocate_buffer w (capacity K w v * 2)).2, v) with
      | .error (w2, v2) => .error (w2.free (w.heap.length + 1), v2)
      | .ok (w2, v2) =>
        match copy_from_begin thr (cdata w2 v2) (w2.buf (w.heap.length + 1)).dynamic_data
            v2.size_ w2.copies with
        | (true, _, c) => .error ({ (w2.free (w.heap.length + 1)) with copies := c }, v2)
        | (false, dst, c) =>
          if thr c then .error ({ (w2.free (w.heap.length + 1)) with copies := c + 1 }, v2)
          else
            .ok ((reset (({ w2 with copies := c + 1 } : World α).modify (w.heap.length + 1)
                  (fun b => { b with dynamic_data := construct_at dst v2.size_ (some x) }),
                  v2)).1,
              { (reset (({ w2 with copies := c + 1 } : World α).modify (w.heap.length + 1)
                  (fun b => { b with dynamic_data := construct_at dst v2.size_ (some x) }),
                  v2)).2 with
                dynamic_buffer_ := w.heap.length + 1, dynamic_ := true,
                size_ := (reset (({ w2 with copies := c + 1 } : World α).modify
                  (w.heap.length + 1)
                  (fun b => { b with dynamic_data := construct_at dst v2.size_ (some x) }),
                  v2)).2.size_ + 1 }) := by
  unfold push_back data size
  simp only [he, if_true, allocate_buffer_fst]

theorem elems_eq_iff (w w' : World α) (v v' : socow_vector α) (hs : v'.size_ = v.size_) :
    elems w' v' = elems w v ↔ ∀ j, j < v.size_ → cdata w' v' j = cdata w v j := by
  unfold elems size
  rw [hs]
  constructor
  · intro h j hj
    have := List.map_inj_left.mp h j (List.mem_range.mpr hj)
    exact this
  · intro h
    apply List.map_congr_left
    intro j hj
    exact h j (List.mem_range.mp hj)

theorem ModeKept.refl_mode (K : Nat) (w : World α) (v : socow_vector α) : ModeKept K w v w v :=
  Or.inl ⟨rfl, rfl⟩

theorem Unchanged.modeKept {K : Nat} {w w' : World α} {v v' : socow_vector α}
    (h : Unchanged K w v w' v') : ModeKept K w v w' v' :=
  Or.inl ⟨h.1, h.2.2.1⟩

theorem Unchanged.valid_unch {K : Nat} {w w' : World α} {v v' : socow_vector α}
    (h : Unchanged K w v w' v') (hv : Valid w v) : Valid w' v' := by
  intro hd
  rw [h.1] at hd
  rw [h.2.2.2.2.1 hd, h.2.2.2.2.2]
  exact hv hd

theorem push_back_spare_spec (K : Nat) (thr : Nat → Bool) (x : α) (w : World α)
    (v : socow_vector α) (hh : HeapOK w) (hv : Valid w v)
    (hne : v.size_ ≠ capacity K w v) :
    (∃ w' v', push_back K thr x (w, v) = .error (w', v') ∧ PushFail K w v w' v' ∧
      ∃ k, thr k = true) ∨
    (∃ w' v', push_back K thr x (w, v) = .ok (w', v') ∧ PushOk K x w v w' v') := by
  rw [push_back_spare K thr x w v hne]
  have heff := unshare_eff K thr w v hh hv
  cases hu : unshare K thr (w, v) with
  | error s =>
    obtain ⟨w2, v2⟩ := s
    rw [hu] at heff
    have hun := unshare_error K thr w w2 v v2 hv hu
    left
    refine ⟨w2, v2, rfl, ⟨hun.2.1, (elems_eq_iff w w2 v v2 hun.2.1).mp hun.2.2.2.1,
      hun.valid_unch hv, heff.moves, hun.modeKept⟩, unshare_error_throws K thr w w2 v v2 hv hu⟩
  | ok s =>
    obtain ⟨w2, v2⟩ := s
    rw [hu] at heff
    obtain ⟨hs, hc, hx, hv2⟩ := unshare_ok_spec K thr w w2 v v2 hv hu
    have hm := unshare_ok_mode K thr w w2 v v2 hv hu
    simp only [final] at heff
    by_cases ht : thr w2.copies = true
    · left
      simp only [ht, if_true]
      refine ⟨_, _, rfl, ⟨hs, hc, hv2, ?_, hm⟩, ⟨_, ht⟩⟩
      exact heff.moves.trans_moves (Moves.of_same_heap_moves _ heff.heapOK (fun _ => rfl))
    · right
      simp only [ht, if_false]
      have hv2' : Valid ({ w2 with copies := w2.copies + 1 } : World α) v2 := hv2
      have hx2' : Excl ({ w2 with copies := w2.copies + 1 } : World α) v2 := hx
      have hh2' : HeapOK ({ w2 with copies := w2.copies + 1 } : World α) := heff.heapOK
      obtain ⟨e1, e2, e3⟩ := store_snd ({ w2 with copies := w2.copies + 1 } : World α) v2
        (construct_at (cdata w2 v2) v2.size_ (some x))
      have hcd := cdata_store ({ w2 with copies := w2.copies + 1 } : World α) v2
        (construct_at (cdata w2 v2) v2.size_ (some x)) hv2'
      have hse := store_eff ({ w2 with copies := w2.copies + 1 } : World α) v2
        (construct_at (cdata w2 v2) v2.size_ (some x)) hh2' hv2' hx2'
      refine ⟨_, _, rfl, ?_, ?_, ?_, ?_, ?_, ?_, ?_⟩
      · show _ + 1 = _
        rw [e1, hs]
      · intro j hj
        show cdata _ (store _ _).2 j = _
        rw [hcd]
        have : j ≠ v2.size_ := by omega
        simp [construct_at, this, hc j hj]
      · show cdata _ (store _ _).2 _ = _
        rw [hcd]
        simp [construct_at, hs]
      · exact Excl_store _ _ _ hx2'
      · exact Valid_store _ _ _ hv2'
      · have m1 : Moves w (refOf v) ({ w2 with copies := w2.copies + 1 } : World α)
            (refOf v2) :=
          heff.moves.trans_moves (Moves.of_same_heap_moves _ heff.heapOK (fun _ => rfl))
        exact (m1.trans_moves hse.moves).congr (fun _ => rfl) (fun _ => rfl)
      · rw [if_neg hne]
        have hcap := capacity_store K ({ w2 with copies := w2.copies + 1 } : World α) v2
          (construct_at (cdata w2 v2) v2.size_ (some x))
        rcases hm with ⟨h1, h2⟩ | ⟨h1, h2, h3, h4⟩
        · left
          refine ⟨?_, ?_⟩
          · show (store _ _).2.dynamic_ = _
            rw [e2, h1]
          · show capacity K _ (store _ _).2 = _
            rw [hcap]
            exact h2
        · right
          refine ⟨h1, ?_, h3, h4⟩
          show (store _ _).2.dynamic_ = _
          rw [e2, h2]

theorem Unchanged.pushFail {K : Nat} {w w' : World α} {v v' : socow_vector α}
    (hh : HeapOK w) (hv : Valid w v) (h : Unchanged K w v w' v') :
    PushFail K w v w' v' := by
  refine ⟨h.2.1, (elems_eq_iff w w' v v' h.2.1).mp h.2.2.2.1, h.valid_unch hv, ?_, h.modeKept⟩
  have e : ∀ q, refOf v' q = refOf v q := by
    intro q
    unfold refOf
    cases hd : v.dynamic_ with
    | false => simp [h.1, hd]
    | true => simp [h.1, hd, h.2.2.2.2.1 hd]
  exact (Moves.of_same_heap_moves (refOf v) hh h.2.2.2.2.2).congr (fun _ => rfl) e

/-- The state a growing `push_back` leaves behind when a copy throws after the detach. -/
theorem push_back_grow_fail (K : Nat) (w w2 : World α) (v v2 : socow_vector α)
    (n c : Nat) (thr : Nat → Bool) (hh : HeapOK w) (hv : Valid w v)
    (hu : unshare K thr ((allocate_buffer w n).2, v) = .ok (w2, v2)) :
    PushFail K w v ({ (w2.free (w.heap.length + 1)) with copies := c } : World α) v2 ∧
      w2.read (w.heap.length + 1) = some ⟨1, n, raw⟩ ∧ refOf v2 (w.heap.length + 1) = 0 ∧
      Moves w (refOf v) w2 (fun q => refOf v2 q + own1 (w.heap.length + 1) q) := by
  obtain ⟨hh1, hv1, hcd1, hcap1, hex1⟩ := allocate_facts K n w v hh hv
  have heff := unshare_eff K thr _ v hh1 hv1
  rw [hu] at heff
  simp only [final] at heff
  obtain ⟨hs, hc, hx, hv2⟩ := unshare_ok_spec K thr _ w2 v v2 hv1 hu
  have hm := unshare_ok_mode K thr _ w2 v v2 hv1 hu
  have h0 := hv.ne_fresh_vec
  have htmp1 : (allocate_buffer w n).2.read (w.heap.length + 1) = some ⟨1, n, raw⟩ := by
    simp [World.read_allocate]
  have htmp2 : w2.read (w.heap.length + 1) = some ⟨1, n, raw⟩ := by
    rcases heff.other _ h0 with h | ⟨h, _⟩
    · rw [h, htmp1]
    · rw [htmp1] at h; cases h
  have h02 : refOf v2 (w.heap.length + 1) = 0 := by
    have := heff.count (w.heap.length + 1)
    rw [rc_of_read htmp1, rc_of_read htmp2, h0] at this
    have : refOf v2 (w.heap.length + 1) = 0 := by omega
    exact this
  have m2 : Moves w (refOf v) w2 (fun q => refOf v2 q + own1 (w.heap.length + 1) q) :=
    (Moves.alloc w (refOf v) n hh).trans_moves (heff.moves.frame_moves (own1 (w.heap.length + 1)))
  have hr : ∀ q, q ≠ w.heap.length + 1 →
      ({ (w2.free (w.heap.length + 1)) with copies := c } : World α).read q = w2.read q := by
    intro q hq
    simp [World.read_free, hq]
  obtain ⟨a1, a2, a3, a4, a5⟩ := obs_congr K v2 (refOf_zero_read h02 hr)
  refine ⟨⟨hs, ?_, a3 hv2, ?_, ?_⟩, htmp2, h02, m2⟩
  · intro j hj
    rw [a1, hc j hj, hcd1]
  · have m3 := Moves.free w2 (fun q => refOf v2 q + own1 (w.heap.length + 1) q)
      (w.heap.length + 1) _ heff.heapOK htmp2 rfl (by simp [h02, own1])
    have m4 := (m2.trans_moves m3).trans_moves
      (Moves.of_same_heap_to ({ (w2.free (w.heap.length + 1)) with copies := c } : World α)
        _ m3.heapOK (fun _ => rfl))
    refine m4.congr (fun _ => rfl) ?_
    intro q
    show refOf v2 q = refOf v2 q + own1 (w.heap.length + 1) q - own1 (w.heap.length + 1) q
    omega
  · rcases hm with ⟨h1, h2⟩ | ⟨h1, h2, h3, h4⟩
    · exact Or.inl ⟨h1, by rw [a2, h2, hcap1]⟩
    · exact Or.inr ⟨h1, h2, fun h => h3 (hex1.mp h), by rw [← hcap1]; exact h4⟩

/-- The state a growing `push_back` leaves behind when it returns. -/
theorem push_back_grow_ok (K : Nat) (x : α) (w w2 : World α) (v v2 : socow_vector α)
    (c : Nat) (thr : Nat → Bool) (hh : HeapOK w) (hv : Valid w v)
    (he : v.size_ = capacity K w v)
    (hu : unshare K thr ((allocate_buffer w (capacity K w v * 2)).2, v) = .ok (w2, v2))
    (D : Slots α)
    (hD : construct_at (filled (cdata w2 v2) raw 0 v2.size_) v2.size_ (some x) = D) :
    PushOk K x w v
      (reset (({ w2 with copies := c } : World α).modify (w.heap.length + 1)
        (fun b => { b with dynamic_data := D }), v2)).1
      { (reset (({ w2 with copies := c } : World α).modify (w.heap.length + 1)
        (fun b => { b with dynamic_data := D }), v2)).2 with
        dynamic_buffer_ := w.heap.length + 1, dynamic_ := true,
        size_ := (reset (({ w2 with copies := c } : World α).modify (w.heap.length + 1)
          (fun b => { b with dynamic_data := D }), v2)).2.size_ + 1 } := by
  obtain ⟨hh1, hv1, hcd1, hcap1, hex1⟩ := allocate_facts K (capacity K w v * 2) w v hh hv
  obtain ⟨hs, hc, hx, hv2⟩ := unshare_ok_spec K thr _ w2 v v2 hv1 hu
  obtain ⟨hf, htmp2, h02, m2⟩ := push_back_grow_fail K w w2 v v2 _ c thr hh hv hu
  have hh2 : HeapOK w2 := m2.heapOK
  generalize hw3 : (({ w2 with copies := c } : World α).modify (w.heap.length + 1)
        (fun b => { b with dynamic_data := D })) = w3
  have hr3 : ∀ q, w3.read q =
      if q = w.heap.length + 1 then some ⟨1, capacity K w v * 2, D⟩ else w2.read q := by
    intro q
    rw [← hw3, World.read_modify]
    by_cases hq : q = w.heap.length + 1
    · subst hq
      simp only [if_true]
      show Option.map _ (w2.read _) = _
      rw [htmp2]
      rfl
    · simp only [hq, if_false]
      rfl
  have m3 : Moves w2 (fun q => refOf v2 q + own1 (w.heap.length + 1) q) w3
      (fun q => refOf v2 q + own1 (w.heap.length + 1) q) := by
    rw [← hw3]
    refine (Moves.of_same_heap_to ({ w2 with copies := c } : World α) _ hh2
      (fun _ => rfl)).trans_moves (Moves.modify_data _ _ _ _ hh2 (fun _ => rfl) ?_)
    show rc w2 _ ≤ _
    rw [rc_of_read htmp2]
    simp [own1]
  have hv3 : Valid w3 v2 :=
    (obs_congr K v2 (refOf_zero_read h02 (fun q hq => by simp [hr3, hq]))).2.2.1 hv2
  have m4 := (reset_moves w3 v2 m3.heapOK hv3).frame_moves (own1 (w.heap.length + 1))
  obtain ⟨r1, r2, r3⟩ := reset_snd (w3, v2)
  have htmp4 : (reset (w3, v2)).1.read (w.heap.length + 1) =
      some ⟨1, capacity K w v * 2, D⟩ := by
    rcases (reset_moves w3 v2 m3.heapOK hv3).other _ h02 with h | ⟨h, _⟩
    · rw [h, hr3]
      simp
    · rw [hr3] at h
      simp at h
  refine ⟨?_, ?_, ?_, ?_, ?_, ?_, ?_⟩
  · show (reset (w3, v2)).2.size_ + 1 = v.size_ + 1
    rw [r1]
    show v2.size_ + 1 = _
    rw [hs]
  · intro j hj
    show ((reset (w3, v2)).1.buf (w.heap.length + 1)).dynamic_data j = _
    simp only [World.buf, htmp4, Option.getD_some]
    rw [← hD]
    have h1 : j ≠ v2.size_ := by omega
    simp only [construct_at, h1, if_false]
    rw [filled_lt _ _ _ _ (by omega), hc j hj, hcd1]
  · show ((reset (w3, v2)).1.buf (w.heap.length + 1)).dynamic_data _ = _
    simp only [World.buf, htmp4, Option.getD_some]
    rw [← hD, hs]
    simp [construct_at]
  · intro _
    show rc (reset (w3, v2)).1 (w.heap.length + 1) ≤ 1
    rw [rc_of_read htmp4]
  · intro _
    exact ⟨_, htmp4⟩
  · refine ((m2.trans_moves m3).trans_moves m4).congr (fun _ => rfl) ?_
    intro q
    show refOf _ q = 0 + own1 (w.heap.length + 1) q
    simp [refOf, own1, eq_comm]
  · rw [if_pos he]
    refine ⟨rfl, ?_⟩
    show ((reset (w3, v2)).1.buf (w.heap.length + 1)).capacity_ = _
    simp only [World.buf, htmp4, Option.getD_some]

theorem push_back_grow_spec (K : Nat) (thr : Nat → Bool) (x : α) (w : World α)
    (v : socow_vector α) (hh : HeapOK w) (hv : Valid w v)
    (he : v.size_ = capacity K w v) :
    (∃ w' v', push_back K thr x (w, v) = .error (w', v') ∧ PushFail K w v w' v' ∧
      ∃ k, thr k = true) ∨
    (∃ w' v', push_back K thr x (w, v) = .ok (w', v') ∧ PushOk K x w v w' v') := by
  rw [push_back_grow K thr x w v he]
  obtain ⟨hh1, hv1, hcd1, hcap1, hex1⟩ := allocate_facts K (capacity K w v * 2) w v hh hv
  cases hu : unshare K thr ((allocate_buffer w (capacity K w v * 2)).2, v) with
  | error s =>
    obtain ⟨w2, v2⟩ := s
    left
    have hun := unshare_error K thr _ w2 v v2 hv1 hu
    refine ⟨_, _, rfl, ?_, unshare_error_throws K thr _ w2 v v2 hv1 hu⟩
    apply Unchanged.pushFail hh hv
    have hr : ∀ q, (w2.free (w.heap.length + 1)).read q = w.read q := by
      intro q
      rw [World.read_free, hun.2.2.2.2.2, World.read_allocate]
      by_cases hq : q = w.heap.length + 1
      · subst hq
        simp [World.read_fresh]
      · simp [hq]
    refine Unchanged.of_same hr hun.1 hun.2.1 hun.2.2.2.2.1 ?_
    intro hd j hj
    have := (elems_eq_iff _ w2 v v2 hun.2.1).mp hun.2.2.2.1 j hj
    simpa [cdata, hd, hun.1] using this
  | ok s =>
    obtain ⟨w2, v2⟩ := s
    obtain ⟨hf, htmp2, h02, m2⟩ := push_back_grow_fail K w w2 v v2
      (capacity K w v * 2) 0 thr hh hv hu
    have hbuf : (w2.buf (w.heap.length + 1)).dynamic_data = raw := by
      simp [World.buf, htmp2]
    simp only [hbuf]
    rcases copy_from_begin_spec thr (cdata w2 v2) raw v2.size_ w2.copies with
      ⟨h1, _⟩ | ⟨k, _, hk, _, h1⟩
    · rw [h1]
      simp only
      by_cases ht : thr (w2.copies + v2.size_) = true
      · left
        simp only [ht, if_true]
        exact ⟨_, _, rfl, (push_back_grow_fail K w w2 v v2 _ _ thr hh hv hu).1, ⟨_, ht⟩⟩
      · right
        simp only [ht, if_false]
        exact ⟨_, _, rfl, push_back_grow_ok K x w w2 v v2 _ thr hh hv he hu _ rfl⟩
    · left
      rw [h1]
      exact ⟨_, _, rfl, (push_back_grow_fail K w w2 v v2 _ _ thr hh hv hu).1, ⟨_, hk⟩⟩

/-- What `push_back` does, whether it throws or returns. -/
theorem push_back_spec (K : Nat) (thr : Nat → Bool) (x : α) (w : World α)
    (v : socow_vector α) (hh : HeapOK w) (hv : Valid w v) :
    (∃ w' v', push_back K thr x (w, v) = .error (w', v') ∧ PushFail K w v w' v' ∧
      ∃ k, thr k = true) ∨
    (∃ w' v', push_back K thr x (w, v) = .ok (w', v') ∧ PushOk K x w v w' v') := by
  by_cases he : v.size_ = capacity K w v
  · exact push_back_grow_spec K thr x w v hh hv he
  · exact push_back_spare_spec K thr x w v hh hv he

theorem push_back_ok (K : Nat) (thr : Nat → Bool) (x : α) (w : World α)
    (v : socow_vector α) (hh : HeapOK w) (hv : Valid w v) (hthr : ∀ k, thr k = false) :
    ∃ w' v', push_back K thr x (w, v) = .ok (w', v') ∧ PushOk K x w v w' v' := by
  rcases push_back_spec K thr x w v hh hv with ⟨_, _, _, _, k, hk⟩ | h
  · rw [hthr] at hk
    cases hk
  · exact h

theorem elems_push (w w' : World α) (v v' : socow_vector α) (x : α)
    (hs : v'.size_ = v.size_ + 1) (hc : ∀ j, j < v.size_ → cdata w' v' j = cdata w v j)
    (hx : cdata w' v' v.size_ = some x) : elems w' v' = elems w v ++ [some x] := by
  unfold elems size
  rw [hs, List.range_succ, List.map_append, List.map_singleton, hx]
  congr 1
  apply List.map_congr_left
  intro j hj
  exact hc j (List.mem_range.mp hj)

theorem elems_length (w : World α) (v : socow_vector α) : (elems w v).length = v.size_ := by
  simp [elems, size]

theorem HeapOK_empty : HeapOK (emptyWorld) := by
  intro q b h
  simp [World.read, emptyWorld] at h

theorem HeapOK.of_heap (w : World α)
    (h : ∀ b, some b ∈ w.heap → 1 ≤ b.ref_count) : HeapOK w := by
  intro q b hb
  unfold World.read at hb
  by_cases h0 : q = 0
  · simp [h0] at hb
  · simp only [h0, if_false] at hb
    cases hg : w.heap[q - 1]? with
    | none => rw [hg] at hb; cases hb
    | some o =>
      rw [hg] at hb
      simp only [Option.getD_some] at hb
      subst hb
      exact h b (List.getElem?_mem hg)

theorem HeapOK_shared : HeapOK sharedWorld := by
  apply HeapOK.of_heap
  intro b hb
  simp only [sharedWorld, List.mem_singleton, Option.some.injEq] at hb
  subst hb
  decide

/-! ## swap -/

theorem swap_loop_eq (n i : Nat) (a b : Slots α) :
    swap_loop n i (a, b) = (filled b a i n, filled a b i n) := by
  induction n generalizing i a b with
  | zero => simp [swap_loop, filled_zero]
  | succ n ih =>
    rw [swap_loop, ih]
    congr 1
    · funext j
      unfold filled construct_at
      by_cases h1 : j = i
      · subst h1
        have h2 : ¬ (j + 1 ≤ j ∧ j < j + 1 + n) := by omega
        have h3 : j ≤ j ∧ j < j + (n + 1) := by omega
        simp [h2, h3]
      · by_cases h2 : i + 1 ≤ j ∧ j < i + 1 + n
        · have h3 : i ≤ j ∧ j < i + (n + 1) := by omega
          simp [h1, h2, h3]
        · have h3 : ¬ (i ≤ j ∧ j < i + (n + 1)) := by omega
          simp [h1, h2, h3]
    · funext j
      unfold filled construct_at
      by_cases h1 : j = i
      · subst h1
        have h2 : ¬ (j + 1 ≤ j ∧ j < j + 1 + n) := by omega
        have h3 : j ≤ j ∧ j < j + (n + 1) := by omega
        simp [h2, h3]
      · by_cases h2 : i + 1 ≤ j ∧ j < i + 1 + n
        · have h3 : i ≤ j ∧ j < i + (n + 1) := by omega
          simp [h1, h2, h3]
        · have h3 : ¬ (i ≤ j ∧ j < i + (n + 1)) := by omega
          simp [h1, h2, h3]

/-- `swap` never touches a block of the heap. -/
theorem swap_storage_read (thr : Nat → Bool) (s : St2 α) (q : Nat) :
    (final (swap_storage thr s)).1.read q = s.1.read q := by
  obtain ⟨w, a, b⟩ := s
  unfold swap_storage swap_static_and_dynamic
  simp only
  split
  · rfl
  · split
    · split <;> rename_i h <;> split at h <;> cases h <;> rfl
    · split
      · split <;> rfl
      · split
        · split <;> rfl
        · split <;> rfl

/-- What `swap` does, whether it returns or throws: the heap is never touched; on return
each container has taken over the other; on a throw each keeps mode, pointer and size. -/
theorem swap_spec (thr : Nat → Bool) (w : World α) (a b : socow_vector α) :
    (∃ w' a' b', swap thr (w, a, b) = .ok (w', a', b') ∧ w'.heap = w.heap ∧
      w'.copies = w.copies + swap_copies a b ∧ TookOver b a' ∧ TookOver a b') ∨
    (∃ w' a' b' k, swap thr (w, a, b) = .error (w', a', b') ∧ w'.heap = w.heap ∧
      thr k = true ∧ SameRef a a' ∧ SameRef b b') := by
  unfold swap swap_storage swap_static_and_dynamic swap_copies
  simp only
  cases ha : a.dynamic_ <;> cases hb : b.dynamic_ <;>
    simp only [Bool.and_self, Bool.and_true, Bool.and_false, Bool.not_true, Bool.not_false,
      Bool.false_eq_true, if_false, if_true, Bool.true_and, Bool.false_and]
  · -- Inline / Inline
    rw [swap_loop_eq]
    by_cases hlt : a.size_ < b.size_
    · simp only [hlt, if_true]
      rcases copy_range_spec thr (filled a.static_data b.static_data 0 (min a.size_ b.size_))
          (filled b.static_data a.static_data 0 (min a.size_ b.size_)) a.size_
          (b.size_ - a.size_) w.copies with ⟨h1, _⟩ | ⟨k, _, hk, _, h1⟩
      · left
        rw [h1]
        refine ⟨_, _, _, rfl, rfl, rfl, ⟨rfl, by simp [hb], by simp [hb], ?_⟩,
          ⟨rfl, by simp [ha], by simp [ha], ?_⟩⟩
        · intro _ j hj
          show filled _ _ _ _ j = _
          unfold filled
          have hm : min a.size_ b.size_ = a.size_ := by omega
          rw [hm]
          by_cases h2 : a.size_ ≤ j ∧ j < a.size_ + (b.size_ - a.size_)
          · have h3 : ¬ (0 ≤ j ∧ j < 0 + a.size_) := by omega
            simp [h2, h3]
          · have h3 : 0 ≤ j ∧ j < 0 + a.size_ := by omega
            simp only [h2, h3, if_false]
            simp
        · intro _ j hj
          show clear_range _ _ _ j = _
          rw [clear_range_apply]
          have hm : min a.size_ b.size_ = a.size_ := by omega
          rw [hm]
          have h2 : ¬ (a.size_ ≤ j ∧ j < a.size_ + (b.size_ - a.size_)) := by omega
          rw [if_neg h2, filled_lt _ _ _ _ hj]
      · right
        rw [h1]
        exact ⟨_, _, _, _, rfl, rfl, hk, ⟨rfl, by simp [ha], rfl⟩, ⟨rfl, by simp [hb], rfl⟩⟩
    · simp only [hlt, if_false]
      rcases copy_range_spec thr (filled b.static_data a.static_data 0 (min a.size_ b.size_))
          (filled a.static_data b.static_data 0 (min a.size_ b.size_)) b.size_
          (a.size_ - b.size_) w.copies with ⟨h1, _⟩ | ⟨k, _, hk, _, h1⟩
      · left
        rw [h1]
        refine ⟨_, _, _, rfl, rfl, rfl, ⟨rfl, by simp [hb], by simp [hb], ?_⟩,
          ⟨rfl, by simp [ha], by simp [ha], ?_⟩⟩
        · intro _ j hj
          show clear_range _ _ _ j = _
          rw [clear_range_apply]
          have hm : min a.size_ b.size_ = b.size_ := by omega
          rw [hm]
          have h2 : ¬ (b.size_ ≤ j ∧ j < b.size_ + (a.size_ - b.size_)) := by omega
          rw [if_neg h2, filled_lt _ _ _ _ hj]
        · intro _ j hj
          show filled _ _ _ _ j = _
          unfold filled
          have hm : min a.size_ b.size_ = b.size_ := by omega
          rw [hm]
          by_cases h2 : b.size_ ≤ j ∧ j < b.size_ + (a.size_ - b.size_)
          · have h3 : ¬ (0 ≤ j ∧ j < 0 + b.size_) := by omega
            simp [h2, h3]
          · have h3 : 0 ≤ j ∧ j < 0 + b.size_ := by omega
            simp only [h2, h3, if_false]
            simp
      · right
        rw [h1]
        exact ⟨_, _, _, _, rfl, rfl, hk, ⟨rfl, by simp [ha], rfl⟩, ⟨rfl, by simp [hb], rfl⟩⟩
  · -- Inline / Shared
    rcases copy_from_begin_spec thr a.static_data b.static_data a.size_ w.copies with
      ⟨h1, _⟩ | ⟨k, _, hk, _, h1⟩
    · left
      rw [h1]
      refine ⟨_, _, _, rfl, rfl, rfl, ⟨rfl, by simp [hb], by simp [hb], by simp [hb]⟩,
        ⟨rfl, by simp [ha], by simp [ha], ?_⟩⟩
      intro _ j hj
      exact filled_lt _ _ _ _ hj
    · right
      rw [h1]
      exact ⟨_, _, _, _, rfl, rfl, hk, ⟨rfl, by simp [ha], rfl⟩, ⟨rfl, by simp [hb], rfl⟩⟩
  · -- Shared / Inline
    rcases copy_from_begin_spec thr b.static_data a.static_data b.size_ w.copies with
      ⟨h1, _⟩ | ⟨k, _, hk, _, h1⟩
    · left
      rw [h1]
      refine ⟨_, _, _, rfl, rfl, rfl, ⟨rfl, by simp [hb], by simp [hb], ?_⟩,
        ⟨rfl, by simp [ha], by simp [ha], by simp [ha]⟩⟩
      intro _ j hj
      exact filled_lt _ _ _ _ hj
    · right
      rw [h1]
      exact ⟨_, _, _, _, rfl, rfl, hk, ⟨rfl, by simp [ha], rfl⟩, ⟨rfl, by simp [hb], rfl⟩⟩
  · -- Shared / Shared
    left
    exact ⟨_, _, _, rfl, rfl, rfl, ⟨rfl, by simp [hb], by simp, by simp [hb]⟩,
      ⟨rfl, by simp [ha], by simp, by simp [ha]⟩⟩

/-! ## Copy construction and assignment -/

theorem copy_ctor_dynamic (thr : Nat → Bool) (w : World α) (a : socow_vector α)
    (hd : a.dynamic_ = true) :
    copy_ctor thr w a =
      .ok (w.modify a.dynamic_buffer_ (fun b => { b with ref_count := b.ref_count + 1 }),
        ⟨a.size_, true, raw, a.dynamic_buffer_⟩) := by
  unfold copy_ctor
  simp [hd]

theorem copy_ctor_static (thr : Nat → Bool) (w : World α) (a : socow_vector α)
    (hd : a.dynamic_ = false) :
    (copy_ctor thr w a =
        .ok ({ w with copies := w.copies + a.size_ },
          ⟨a.size_, false, filled a.static_data raw 0 a.size_, nullptr⟩) ∧
      ∀ k, k < a.size_ → thr (w.copies + k) = false) ∨
    ∃ k, k < a.size_ ∧ thr (w.copies + k) = true ∧
      copy_ctor thr w a = .error { w with copies := w.copies + k + 1 } := by
  unfold copy_ctor
  simp only [hd, Bool.false_eq_true, if_false]
  rcases copy_from_begin_spec thr a.static_data raw a.size_ w.copies with
    ⟨h1, h2⟩ | ⟨k, hk, hk1, _, h1⟩
  · left
    rw [h1]
    exact ⟨rfl, h2⟩
  · right
    rw [h1]
    exact ⟨k, hk, hk1, rfl⟩

/-- Sharing a block: the count goes up by one, nothing else changes. -/
theorem Moves.share (w : World α) (a : socow_vector α) (h : HeapOK w)
    (hd : a.dynamic_ = true) (hv : Valid w a) :
    Moves w (refOf a)
      (w.modify a.dynamic_buffer_ (fun b => { b with ref_count := b.ref_count + 1 }))
      (fun q => refOf a q + own1 a.dynamic_buffer_ q) := by
  refine ⟨?_, ?_, ?_, ?_⟩
  · intro q b hb
    rw [World.read_modify] at hb
    by_cases hq : q = a.dynamic_buffer_
    · simp only [hq, if_true] at hb
      cases hr : w.read a.dynamic_buffer_ with
      | none => rw [hr] at hb; cases hb
      | some b0 =>
        rw [hr] at hb
        simp only [Option.map_some', Option.some.injEq] at hb
        rw [← hb]
        show 1 ≤ b0.ref_count + 1
        omega
    · simp only [hq, if_false] at hb
      exact h q b hb
  · intro q
    simp only [rc_eq, World.read_modify, own1, refOf, hd]
    by_cases hq : q = a.dynamic_buffer_
    · subst hq
      obtain ⟨b0, hr⟩ := hv hd
      simp [hr]
    · have hq' : ¬ a.dynamic_buffer_ = q := fun e => hq e.symm
      simp [hq, hq']
  · intro q b hb _
    rw [World.read_modify]
    by_cases hq : q = a.dynamic_buffer_
    · subst hq
      rw [hb]
      exact ⟨{ b with ref_count := b.ref_count + 1 }, by simp, rfl, rfl⟩
    · exact ⟨b, by simp [hq, hb], rfl, rfl⟩
  · intro q hx
    have hq := refOf_zero_ne hx hd
    left
    simp [World.read_modify, hq]

theorem TookOver.refOf_took {b a' : socow_vector α} (h : TookOver b a') (q : Nat) :
    refOf a' q = refOf b q := by
  obtain ⟨_, h2, h3, _⟩ := h
  unfold Socow.refOf
  cases hd : b.dynamic_ with
  | false => simp [h2, hd]
  | true => simp [h2, hd, h3 hd]

theorem SameRef.refOf_same {a a' : socow_vector α} (h : SameRef a a') (q : Nat) :
    refOf a' q = refOf a q := by
  obtain ⟨_, h2, h3⟩ := h
  simp [Socow.refOf, h2, h3]

theorem read_of_heap_eq {w w' : World α} (h : w'.heap = w.heap) (q : Nat) :
    w'.read q = w.read q := by
  simp [World.read, h]

/-- `swap` moves references between the two containers and leaves the heap alone. -/
theorem swap_moves (thr : Nat → Bool) (w : World α) (a b : socow_vector α)
    (hh : HeapOK w) :
    Moves w (fun q => refOf a q + refOf b q) (final (swap thr (w, a, b))).1
      (fun q => refOf (final (swap thr (w, a, b))).2.1 q +
        refOf (final (swap thr (w, a, b))).2.2 q) := by
  rcases swap_spec thr w a b with ⟨w', a', b', e, hw, _, h1, h2⟩ |
    ⟨w', a', b', k, e, hw, _, h1, h2⟩
  · rw [e]
    simp only [final]
    refine (Moves.of_same_heap_moves _ hh (read_of_heap_eq hw)).congr (fun _ => rfl) ?_
    intro q
    rw [h1.refOf_took, h2.refOf_took]
    omega
  · rw [e]
    simp only [final]
    refine (Moves.of_same_heap_moves _ hh (read_of_heap_eq hw)).congr (fun _ => rfl) ?_
    intro q
    rw [h1.refOf_same, h2.refOf_same]

/-- A reference held after a move is backed by an allocated block. -/
theorem Moves.valid_moves {w w' : World α} {ρ ρ' : Nat → Nat} (h : Moves w ρ w' ρ')
    (hb : ∀ q, ρ q ≤ rc w q) (v' : socow_vector α) (hv : ∀ q, refOf v' q ≤ ρ' q) :
    Valid w' v' := by
  intro hd
  have h1 := h.count v'.dynamic_buffer_
  have h2 := hv v'.dynamic_buffer_
  rw [refOf_self v' hd] at h2
  have h3 := hb v'.dynamic_buffer_
  cases hr : w'.read v'.dynamic_buffer_ with
  | some b => exact ⟨b, rfl⟩
  | none =>
    rw [rc_of_none hr] at h1
    omega

theorem Valid.backed {w : World α} {v : socow_vector α} (hh : HeapOK w) (hv : Valid w v)
    (q : Nat) : refOf v q ≤ rc w q := by
  by_cases h : refOf v q = 1
  · obtain ⟨hd, hp⟩ := refOf_eq_one h
    subst hp
    obtain ⟨b, hb, hb1⟩ := Valid.rc_pos hh hv hd
    rw [h, rc_of_read hb]
    exact hb1
  · have := refOf_le v q
    omega

/-- The copy constructor adds the references of the new container, when it returns. -/
theorem copy_ctor_moves (thr : Nat → Bool) (w : World α) (a : socow_vector α)
    (hh : HeapOK w) (hv : Valid w a) :
    (∃ w' b, copy_ctor thr w a = .ok (w', b) ∧ TookOver a b ∧
      Moves w (refOf a) w' (fun q => refOf a q + refOf b q) ∧
      (a.dynamic_ = true → w'.copies = w.copies ∧ rc w' a.dynamic_buffer_ =
        rc w a.dynamic_buffer_ + 1 ∧ ∀ q, q ≠ a.dynamic_buffer_ → w'.read q = w.read q) ∧
      (a.dynamic_ = false → w'.heap = w.heap ∧ w'.copies = w.copies + a.size_)) ∨
    (∃ w' k, copy_ctor thr w a = .error w' ∧ w'.heap = w.heap ∧ thr k = true ∧
      a.dynamic_ = false) := by
  cases hd : a.dynamic_ with
  | true =>
    left
    rw [copy_ctor_dynamic thr w a hd]
    obtain ⟨b0, hb0⟩ := hv hd
    refine ⟨_, _, rfl, ⟨rfl, by simp [hd], fun _ => rfl, fun h => by simp [hd] at h⟩, ?_,
      fun _ => ⟨by simp, ?_, ?_⟩, fun h => by simp at h⟩
    · refine (Moves.share w a hh hd hv).congr (fun _ => rfl) ?_
      intro q
      show refOf a q + refOf (⟨a.size_, true, raw, a.dynamic_buffer_⟩ : socow_vector α) q =
        refOf a q + own1 a.dynamic_buffer_ q
      rw [refOf_dynamic (⟨a.size_, true, raw, a.dynamic_buffer_⟩ : socow_vector α) rfl]
    · simp [rc_eq, World.read_modify, hb0]
    · intro q hq
      simp [World.read_modify, hq]
  | false =>
    rcases copy_ctor_static thr w a hd with ⟨e, _⟩ | ⟨k, _, hk, e⟩
    · left
      rw [e]
      refine ⟨_, _, rfl, ⟨rfl, by simp [hd], fun h => by simp [hd] at h, ?_⟩, ?_,
        fun h => by simp at h, fun _ => ⟨rfl, rfl⟩⟩
      · intro _ j hj
        exact filled_lt _ _ _ _ hj
      · refine (Moves.of_same_heap_to ({ w with copies := w.copies + a.size_ } : World α)
          (refOf a) hh (fun _ => rfl)).congr (fun _ => rfl) ?_
        intro q
        simp [Socow.refOf]
    · right
      rw [e]
      exact ⟨_, _, rfl, rfl, hk, rfl⟩

/-! ## Mutation after a detach -/

theorem Eff.congr_right {w w' : World α} {x x' y' : socow_vector α} (h : Eff w x w' x')
    (hd : y'.dynamic_ = x'.dynamic_) (hp : y'.dynamic_buffer_ = x'.dynamic_buffer_) :
    Eff w x w' y' := by
  have e : ∀ q, refOf y' q = refOf x' q := by
    intro q
    simp [refOf, hd, hp]
  refine ⟨h.heapOK, ?_, ?_, h.shared, ?_⟩
  · intro hy
    rw [hp]
    exact h.valid (hd ▸ hy)
  · intro q
    rw [e]
    exact h.count q
  · intro q hx
    rw [e]
    exact h.other q hx

/-- After a detach that returned, writing the array in use and setting the size leaves
a state as `MutOk` describes, and the array in use is the one written. -/
theorem mut_after_detach (K : Nat) (thr : Nat → Bool) (w w2 : World α)
    (v v2 : socow_vector α) (hh : HeapOK w) (hv : Valid w v)
    (hu : unshare K thr (w, v) = .ok (w2, v2)) (c n m : Nat) (a : Slots α) :
    MutOk K w v (store (({ w2 with copies := c } : World α), { v2 with size_ := n }) a).1
      { (store (({ w2 with copies := c } : World α), { v2 with size_ := n }) a).2 with
        size_ := m } ∧
    cdata (store (({ w2 with copies := c } : World α), { v2 with size_ := n }) a).1
      { (store (({ w2 with copies := c } : World α), { v2 with size_ := n }) a).2 with
        size_ := m } = a := by
  have heff := unshare_eff K thr w v hh hv
  rw [hu] at heff
  simp only [final] at heff
  obtain ⟨hs, hc, hx, hv2⟩ := unshare_ok_spec K thr w w2 v v2 hv hu
  have hm := unshare_ok_mode K thr w w2 v v2 hv hu
  have hv2' : Valid ({ w2 with copies := c } : World α) { v2 with size_ := n } := hv2
  have hx2' : Excl ({ w2 with copies := c } : World α) { v2 with size_ := n } := hx
  have hh2' : HeapOK ({ w2 with copies := c } : World α) := heff.heapOK
  obtain ⟨e1, e2, e3⟩ := store_snd ({ w2 with copies := c } : World α)
    { v2 with size_ := n } a
  have hse := store_eff _ _ a hh2' hv2' hx2'
  have hcap := capacity_store K ({ w2 with copies := c } : World α) { v2 with size_ := n } a
  refine ⟨⟨Excl_store _ _ a hx2', Valid_store _ _ a hv2', ?_, ?_⟩, cdata_store _ _ a hv2'⟩
  · have m1 : Moves w (refOf v) ({ w2 with copies := c } : World α)
        (refOf { v2 with size_ := n }) :=
      (heff.moves.trans_moves (Moves.of_same_heap_moves _ heff.heapOK (fun _ => rfl)))
    exact Eff.of_moves ((m1.trans_moves hse.moves).congr (fun _ => rfl) (fun _ => rfl))
      (Valid_store _ _ a hv2')
  · rcases hm with ⟨h1, h2⟩ | ⟨h1, h2, h3, h4⟩
    · left
      refine ⟨?_, ?_⟩
      · show (store _ _).2.dynamic_ = _
        rw [e2]
        exact h1
      · show capacity K _ (store _ _).2 = _
        rw [hcap]
        exact h2
    · right
      refine ⟨h1, ?_, h3, h4⟩
      show (store _ _).2.dynamic_ = _
      rw [e2]
      exact h2

theorem Unchanged.to_eff {K : Nat} {w w' : World α} {v v' : socow_vector α}
    (hh : HeapOK w) (hv : Valid w v) (h : Unchanged K w v w' v') : Eff w v w' v' :=
  Eff.of_moves (Unchanged.pushFail hh hv h).2.2.2.1 (h.valid_unch hv)

theorem mut_after_detach_any (K : Nat) (thr : Nat → Bool) (w w2 : World α)
    (v v2 : socow_vector α) (hh : HeapOK w) (hv : Valid w v)
    (hu : unshare K thr (w, v) = .ok (w2, v2)) (c n : Nat) (a : Slots α)
    (v' : socow_vector α)
    (h1 : v'.dynamic_ =
      (store (({ w2 with copies := c } : World α), { v2 with size_ := n }) a).2.dynamic_)
    (h2 : v'.dynamic_buffer_ =
      (store (({ w2 with copies := c } : World α), { v2 with size_ := n }) a).2.dynamic_buffer_)
    (h3 : v'.static_data =
      (store (({ w2 with copies := c } : World α), { v2 with size_ := n }) a).2.static_data) :
    MutOk K w v (store (({ w2 with copies := c } : World α), { v2 with size_ := n }) a).1 v' ∧
      cdata (store (({ w2 with copies := c } : World α), { v2 with size_ := n }) a).1 v' = a := by
  have e : v' = { (store (({ w2 with copies := c } : World α), { v2 with size_ := n }) a).2
      with size_ := v'.size_ } := by
    cases v'
    simp only at h1 h2 h3
    simp [h1, h2, h3]
  rw [e]
  exact mut_after_detach K thr w w2 v v2 hh hv hu c n v'.size_ a

/-- What `pop_back` does. -/
theorem pop_back_spec (K : Nat) (thr : Nat → Bool) (w : World α) (v : socow_vector α)
    (hh : HeapOK w) (hv : Valid w v) :
    (∃ w' v', pop_back K thr (w, v) = .error (w', v') ∧ Unchanged K w v w' v' ∧
      ∃ k, thr k = true) ∨
    (∃ w' v', pop_back K thr (w, v) = .ok (w', v') ∧ MutOk K w v w' v' ∧
      v'.size_ = v.size_ - 1 ∧ (∀ j, j < v.size_ - 1 → cdata w' v' j = cdata w v j) ∧
      cdata w' v' (v.size_ - 1) = none) := by
  unfold pop_back data
  cases hu : unshare K thr (w, v) with
  | error s =>
    obtain ⟨w2, v2⟩ := s
    left
    exact ⟨w2, v2, rfl, unshare_error K thr w w2 v v2 hv hu,
      unshare_error_throws K thr w w2 v v2 hv hu⟩
  | ok s =>
    obtain ⟨w2, v2⟩ := s
    right
    obtain ⟨hs, hc, _, _⟩ := unshare_ok_spec K thr w w2 v v2 hv hu
    obtain ⟨hm, hcd⟩ := mut_after_detach_any K thr w w2 v v2 hh hv hu w2.copies
      (v2.size_ - 1) (destroy_at (cdata w2 v2) (v2.size_ - 1)) _ rfl rfl rfl
    refine ⟨_, _, rfl, hm, ?_, ?_, ?_⟩
    · show (store _ _).2.size_ = _
      rw [(store_snd _ _ _).1, ← hs]
    · intro j hj
      have h1 : j ≠ v2.size_ - 1 := by omega
      have := congrFun hcd j
      simp only [destroy_at, h1, if_false] at this
      rw [← hc j (by omega)]
      exact this
    · rw [← hs]
      have := congrFun hcd (v2.size_ - 1)
      simp only [destroy_at, if_true] at this
      exact this

/-- What `clear` does. -/
theorem clear_spec (K : Nat) (thr : Nat → Bool) (w : World α) (v : socow_vector α)
    (hh : HeapOK w) (hv : Valid w v) :
    (∃ w' v', clear K thr (w, v) = .error (w', v') ∧ Unchanged K w v w' v' ∧
      ∃ k, thr k = true) ∨
    (∃ w' v', clear K thr (w, v) = .ok (w', v') ∧ MutOk K w v w' v' ∧ v'.size_ = 0) := by
  unfold clear
  cases hu : unshare K thr (w, v) with
  | error s =>
    obtain ⟨w2, v2⟩ := s
    left
    exact ⟨w2, v2, rfl, unshare_error K thr w w2 v v2 hv hu,
      unshare_error_throws K thr w w2 v v2 hv hu⟩
  | ok s =>
    obtain ⟨w2, v2⟩ := s
    right
    obtain ⟨hm, _⟩ := mut_after_detach K thr w w2 v v2 hh hv hu w2.copies
      v2.size_ 0 ( clear_prefix (cdata w2 v2) v2.size_)
    exact ⟨_, _, rfl, hm, rfl⟩

/-- The statement `v[i] = x` writes slot `i` of the array in use after the detach. -/
theorem index_assign_eq_store (K : Nat) (thr : Nat → Bool) (i : Nat) (x : α) (s : St α) :
    index_assign K thr i x s =
      match data K thr s with
      | .error e => .error e
      | .ok r => .ok (store r (construct_at (cdata r.1 r.2) i (some x))) := by
  unfold index_assign index_ref
  cases hd : data K thr s with
  | error e => rfl
  | ok r =>
    obtain ⟨w, v⟩ := r
    simp only
    congr 1
    unfold store write_ref place cdata
    cases hv : v.dynamic_ with
    | false => simp
    | true =>
      simp only [if_true]
      congr 1
      unfold World.modify World.buf
      cases w.read v.dynamic_buffer_ <;> rfl

/-- What the statement `v[i] = x` does. -/
theorem index_assign_spec (K : Nat) (thr : Nat → Bool) (i : Nat) (x : α) (w : World α)
    (v : socow_vector α) (hh : HeapOK w) (hv : Valid w v) :
    (∃ w' v', index_assign K thr i x (w, v) = .error (w', v') ∧ Unchanged K w v w' v' ∧
      ∃ k, thr k = true) ∨
    (∃ w' v', index_assign K thr i x (w, v) = .ok (w', v') ∧ MutOk K w v w' v' ∧
      v'.size_ = v.size_ ∧ cdata w' v' i = some x ∧
      ∀ j, j < v.size_ → j ≠ i → cdata w' v' j = cdata w v j) := by
  rw [index_assign_eq_store]
  unfold data
  cases hu : unshare K thr (w, v) with
  | error s =>
    obtain ⟨w2, v2⟩ := s
    left
    exact ⟨w2, v2, rfl, unshare_error K thr w w2 v v2 hv hu,
      unshare_error_throws K thr w w2 v v2 hv hu⟩
  | ok s =>
    obtain ⟨w2, v2⟩ := s
    right
    obtain ⟨hs, hc, _, _⟩ := unshare_ok_spec K thr w w2 v v2 hv hu
    obtain ⟨hm, hcd⟩ := mut_after_detach_any K thr w w2 v v2 hh hv hu w2.copies
      v2.size_ (construct_at (cdata w2 v2) i (some x)) _ rfl rfl rfl
    refine ⟨_, _, rfl, hm, ?_, ?_, ?_⟩
    · show (store _ _).2.size_ = _
      rw [(store_snd _ _ _).1, ← hs]
    · have := congrFun hcd i
      simp only [construct_at, if_true] at this
      exact this
    · intro j hj hji
      have := congrFun hcd j
      simp only [construct_at, hji, if_false] at this
      rw [← hc j hj]
      exact this

/-! ## insert and erase -/

theorem insert_loop_apply (n i : Nat) (a : Slots α) (h : n ≤ i) (j : Nat) :
    insert_loop n i a j =
      if j < i - n then a j else if j = i - n then a i else if j ≤ i then a (j - 1)
      else a j := by
  induction n generalizing i a with
  | zero =>
    simp only [insert_loop, Nat.sub_zero]
    by_cases h1 : j < i
    · simp [h1]
    · by_cases h2 : j = i
      · simp [h2]
      · have h3 : ¬ j ≤ i := by omega
        simp [h1, h2, h3]
  | succ n ih =>
    rw [insert_loop, ih (i - 1) _ (by omega)]
    have e : i - 1 - n = i - (n + 1) := by omega
    rw [e]
    unfold swap_at
    by_cases h1 : j < i - (n + 1)
    · have h2 : j ≠ i - 1 := by omega
      have h3 : j ≠ i := by omega
      simp [h1, h2, h3]
    · by_cases h2 : j = i - (n + 1)
      · simp only [h1, h2, if_false, if_true]
        have h3 : i - 1 ≠ i := by omega
        simp [h3]
      · simp only [h1, h2, if_false]
        by_cases h3 : j ≤ i - 1
        · have h4 : j ≤ i := by omega
          have h5 : j - 1 ≠ i - 1 := by omega
          have h6 : j - 1 ≠ i := by omega
          simp [h3, h4, h5, h6]
        · by_cases h4 : j = i
          · subst h4
            have h5 : j ≠ j - 1 := by omega
            simp [h3, h5]
          · have h5 : ¬ j ≤ i := by omega
            have h6 : j ≠ i - 1 := by omega
            simp [h3, h4, h5, h6]

theorem erase_loop_apply (ind1 ind2 n i : Nat) (a : Slots α) (h : ind1 ≤ ind2) :
    (∀ j, j < ind1 + i → erase_loop ind1 ind2 n i a j = a j) ∧
    (∀ k, k < n → erase_loop ind1 ind2 n i a (ind1 + i + k) = a (ind2 + i + k)) := by
  induction n generalizing i a with
  | zero =>
    exact ⟨fun _ _ => rfl, fun k hk => absurd hk (Nat.not_lt_zero k)⟩
  | succ n ih =>
    obtain ⟨ih1, ih2⟩ := ih (i + 1) (swap_at a (ind1 + i) (ind2 + i))
    constructor
    · intro j hj
      rw [erase_loop, ih1 j (by omega)]
      unfold swap_at
      have h1 : j ≠ ind1 + i := by omega
      have h2 : j ≠ ind2 + i := by omega
      simp [h1, h2]
    · intro k hk
      rw [erase_loop]
      rcases Nat.eq_zero_or_pos k with h0 | h0
      · subst h0
        rw [Nat.add_zero, ih1 _ (by omega)]
        simp [swap_at]
      · have e : ind1 + i + k = ind1 + (i + 1) + (k - 1) := by omega
        rw [e, ih2 (k - 1) (by omega)]
        unfold swap_at
        have h1 : ind2 + (i + 1) + (k - 1) ≠ ind1 + i := by omega
        have h2 : ind2 + (i + 1) + (k - 1) ≠ ind2 + i := by omega
        have e2 : ind2 + (i + 1) + (k - 1) = ind2 + i + k := by omega
        simp only [h1, h2, if_false]
        rw [e2]

theorem PushFail.push_eff {K : Nat} {w w' : World α} {v v' : socow_vector α}
    (h : PushFail K w v w' v') : Eff w v w' v' :=
  Eff.of_moves h.2.2.2.1 h.2.2.1

/-- What `insert` does. -/
theorem insert_spec (K : Nat) (thr : Nat → Bool) (ind : Nat) (x : α) (w : World α)
    (v : socow_vector α) (hh : HeapOK w) (hv : Valid w v) (hi : ind ≤ v.size_) :
    (∃ w' v', insert K thr ind x (w, v) = .error (w', v') ∧ PushFail K w v w' v' ∧
      ∃ k, thr k = true) ∨
    (∃ w' v', insert K thr ind x (w, v) = .ok ((w', v'), ind) ∧ Excl w' v' ∧ Valid w' v' ∧
      Eff w v w' v' ∧ v'.size_ = v.size_ + 1 ∧
      (∀ j, j < ind → cdata w' v' j = cdata w v j) ∧ cdata w' v' ind = some x ∧
      (∀ j, ind < j → j ≤ v.size_ → cdata w' v' j = cdata w v (j - 1))) := by
  unfold insert
  rcases push_back_spec K thr x w v hh hv with ⟨w1, v1, e, hf, ht⟩ | ⟨w1, v1, e, hok⟩
  · left
    rw [e]
    exact ⟨w1, v1, rfl, hf, ht⟩
  · right
    rw [e]
    obtain ⟨hs, hc, hx, hex, hv1, hm, _⟩ := hok
    have hu : data K thr (w1, v1) = .ok (w1, v1) := unshare_noop K thr w1 v1 hex
    simp only [hu]
    have hse := store_eff w1 v1
      (insert_loop (v1.size_ - 1 - ind) (v1.size_ - 1) (cdata w1 v1)) hm.heapOK hv1 hex
    have hcd := cdata_store w1 v1
      (insert_loop (v1.size_ - 1 - ind) (v1.size_ - 1) (cdata w1 v1)) hv1
    have e1 : v1.size_ - 1 = v.size_ := by omega
    have e2 : v.size_ - (v.size_ - ind) = ind := by omega
    refine ⟨(store (w1, v1) (insert_loop (v1.size_ - 1 - ind) (v1.size_ - 1) (cdata w1 v1))).1,
      (store (w1, v1) (insert_loop (v1.size_ - 1 - ind) (v1.size_ - 1) (cdata w1 v1))).2,
      rfl, Excl_store _ _ _ hex, Valid_store _ _ _ hv1,
      (Eff.of_moves hm hv1).trans_eff hse, ?_, ?_, ?_, ?_⟩
    · rw [(store_snd _ _ _).1, hs]
    · intro j hj
      rw [hcd, e1, insert_loop_apply _ _ _ (Nat.sub_le _ _), e2, if_pos hj]
      exact hc j (by omega)
    · rw [hcd, e1, insert_loop_apply _ _ _ (Nat.sub_le _ _), e2, if_neg (Nat.lt_irrefl _),
        if_pos rfl]
      exact hx
    · intro j h1 h2
      rw [hcd, e1, insert_loop_apply _ _ _ (Nat.sub_le _ _), e2, if_neg (by omega),
        if_neg (by omega), if_pos h2]
      exact hc (j - 1) (by omega)

theorem ModeKept.of_excl {K : Nat} {w w' : World α} {v v' : socow_vector α}
    (h : ModeKept K w v w' v') (hx : Excl w v) :
    v'.dynamic_ = v.dynamic_ ∧ capacity K w' v' = capacity K w v := by
  rcases h with h | ⟨_, _, h3, _⟩
  · exact h
  · exact absurd hx h3

/-- On a container that owns its storage alone, `pop_back` returns. -/
theorem pop_back_excl (K : Nat) (thr : Nat → Bool) (w : World α) (v : socow_vector α)
    (hh : HeapOK w) (hv : Valid w v) (hx : Excl w v) :
    ∃ w' v', pop_back K thr (w, v) = .ok (w', v') ∧ MutOk K w v w' v' ∧
      v'.size_ = v.size_ - 1 ∧ (∀ j, j < v.size_ - 1 → cdata w' v' j = cdata w v j) ∧
      cdata w' v' (v.size_ - 1) = none := by
  rcases pop_back_spec K thr w v hh hv with ⟨w', v', e, _⟩ | h
  · exfalso
    unfold pop_back data at e
    rw [unshare_noop K thr w v hx] at e
    cases e
  · exact h

theorem pop_back_loop_excl (K : Nat) (thr : Nat → Bool) (n : Nat) (w : World α)
    (v : socow_vector α) (hh : HeapOK w) (hv : Valid w v) (hx : Excl w v) :
    ∃ w' v', pop_back_loop K thr n (w, v) = .ok (w', v') ∧ Excl w' v' ∧ Valid w' v' ∧
      Eff w v w' v' ∧ v'.size_ = v.size_ - n ∧
      (∀ j, j < v.size_ - n → cdata w' v' j = cdata w v j) ∧
      v'.dynamic_ = v.dynamic_ ∧ capacity K w' v' = capacity K w v := by
  induction n generalizing w v with
  | zero =>
    exact ⟨w, v, rfl, hx, hv, Eff.refl_eff w v hh hv, rfl, fun _ _ => rfl, rfl, rfl⟩
  | succ n ih =>
    obtain ⟨w1, v1, e, ⟨hx1, hv1, he1, hm1⟩, hs1, hc1, _⟩ := pop_back_excl K thr w v hh hv hx
    obtain ⟨w2, v2, e2, hx2, hv2, he2, hs2, hc2, hd2, hcap2⟩ :=
      ih w1 v1 he1.heapOK hv1 hx1
    obtain ⟨hd1, hcap1⟩ := hm1.of_excl hx
    refine ⟨w2, v2, ?_, hx2, hv2, he1.trans_eff he2, by omega, ?_, hd2.trans hd1,
      hcap2.trans hcap1⟩
    · rw [pop_back_loop, e]
      exact e2
    · intro j hj
      rw [hc2 j (by omega), hc1 j (by omega)]

/-- What `erase` does. -/
theorem erase_spec (K : Nat) (thr : Nat → Bool) (ind1 ind2 : Nat) (w : World α)
    (v : socow_vector α) (hh : HeapOK w) (hv : Valid w v) (h12 : ind1 ≤ ind2)
    (h2 : ind2 ≤ v.size_) :
    (∃ w' v', erase K thr ind1 ind2 (w, v) = .error (w', v') ∧ Unchanged K w v w' v' ∧
      ¬ Excl w v ∧ ∃ k, thr k = true) ∨
    (∃ w' v', erase K thr ind1 ind2 (w, v) = .ok ((w', v'), ind1) ∧ Excl w' v' ∧
      Valid w' v' ∧ Eff w v w' v' ∧ ModeKept K w v w' v' ∧
      v'.size_ = v.size_ - (ind2 - ind1) ∧
      (∀ j, j < ind1 → cdata w' v' j = cdata w v j) ∧
      (∀ j, ind1 ≤ j → j < v.size_ - (ind2 - ind1) →
        cdata w' v' j = cdata w v (j + (ind2 - ind1)))) := by
  unfold erase data
  cases hu : unshare K thr (w, v) with
  | error s =>
    obtain ⟨w2, v2⟩ := s
    left
    refine ⟨w2, v2, rfl, unshare_error K thr w w2 v v2 hv hu, ?_,
      unshare_error_throws K thr w w2 v v2 hv hu⟩
    intro hx
    rw [unshare_noop K thr w v hx] at hu
    cases hu
  | ok s =>
    obtain ⟨w2, v2⟩ := s
    right
    obtain ⟨hs, hc, _, _⟩ := unshare_ok_spec K thr w w2 v v2 hv hu
    obtain ⟨⟨hx1, hv1, he1, hm1⟩, hcd⟩ := mut_after_detach_any K thr w w2 v v2 hh hv hu
      w2.copies v2.size_ (erase_loop ind1 ind2 (size v2 - ind2) 0 (cdata w2 v2)) _
      rfl rfl rfl
    obtain ⟨w3, v3, e3, hx3, hv3, he3, hs3, hc3, hd3, hcap3⟩ :=
      pop_back_loop_excl K thr (ind2 - ind1) _ _ he1.heapOK hv1 hx1
    have hs1 : (store (w2, v2)
        (erase_loop ind1 ind2 (size v2 - ind2) 0 (cdata w2 v2))).2.size_ = v.size_ := by
      rw [(store_snd _ _ _).1, hs]
    obtain ⟨el1, el2⟩ := erase_loop_apply ind1 ind2 (size v2 - ind2) 0 (cdata w2 v2) h12
    simp only
    rw [e3]
    refine ⟨w3, v3, rfl, hx3, hv3, he1.trans_eff he3, ?_, by rw [hs3, hs1], ?_, ?_⟩
    · rcases hm1 with ⟨a1, a2⟩ | ⟨a1, a2, a3, a4⟩
      · exact Or.inl ⟨hd3.trans a1, hcap3.trans a2⟩
      · exact Or.inr ⟨a1, hd3.trans a2, a3, a4⟩
    · intro j hj
      rw [hc3 j (by rw [hs1]; omega), hcd, el1 j (by omega)]
      exact hc j (by omega)
    · intro j hj1 hj2
      rw [hc3 j (by rw [hs1]; omega), hcd]
      have := el2 (j - ind1) (by unfold size; omega)
      have e1 : ind1 + 0 + (j - ind1) = j := by omega
      have e2 : ind2 + 0 + (j - ind1) = j + (ind2 - ind1) := by omega
      rw [e1, e2] at this
      rw [this]
      exact hc _ (by omega)

/-! ## Element sequences -/

theorem HeapOK.of_heap_check (w : World α) (h : heap_ok w = true) : HeapOK w := by
  apply HeapOK.of_heap
  intro b hb
  unfold heap_ok at h
  rw [List.all_eq_true] at h
  have := h _ hb
  simpa using this

theorem Valid.of_valid_check (w : World α) (v : socow_vector α) (h : valid_in w v = true) :
    Valid w v := by
  intro hd
  unfold valid_in at h
  simp only [hd, Bool.not_true, Bool.false_or] at h
  exact Option.isSome_iff_exists.mp h

theorem elems_getElem? (w : World α) (v : socow_vector α) (j : Nat) :
    (elems w v)[j]? = if j < v.size_ then some (cdata w v j) else none := by
  unfold elems size
  rw [List.getElem?_map]
  by_cases h : j < v.size_
  · rw [List.getElem?_range h, if_pos h]
    rfl
  · rw [List.getElem?_eq_none (by simp; omega), if_neg h]
    rfl

theorem elems_eq_of (w : World α) (v : socow_vector α) (l : List α)
    (hs : v.size_ = l.length) (h : ∀ j, j < l.length → cdata w v j = l[j]?) :
    elems w v = l.map some := by
  apply List.ext_getElem?
  intro j
  rw [elems_getElem?, List.getElem?_map]
  by_cases hj : j < l.length
  · rw [if_pos (by omega), h j hj, List.getElem?_eq_getElem hj]
    rfl
  · rw [if_neg (by omega), List.getElem?_eq_none (by omega)]
    rfl

theorem cdata_of_elems (w : World α) (v : socow_vector α) (l : List α)
    (h : elems w v = l.map some) :
    v.size_ = l.length ∧ ∀ j, j < l.length → cdata w v j = l[j]? := by
  have hs : v.size_ = l.length := by
    have := congrArg List.length h
    simpa [elems_length] using this
  refine ⟨hs, fun j hj => ?_⟩
  have := congrArg (fun l => l[j]?) h
  simp only [elems_getElem?, List.getElem?_map] at this
  rw [if_pos (by omega), List.getElem?_eq_getElem hj] at this
  simp only [Option.map_some', Option.some.injEq] at this
  rw [this, List.getElem?_eq_getElem hj]

theorem getElem?_insert_list (xs : List α) (i : Nat) (x : α) (hi : i ≤ xs.length) (j : Nat) :
    (xs.take i ++ x :: xs.drop i)[j]? =
      if j < i then xs[j]? else if j = i then some x else xs[j - 1]? := by
  have hl : (xs.take i).length = i := by simp [hi]
  by_cases h1 : j < i
  · rw [if_pos h1, List.getElem?_append_left (by omega), List.getElem?_take_of_lt h1]
  · rw [if_neg h1, List.getElem?_append_right (by omega), hl]
    by_cases h2 : j = i
    · subst h2
      simp
    · rw [if_neg h2]
      have e : j - i = (j - i - 1) + 1 := by omega
      rw [e, List.getElem?_cons_succ, List.getElem?_drop]
      congr 1
      omega

theorem getElem?_erase_list (xs : List α) (i j : Nat) (hi : i ≤ xs.length) (hij : i ≤ j)
    (k : Nat) :
    (xs.take i ++ xs.drop j)[k]? = if k < i then xs[k]? else xs[k + (j - i)]? := by
  have hl : (xs.take i).length = i := by simp [hi]
  by_cases h1 : k < i
  · rw [if_pos h1, List.getElem?_append_left (by omega), List.getElem?_take_of_lt h1]
  · rw [if_neg h1, List.getElem?_append_right (by omega), hl, List.getElem?_drop]
    congr 1
    omega

/-! ## Counting references over all containers -/

theorem refs_nil (q : Nat) : refs ([] : List (socow_vector α)) q = 0 := rfl

theorem refs_cons (v : socow_vector α) (l : List (socow_vector α)) (q : Nat) :
    refs (v :: l) q = refOf v q + refs l q := by
  simp [refs]

theorem refs_append (l : List (socow_vector α)) (b : socow_vector α) (q : Nat) :
    refs (l ++ [b]) q = refs l q + refOf b q := by
  simp [refs]

theorem refs_set (l : List (socow_vector α)) (i : Nat) (v v' : socow_vector α)
    (h : l[i]? = some v) (q : Nat) :
    refs (l.set i v') q + refOf v q = refs l q + refOf v' q := by
  induction l generalizing i with
  | nil => simp at h
  | cons x l ih =>
    cases i with
    | zero =>
      simp only [List.getElem?_cons_zero, Option.some.injEq] at h
      subst h
      simp only [List.set_cons_zero, refs_cons]
      omega
    | succ i =>
      simp only [List.getElem?_cons_succ] at h
      simp only [List.set_cons_succ, refs_cons]
      have := ih i h
      omega

theorem refs_eraseIdx (l : List (socow_vector α)) (i : Nat) (v : socow_vector α)
    (h : l[i]? = some v) (q : Nat) :
    refs (l.eraseIdx i) q + refOf v q = refs l q := by
  induction l generalizing i with
  | nil => simp at h
  | cons x l ih =>
    cases i with
    | zero =>
      simp only [List.getElem?_cons_zero, Option.some.injEq] at h
      subst h
      simp only [List.eraseIdx_cons_zero, refs_cons]
      omega
    | succ i =>
      simp only [List.getElem?_cons_succ] at h
      simp only [List.eraseIdx_cons_succ, refs_cons]
      have := ih i h
      omega

theorem refs_ge (l : List (socow_vector α)) (i : Nat) (v : socow_vector α)
    (h : l[i]? = some v) (q : Nat) : refOf v q ≤ refs l q := by
  have := refs_set l i v v h q
  have := refs_eraseIdx l i v h q
  omega

theorem refs_ge_two (l : List (socow_vector α)) (i j : Nat) (a b : socow_vector α)
    (hi : l[i]? = some a) (hj : l[j]? = some b) (hij : i ≠ j) (q : Nat) :
    refOf a q + refOf b q ≤ refs l q := by
  have h1 := refs_set l i a default_ctor hi q
  have hj' : (l.set i default_ctor)[j]? = some b := by
    rw [List.getElem?_set_ne hij]
    exact hj
  have h2 := refs_ge (l.set i default_ctor) j b hj' q
  have h3 : refOf (default_ctor : socow_vector α) q = 0 := by simp [refOf, default_ctor]
  omega

theorem RefInv.valid_inv {s : Sys α} (h : RefInv s) {i : Nat} {v : socow_vector α}
    (hv : s.vecs[i]? = some v) : Valid s.w v := by
  intro hd
  have h1 := refs_ge s.vecs i v hv v.dynamic_buffer_
  rw [refOf_self v hd, ← h.2] at h1
  cases hr : s.w.read v.dynamic_buffer_ with
  | some b => exact ⟨b, rfl⟩
  | none =>
    rw [rc_of_none hr] at h1
    omega

/-- An operation on container `i` keeps the reference counts in step. -/
theorem RefInv.step_one {s : Sys α} (h : RefInv s) {i : Nat} {v v' : socow_vector α}
    {w' : World α} (hv : s.vecs[i]? = some v) (hm : Moves s.w (refOf v) w' (refOf v')) :
    RefInv ⟨w', s.vecs.set i v'⟩ := by
  refine ⟨hm.heapOK, fun q => ?_⟩
  have h1 := hm.count q
  have h2 := refs_set s.vecs i v v' hv q
  have h3 := h.2 q
  show rc w' q = refs (s.vecs.set i v') q
  omega

/-- An operation on the containers `i` and `j` keeps the reference counts in step. -/
theorem RefInv.step_two {s : Sys α} (h : RefInv s) {i j : Nat} {a a' b b' : socow_vector α}
    {w' : World α} (ha : s.vecs[i]? = some a) (hb : s.vecs[j]? = some b) (hij : i ≠ j)
    (hm : Moves s.w (fun q => refOf a q + refOf b q) w'
      (fun q => refOf a' q + refOf b' q)) :
    RefInv ⟨w', (s.vecs.set i a').set j b'⟩ := by
  refine ⟨hm.heapOK, fun q => ?_⟩
  have h1 := hm.count q
  have h2 := refs_set s.vecs i a a' ha q
  have hb' : (s.vecs.set i a')[j]? = some b := by
    rw [List.getElem?_set_ne hij]
    exact hb
  have h3 := refs_set (s.vecs.set i a') j b b' hb' q
  have h4 := h.2 q
  show rc w' q = refs ((s.vecs.set i a').set j b') q
  simp only at h1
  omega

theorem mutation_eff (K : Nat) (thr : Nat → Bool) (m : Mutation α) (w : World α)
    (v : socow_vector α) (hh : HeapOK w) (hv : Valid w v) (hp : m.pre v = true) :
    Eff w v (final (m.run K thr (w, v))).1 (final (m.run K thr (w, v))).2 := by
  cases m with
  | push_back x =>
    show Eff w v (final (push_back K thr x (w, v))).1 (final (push_back K thr x (w, v))).2
    rcases push_back_spec K thr x w v hh hv with ⟨w', v', e, hf, _⟩ | ⟨w', v', e, hok⟩
    · rw [e]
      exact hf.push_eff
    · rw [e]
      exact Eff.of_moves hok.2.2.2.2.2.1 hok.2.2.2.2.1
  | pop_back =>
    show Eff w v (final (pop_back K thr (w, v))).1 (final (pop_back K thr (w, v))).2
    rcases pop_back_spec K thr w v hh hv with ⟨w', v', e, hf, _⟩ | ⟨w', v', e, hok, _⟩
    · rw [e]
      exact hf.to_eff hh hv
    · rw [e]
      exact hok.2.2.1
  | insert pos x =>
    have hi : pos ≤ v.size_ := by simpa [Mutation.pre] using hp
    show Eff w v (final (no_iter (insert K thr pos x (w, v)))).1
      (final (no_iter (insert K thr pos x (w, v)))).2
    rcases insert_spec K thr pos x w v hh hv hi with
      ⟨w', v', e, hf, _⟩ | ⟨w', v', e, _, _, hok, _⟩
    · rw [e]
      exact hf.push_eff
    · rw [e]
      exact hok
  | erase first last =>
    have hi : first ≤ last ∧ last ≤ v.size_ := by simpa [Mutation.pre] using hp
    show Eff w v (final (no_iter (erase K thr first last (w, v)))).1
      (final (no_iter (erase K thr first last (w, v)))).2
    rcases erase_spec K thr first last w v hh hv hi.1 hi.2 with
      ⟨w', v', e, hf, _⟩ | ⟨w', v', e, _, _, hok, _⟩
    · rw [e]
      exact hf.to_eff hh hv
    · rw [e]
      exact hok
  | clear =>
    show Eff w v (final (clear K thr (w, v))).1 (final (clear K thr (w, v))).2
    rcases clear_spec K thr w v hh hv with ⟨w', v', e, hf, _⟩ | ⟨w', v', e, hok, _⟩
    · rw [e]
      exact hf.to_eff hh hv
    · rw [e]
      exact hok.2.2.1
  | index_assign k x =>
    show Eff w v (final (index_assign K thr k x (w, v))).1
      (final (index_assign K thr k x (w, v))).2
    rcases index_assign_spec K thr k x w v hh hv with
      ⟨w', v', e, hf, _⟩ | ⟨w', v', e, hok, _⟩
    · rw [e]
      exact hf.to_eff hh hv
    · rw [e]
      exact hok.2.2.1

theorem reserve_eff (K : Nat) (thr : Nat → Bool) (n : Nat) (w : World α)
    (v : socow_vector α) (hh : HeapOK w) (hv : Valid w v) :
    Eff w v (final (reserve K thr n (w, v))).1 (final (reserve K thr n (w, v))).2 := by
  unfold reserve
  split
  · exact change_capacity_eff K thr n w v hh hv
  · exact unshare_eff K thr w v hh hv

theorem shrink_to_fit_eff (K : Nat) (thr : Nat → Bool) (w : World α)
    (v : socow_vector α) (hh : HeapOK w) (hv : Valid w v) :
    Eff w v (final (shrink_to_fit K thr (w, v))).1 (final (shrink_to_fit K thr (w, v))).2 := by
  unfold shrink_to_fit
  split
  · exact change_capacity_eff K thr _ w v hh hv
  · exact Eff.refl_eff w v hh hv

theorem backed_valid {w : World α} {ρ : Nat → Nat} (v : socow_vector α)
    (hb : ∀ q, ρ q ≤ rc w q) (hv : ∀ q, refOf v q ≤ ρ q) : Valid w v := by
  intro hd
  have h1 := hb v.dynamic_buffer_
  have h2 := hv v.dynamic_buffer_
  rw [refOf_self v hd] at h2
  cases hr : w.read v.dynamic_buffer_ with
  | some b => exact ⟨b, rfl⟩
  | none =>
    rw [rc_of_none hr] at h1
    omega

/-- The state after the temporary of a copy assignment has been swapped in and
destroyed. -/
theorem assign_finish (w w2 : World α) (this other tmp2 this2 : socow_vector α)
    (hb : ∀ q, refOf this q + refOf other q ≤ rc w q)
    (m3 : Moves w (fun q => refOf this q + refOf other q) w2
      (fun q => refOf tmp2 q + refOf this2 q + refOf other q)) :
    Moves w (fun q => refOf this q + refOf other q) (dtor (w2, tmp2))
      (fun q => refOf this2 q + refOf other q) := by
  have hv2 : Valid w2 tmp2 := m3.valid_moves hb tmp2 (fun q => by omega)
  have m4 : Moves w2 (fun q => refOf tmp2 q + refOf this2 q + refOf other q)
      (dtor (w2, tmp2)) (fun q => refOf this2 q + refOf other q) :=
    ((reset_moves w2 tmp2 m3.heapOK hv2).frame_moves
      (fun q => refOf this2 q + refOf other q)).congr (fun q => by omega) (fun q => by omega)
  exact m3.trans_moves m4

/-- Copy assignment, whether it returns or throws: the references of `this` move, those
of `other` stay. -/
theorem assign_moves (thr : Nat → Bool) (w : World α) (this other : socow_vector α)
    (hh : HeapOK w) (hb : ∀ q, refOf this q + refOf other q ≤ rc w q) :
    Moves w (fun q => refOf this q + refOf other q) (final (assign thr w this other)).1
      (fun q => refOf (final (assign thr w this other)).2 q + refOf other q) := by
  have ho : Valid w other := backed_valid other hb (fun q => by omega)
  unfold assign
  rcases copy_ctor_moves thr w other hh ho with
    ⟨w1, tmp, e, _, hm1, _⟩ | ⟨w1, k, e, hw, _⟩
  · rw [e]
    simp only
    have m1 : Moves w (fun q => refOf this q + refOf other q) w1
        (fun q => refOf tmp q + refOf this q + refOf other q) :=
      (hm1.frame_moves (refOf this)).congr (fun q => Nat.add_comm _ _) (fun q => by omega)
    have m2 := (swap_moves thr w1 tmp this hm1.heapOK).frame_moves (refOf other)
    cases hs : swap thr (w1, tmp, this) with
    | error s =>
      obtain ⟨w2, tmp2, this2⟩ := s
      rw [hs] at m2
      exact assign_finish w w2 this other tmp2 this2 hb (m1.trans_moves m2)
    | ok s =>
      obtain ⟨w2, tmp2, this2⟩ := s
      rw [hs] at m2
      exact assign_finish w w2 this other tmp2 this2 hb (m1.trans_moves m2)
  · rw [e]
    simp only [final]
    exact Moves.of_same_heap_moves _ hh (read_of_heap_eq hw)

theorem on_vec_inv {s s' : Sys α} (h : RefInv s) (i : Nat)
    (f : St α → Except (St α) (St α))
    (hf : ∀ v, s.vecs[i]? = some v →
      Eff s.w v (final (f (s.w, v))).1 (final (f (s.w, v))).2)
    (he : on_vec s i f = some s') : RefInv s' := by
  unfold on_vec at he
  cases hv : s.vecs[i]? with
  | none => rw [hv] at he; cases he
  | some v =>
    rw [hv] at he
    simp only [Option.some.injEq] at he
    subst he
    exact h.step_one hv (hf v hv).moves

/-- Every step of a program keeps the reference-count invariant. -/
theorem exec_inv (K : Nat) (thr : Nat → Bool) (op : Op α) (s s' : Sys α) (h : RefInv s)
    (he : exec K thr op s = some s') : RefInv s' := by
  cases op with
  | construct =>
    simp only [exec, Option.some.injEq] at he
    subst he
    refine ⟨h.1, fun q => ?_⟩
    show rc s.w q = refs (s.vecs ++ [default_ctor]) q
    rw [refs_append, h.2 q]
    simp [refOf, default_ctor]
  | copy i =>
    simp only [exec] at he
    cases hv : s.vecs[i]? with
    | none => rw [hv] at he; cases he
    | some v =>
      rw [hv] at he
      simp only at he
      rcases copy_ctor_moves thr s.w v h.1 (h.valid_inv hv) with
        ⟨w1, b, e, _, hm, _⟩ | ⟨w1, k, e, hw, _⟩
      · rw [e] at he
        simp only [Option.some.injEq] at he
        subst he
        refine ⟨hm.heapOK, fun q => ?_⟩
        have h1 := hm.count q
        have h2 := h.2 q
        show rc w1 q = refs (s.vecs ++ [b]) q
        rw [refs_append]
        simp only at h1
        omega
      · rw [e] at he
        simp only [Option.some.injEq] at he
        subst he
        have hm := Moves.of_same_heap_to w1 (fun _ => 0) h.1 (read_of_heap_eq hw)
        refine ⟨hm.heapOK, fun q => ?_⟩
        have h1 := hm.count q
        have h2 := h.2 q
        show rc w1 q = refs s.vecs q
        omega
  | destroy i =>
    simp only [exec] at he
    cases hv : s.vecs[i]? with
    | none => rw [hv] at he; cases he
    | some v =>
      rw [hv] at he
      simp only [Option.some.injEq] at he
      subst he
      have hm := reset_moves s.w v h.1 (h.valid_inv hv)
      refine ⟨hm.heapOK, fun q => ?_⟩
      have h1 := hm.count q
      have h2 := h.2 q
      have h3 := refs_eraseIdx s.vecs i v hv q
      show rc (reset (s.w, v)).1 q = refs (s.vecs.eraseIdx i) q
      omega
  | assign i j =>
    simp only [exec] at he
    cases ha : s.vecs[i]? with
    | none => rw [ha] at he; cases he
    | some a =>
      cases hb : s.vecs[j]? with
      | none => rw [ha, hb] at he; cases he
      | some b =>
        rw [ha, hb] at he
        simp only at he
        by_cases hij : i = j
        · rw [if_pos hij] at he
          cases he
          exact h
        · rw [if_neg hij] at he
          simp only [Option.some.injEq] at he
          subst he
          have hback : ∀ q, refOf a q + refOf b q ≤ rc s.w q := by
            intro q
            rw [h.2 q]
            exact refs_ge_two s.vecs i j a b ha hb hij q
          have hm := assign_moves thr s.w a b h.1 hback
          refine ⟨hm.heapOK, fun q => ?_⟩
          have h1 := hm.count q
          have h2 := h.2 q
          have h3 := refs_set s.vecs i a (final (assign thr s.w a b)).2 ha q
          show rc (final (assign thr s.w a b)).1 q =
            refs (s.vecs.set i (final (assign thr s.w a b)).2) q
          simp only at h1
          omega
  | swap i j =>
    simp only [exec] at he
    cases ha : s.vecs[i]? with
    | none => rw [ha] at he; cases he
    | some a =>
      cases hb : s.vecs[j]? with
      | none => rw [ha, hb] at he; cases he
      | some b =>
        rw [ha, hb] at he
        simp only at he
        by_cases hij : i = j
        · rw [if_pos hij] at he
          cases he
          exact h
        · rw [if_neg hij] at he
          simp only [Option.some.injEq] at he
          subst he
          exact h.step_two ha hb hij (swap_moves thr s.w a b h.1)
  | mutate i m =>
    simp only [exec] at he
    cases hv : s.vecs[i]? with
    | none => rw [hv] at he; cases he
    | some v =>
      rw [hv] at he
      simp only at he
      by_cases hp : m.pre v = true
      · rw [if_pos hp] at he
        refine on_vec_inv h i _ (fun v' hv' => ?_) he
        rw [hv] at hv'
        cases hv'
        exact mutation_eff K thr m s.w v h.1 (h.valid_inv hv) hp
      · rw [if_neg hp] at he
        cases he
  | reserve i n =>
    exact on_vec_inv h i _ (fun v hv => reserve_eff K thr n s.w v h.1 (h.valid_inv hv)) he
  | shrink_to_fit i =>
    exact on_vec_inv h i _ (fun v hv => shrink_to_fit_eff K thr s.w v h.1 (h.valid_inv hv)) he
  | data i =>
    exact on_vec_inv h i _ (fun v hv => unshare_eff K thr s.w v h.1 (h.valid_inv hv)) he

theorem RefInv_init : RefInv (⟨⟨[], 0⟩, []⟩ : Sys α) := by
  refine ⟨?_, fun q => ?_⟩
  · intro q b hb
    simp [World.read] at hb
  · simp [rc_eq, World.read, refs]

/-- Every reachable program state satisfies the reference-count invariant. -/
theorem Reachable.inv {K : Nat} {thr : Nat → Bool} {s : Sys α} (h : Reachable K thr s) :
    RefInv s := by
  induction h with
  | init => exact RefInv_init
  | step op _ he ih => exact exec_inv K thr op _ _ ih he

theorem Reachable.of_run {K : Nat} {thr : Nat → Bool} (ops : List (Op α)) (s s' : Sys α)
    (h : Reachable K thr s) (hr : run K thr ops s = some s') : Reachable K thr s' := by
  induction ops generalizing s with
  | nil =>
    simp only [run, Option.some.injEq] at hr
    subst hr
    exact h
  | cons op ops ih =>
    simp only [run] at hr
    cases he : exec K thr op s with
    | none => rw [he] at hr; cases hr
    | some s1 =>
      rw [he] at hr
      exact ih s1 (Reachable.step op h he) hr

/-- An operation on container `i` changes nothing a program observes through another
container `j`. -/
theorem frame_other {s : Sys α} (h : RefInv s) {i j : Nat} (hij : i ≠ j)
    {x x' : socow_vector α} {w' : World α} (hx : s.vecs[i]? = some x)
    (he : Eff s.w x w' x') :
    observe ⟨w', s.vecs.set i x'⟩ j = observe s j := by
  unfold observe
  show ((s.vecs.set i x')[j]?).map _ = _
  rw [List.getElem?_set_ne hij]
  cases hy : s.vecs[j]? with
  | none => rfl
  | some y =>
    simp only [Option.map_some', Option.some.injEq, Prod.mk.injEq, true_and]
    apply (elems_eq_iff s.w w' y y rfl).mpr
    intro k _
    unfold cdata
    cases hd : y.dynamic_ with
    | false => rfl
    | true =>
      obtain ⟨b, hb⟩ := h.valid_inv hy hd
      have h2 : refOf x y.dynamic_buffer_ = 1 → 2 ≤ b.ref_count := by
        intro h1
        have := refs_ge_two s.vecs i j x y hx hy hij y.dynamic_buffer_
        rw [h1, refOf_self y hd, ← h.2, rc_of_read hb] at this
        exact this
      obtain ⟨b', hb', _, hdat⟩ := he.frame_eff _ b hb h2
      simp [World.buf, hb, hb', hdat]

theorem mutate_frame (K : Nat) (thr : Nat → Bool) (s s' : Sys α) (h : RefInv s)
    (i j : Nat) (hij : i ≠ j) (m : Mutation α)
    (he : exec K thr (.mutate i m) s = some s') : observe s' j = observe s j := by
  simp only [exec] at he
  cases hv : s.vecs[i]? with
  | none => rw [hv] at he; cases he
  | some v =>
    rw [hv] at he
    simp only at he
    by_cases hp : m.pre v = true
    · rw [if_pos hp] at he
      unfold on_vec at he
      rw [hv] at he
      simp only [Option.some.injEq] at he
      subst he
      exact frame_other h hij hv (mutation_eff K thr m s.w v h.1 (h.valid_inv hv) hp)
    · rw [if_neg hp] at he
      cases he

theorem swap_ok (thr : Nat → Bool) (w : World α) (a b : socow_vector α)
    (hthr : ∀ k, thr k = false) :
    ∃ w' a' b', swap thr (w, a, b) = .ok (w', a', b') ∧ w'.heap = w.heap ∧
      w'.copies = w.copies + swap_copies a b ∧ TookOver b a' ∧ TookOver a b' := by
  rcases swap_spec thr w a b with h | ⟨_, _, _, k, _, _, hk, _⟩
  · exact h
  · rw [hthr] at hk
    cases hk

theorem TookOver.cdata {a b : socow_vector α} (h : TookOver a b) (w w' : World α)
    (hr : a.dynamic_ = true → ∃ b0 b1, w.read a.dynamic_buffer_ = some b0 ∧
      w'.read a.dynamic_buffer_ = some b1 ∧ b1.capacity_ = b0.capacity_ ∧
      b1.dynamic_data = b0.dynamic_data) (K : Nat) :
    size b = size a ∧ b.dynamic_ = a.dynamic_ ∧ capacity K w' b = capacity K w a ∧
      elems w' b = elems w a := by
  obtain ⟨h1, h2, h3, h4⟩ := h
  refine ⟨h1, h2, ?_, ?_⟩
  · unfold capacity
    cases hd : a.dynamic_ with
    | false => simp [h2, hd]
    | true =>
      obtain ⟨b0, b1, e0, e1, ec, _⟩ := hr hd
      simp [h2, hd, h3 hd, World.buf, e0, e1, ec]
  · apply (elems_eq_iff w w' a b h1).mpr
    intro j hj
    unfold Socow.cdata
    cases hd : a.dynamic_ with
    | false => simp [h2, hd, h4 hd j hj]
    | true =>
      obtain ⟨b0, b1, e0, e1, _, ed⟩ := hr hd
      simp [h2, hd, h3 hd, World.buf, e0, e1, ed]

theorem TookOver.trans_took {a b c : socow_vector α} (h1 : TookOver a b) (h2 : TookOver b c) :
    TookOver a c := by
  obtain ⟨a1, a2, a3, a4⟩ := h1
  obtain ⟨b1, b2, b3, b4⟩ := h2
  refine ⟨b1.trans a1, b2.trans a2, ?_, ?_⟩
  · intro hd
    rw [b3 (a2.trans hd), a3 hd]
  · intro hd j hj
    rw [b4 (a2.trans hd) j (by omega), a4 hd j hj]

/-- Copy assignment `this = other`, when no element copy throws. -/
theorem assign_ok (thr : Nat → Bool) (w : World α) (this other : socow_vector α)
    (hh : HeapOK w) (ht : Valid w this) (ho : Valid w other)
    (hthr : ∀ k, thr k = false) :
    ∃ w' this', assign thr w this other = .ok (w', this') ∧ TookOver other this' ∧
      (other.dynamic_ = false → ∀ q b0, w.read q = some b0 → refOf this q = 0 →
        w'.read q = some b0) ∧
      (other.dynamic_ = true → ∃ b0, w.read other.dynamic_buffer_ = some b0 ∧
        w'.read other.dynamic_buffer_ = some { b0 with
          ref_count := b0.ref_count + 1 - refOf this other.dynamic_buffer_ } ∧
        w'.copies = w.copies + (if this.dynamic_ then 0 else this.size_)) := by
  unfold assign
  rcases copy_ctor_moves thr w other hh ho with
    ⟨w1, tmp, e, htmp, hm1, hdyn, hstat⟩ | ⟨w1, k, e, _, hk, _⟩
  · rw [e]
    simp only
    obtain ⟨w2, tmp2, this2, e2, hw2, hc2, t1, t2⟩ := swap_ok thr w1 tmp this hthr
    rw [e2]
    simp only
    refine ⟨_, _, rfl, htmp.trans_took t2, ?_, ?_⟩
    · intro hd q b0 hb0 hq
      obtain ⟨hw1, _⟩ := hstat hd
      have r2 : ∀ q, w2.read q = w.read q := fun q =>
        (read_of_heap_eq hw2 q).trans (read_of_heap_eq hw1 q)
      unfold dtor reset
      cases hd2 : tmp2.dynamic_ with
      | false =>
        simp only [Bool.false_eq_true, if_false]
        rw [r2, hb0]
      | true =>
        simp only [if_true]
        have hp : tmp2.dynamic_buffer_ = this.dynamic_buffer_ := t1.2.2.1 (t1.2.1 ▸ hd2)
        have hdt : this.dynamic_ = true := t1.2.1 ▸ hd2
        obtain ⟨b1, hb1⟩ := ht hdt
        rw [clear_dynamic_read w2 tmp2 b1 (by rw [hp, r2, hb1])]
        have : q ≠ tmp2.dynamic_buffer_ := by
          rw [hp]
          exact refOf_zero_ne hq hdt
        rw [if_neg this, r2, hb0]
    · intro hd
      obtain ⟨b0, hb0⟩ := ho hd
      obtain ⟨hc1, _, hr1⟩ := hdyn hd
      have e1 : w1.read other.dynamic_buffer_ =
          some { b0 with ref_count := b0.ref_count + 1 } := by
        have e' := e
        rw [copy_ctor_dynamic thr w other hd] at e'
        simp only [Except.ok.injEq, Prod.mk.injEq] at e'
        rw [← e'.1, World.read_modify, if_pos rfl, hb0]
        rfl
      have r2 : ∀ q, w2.read q = w1.read q := read_of_heap_eq hw2
      have htd : tmp.dynamic_ = true := htmp.2.1.trans hd
      refine ⟨b0, hb0, ?_, ?_⟩
      · unfold dtor reset
        cases hd2 : tmp2.dynamic_ with
        | false =>
          simp only [Bool.false_eq_true, if_false]
          have hdt : this.dynamic_ = false := t1.2.1 ▸ hd2
          rw [r2, e1, refOf_static this _ hdt]
          rfl
        | true =>
          simp only [if_true]
          have hp : tmp2.dynamic_buffer_ = this.dynamic_buffer_ := t1.2.2.1 (t1.2.1 ▸ hd2)
          have hdt : this.dynamic_ = true := t1.2.1 ▸ hd2
          obtain ⟨b1, hb1⟩ := ht hdt
          by_cases hq : this.dynamic_buffer_ = other.dynamic_buffer_
          · have hb1' : w2.read tmp2.dynamic_buffer_ =
                some { b0 with ref_count := b0.ref_count + 1 } := by
              rw [hp, hq, r2, e1]
            rw [clear_dynamic_read w2 tmp2 _ hb1', if_pos (by rw [hp, hq])]
            have h1 := hh _ b0 hb0
            have hrc : b0.ref_count + 1 > 1 := by omega
            simp only [hrc, if_true]
            have : refOf this other.dynamic_buffer_ = 1 := by
              rw [← hq]
              exact refOf_self this hdt
            rw [this]
          · have hb1' : w2.read tmp2.dynamic_buffer_ = some b1 := by
              rw [hp, r2, hr1 _ hq, hb1]
            have hne : other.dynamic_buffer_ ≠ tmp2.dynamic_buffer_ := by
              rw [hp]
              exact fun h => hq h.symm
            rw [clear_dynamic_read w2 tmp2 _ hb1', if_neg hne, r2, e1,
              refOf_ne this _ (fun h => hq h.symm)]
            rfl
      · unfold dtor
        rw [reset_copies, hc2, hc1]
        unfold swap_copies
        simp [htd]
  · rw [hthr] at hk
    cases hk

theorem TookOver.self (a : socow_vector α) : TookOver a a :=
  ⟨Eq.refl _, Eq.refl _, fun _ => Eq.refl _, fun _ _ _ => Eq.refl _⟩


/-! ## swap, seen through the containers -/

/-- Containers that have taken over each other show each other's size, mode, capacity
and elements, in a world with the same heap. -/
theorem swap_exchange (K : Nat) (w' w0 : World α) (a b a' b' : socow_vector α)
    (ha : Valid w0 a) (hb : Valid w0 b) (h0 : w0.heap = w'.heap)
    (h1 : TookOver b a') (h2 : TookOver a b') :
    (size a' = size b ∧ a'.dynamic_ = b.dynamic_ ∧ capacity K w' a' = capacity K w0 b ∧
      elems w' a' = elems w0 b) ∧
    (size b' = size a ∧ b'.dynamic_ = a.dynamic_ ∧ capacity K w' b' = capacity K w0 a ∧
      elems w' b' = elems w0 a) := by
  have hr : ∀ q, w'.read q = w0.read q := read_of_heap_eq h0.symm
  constructor
  · apply h1.cdata w0 w'
    intro hd
    obtain ⟨b0, e⟩ := hb hd
    exact ⟨b0, b0, e, by rw [hr, e], rfl, rfl⟩
  · apply h2.cdata w0 w'
    intro hd
    obtain ⟨b0, e⟩ := ha hd
    exact ⟨b0, b0, e, by rw [hr, e], rfl, rfl⟩

/-! ## A throwing swap of two Inline containers -/

theorem unwound_lt (dst : Slots α) (start k j : Nat) (h : j < start) :
    unwound dst start k j = dst j := by
  unfold unwound
  rw [if_neg]
  omega

/-- What an Inline/Inline `swap` leaves behind when a copy of a surplus element throws:
sizes and modes as before, the common prefix exchanged, the surplus elements of the
longer container in place, and no partly built copy left: a slot from the smaller size
on that held no object holds none. -/
theorem swap_inline_error (thr : Nat → Bool) (w w' : World α) (a b a' b' : socow_vector α)
    (ha : a.dynamic_ = false) (hb : b.dynamic_ = false)
    (he : swap thr (w, a, b) = .error (w', a', b')) :
    a'.size_ = a.size_ ∧ b'.size_ = b.size_ ∧ a'.dynamic_ = false ∧ b'.dynamic_ = false ∧
    a.size_ ≠ b.size_ ∧
    (∀ j, j < min a.size_ b.size_ →
      a'.static_data j = b.static_data j ∧ b'.static_data j = a.static_data j) ∧
    (∀ j, min a.size_ b.size_ ≤ j → j < a.size_ → a'.static_data j = a.static_data j) ∧
    (∀ j, min a.size_ b.size_ ≤ j → j < b.size_ → b'.static_data j = b.static_data j) ∧
    (∀ j, min a.size_ b.size_ ≤ j → a.static_data j = none → a'.static_data j = none) ∧
    (∀ j, min a.size_ b.size_ ≤ j → b.static_data j = none → b'.static_data j = none) ∧
    ∃ k, thr (w.copies + k) = true ∧ (∀ m, m < k → thr (w.copies + m) = false) ∧
      (a.size_ < b.size_ → k < b.size_ - a.size_ ∧ ∀ j, a.size_ ≤ j →
        a'.static_data j = if j < a.size_ + k then none else a.static_data j) ∧
      (b.size_ < a.size_ → k < a.size_ - b.size_ ∧ ∀ j, b.size_ ≤ j →
        b'.static_data j = if j < b.size_ + k then none else b.static_data j) := by
  unfold swap swap_storage at he
  simp only [ha, hb, Bool.and_self, Bool.false_and, Bool.and_false, Bool.not_false,
    Bool.false_eq_true, if_false, swap_loop_eq] at he
  by_cases hlt : a.size_ < b.size_
  · simp only [hlt, if_true] at he
    have hm : min a.size_ b.size_ = a.size_ := by omega
    rcases copy_range_spec thr (filled a.static_data b.static_data 0 (min a.size_ b.size_))
        (filled b.static_data a.static_data 0 (min a.size_ b.size_)) a.size_
        (b.size_ - a.size_) w.copies with ⟨h1, _⟩ | ⟨k, hk, hk1, hk2, h1⟩
    · rw [h1] at he
      cases he
    · rw [h1] at he
      simp only [Except.error.injEq, Prod.mk.injEq] at he
      obtain ⟨_, e1, e2⟩ := he
      subst e1 e2
      refine ⟨rfl, rfl, rfl, rfl, by omega, ?_, ?_, ?_, ?_, ?_,
        k, hk1, hk2, fun _ => ⟨hk, fun j hj => ?_⟩, fun h => absurd h (by omega)⟩
      rotate_right
      · show unwound _ _ _ j = _
        unfold unwound
        by_cases hjk : j < a.size_ + k
        · rw [if_pos ⟨hj, hjk⟩, if_pos hjk]
        · rw [if_neg (fun h => hjk h.2), if_neg hjk, filled_ge _ _ _ _ _ (by omega)]
      · intro j hj
        constructor
        · show unwound _ _ _ j = _
          rw [unwound_lt _ _ _ _ (by omega), hm, filled_lt _ _ _ _ (by omega)]
        · show filled _ _ _ _ j = _
          rw [hm, filled_lt _ _ _ _ (by omega)]
      · intro j h1 h2
        omega
      · intro j h1 _
        show filled _ _ _ _ j = _
        rw [filled_ge _ _ _ _ _ (by omega)]
      · intro j h1 h0
        show unwound _ _ _ j = none
        unfold unwound
        split
        · rfl
        · rw [filled_ge _ _ _ _ _ (by omega)]
          exact h0
      · intro j h1 h0
        show filled _ _ _ _ j = none
        rw [filled_ge _ _ _ _ _ (by omega)]
        exact h0
  · simp only [hlt, if_false] at he
    have hm : min a.size_ b.size_ = b.size_ := by omega
    rcases copy_range_spec thr (filled b.static_data a.static_data 0 (min a.size_ b.size_))
        (filled a.static_data b.static_data 0 (min a.size_ b.size_)) b.size_
        (a.size_ - b.size_) w.copies with ⟨h1, _⟩ | ⟨k, hk, hk1, hk2, h1⟩
    · rw [h1] at he
      cases he
    · rw [h1] at he
      simp only [Except.error.injEq, Prod.mk.injEq] at he
      obtain ⟨_, e1, e2⟩ := he
      subst e1 e2
      refine ⟨rfl, rfl, rfl, rfl, by omega, ?_, ?_, ?_, ?_, ?_,
        k, hk1, hk2, fun h => absurd h hlt, fun _ => ⟨hk, fun j hj => ?_⟩⟩
      rotate_right
      · show unwound _ _ _ j = _
        unfold unwound
        by_cases hjk : j < b.size_ + k
        · rw [if_pos ⟨hj, hjk⟩, if_pos hjk]
        · rw [if_neg (fun h => hjk h.2), if_neg hjk, filled_ge _ _ _ _ _ (by omega)]
      · intro j hj
        constructor
        · show filled _ _ _ _ j = _
          rw [hm, filled_lt _ _ _ _ (by omega)]
        · show unwound _ _ _ j = _
          rw [unwound_lt _ _ _ _ (by omega), hm, filled_lt _ _ _ _ (by omega)]
      · intro j h1 _
        show filled _ _ _ _ j = _
        rw [filled_ge _ _ _ _ _ (by omega)]
      · intro j h1 h2
        omega
      · intro j h1 h0
        show filled _ _ _ _ j = none
        rw [filled_ge _ _ _ _ _ (by omega)]
        exact h0
      · intro j h1 h0
        show unwound _ _ _ j = none
        unfold unwound
        split
        · rfl
        · rw [filled_ge _ _ _ _ _ (by omega)]
          exact h0
/-! ## Capacities of the blocks -/

theorem CapOK.roomy {K : Nat} {w : World α} {v : socow_vector α} (h : CapOK K w)
    (hv : Valid w v) : Roomy K w v := by
  intro hd
  obtain ⟨b, hb⟩ := hv hd
  have := h _ b hb
  simpa [capacity, hd, World.buf, hb] using this

theorem Roomy.block {K : Nat} {w : World α} {v : socow_vector α} (h : Roomy K w v)
    (hd : v.dynamic_ = true) (b : dynamic_buffer α) (hb : w.read v.dynamic_buffer_ = some b) :
    K = 0 ∨ K < b.capacity_ := by
  have := h hd
  simpa [capacity, hd, World.buf, hb] using this

theorem CapOK.of_heap_eq {K : Nat} {w w' : World α} (h : CapOK K w)
    (e : w'.heap = w.heap) : CapOK K w' := by
  intro q b hb
  rw [read_of_heap_eq e] at hb
  exact h q b hb

theorem CapOK.modify {K : Nat} {w : World α} (h : CapOK K w) (p : Nat)
    (f : dynamic_buffer α → dynamic_buffer α) (hf : ∀ b, (f b).capacity_ = b.capacity_) :
    CapOK K (w.modify p f) := by
  intro q b hb
  rw [World.read_modify] at hb
  split at hb
  · cases hr : w.read p with
    | none => rw [hr] at hb; cases hb
    | some b0 =>
      rw [hr] at hb
      simp only [Option.map_some', Option.some.injEq] at hb
      rw [← hb, hf]
      exact h p b0 hr
  · exact h q b hb

theorem CapOK.free_block {K : Nat} {w : World α} (h : CapOK K w) (p : Nat) :
    CapOK K (w.free p) := by
  intro q b hb
  rw [World.read_free] at hb
  split at hb
  · cases hb
  · exact h q b hb

theorem CapOK.allocate {K : Nat} {w : World α} (h : CapOK K w) (n : Nat)
    (hn : K = 0 ∨ K < n) : CapOK K (allocate_buffer w n).2 := by
  intro q b hb
  rw [World.read_allocate] at hb
  split at hb
  · cases hb
    exact hn
  · exact h q b hb

theorem clear_dynamic_capOK {K : Nat} {w : World α} (h : CapOK K w) (v : socow_vector α) :
    CapOK K (clear_dynamic w v) := by
  unfold clear_dynamic
  split
  · apply CapOK.modify h
    intro b
    rfl
  · apply CapOK.free_block
    apply CapOK.modify h
    intro b
    rfl

theorem reset_capOK {K : Nat} {w : World α} (h : CapOK K w) (v : socow_vector α) :
    CapOK K (reset (w, v)).1 := by
  unfold reset
  split
  · exact clear_dynamic_capOK h v
  · exact h

theorem copy_ctor_capOK {K : Nat} (thr : Nat → Bool) {w : World α} (h : CapOK K w)
    (v : socow_vector α) :
    match copy_ctor thr w v with
    | .ok s => CapOK K s.1
    | .error w' => CapOK K w' := by
  unfold copy_ctor
  cases hd : v.dynamic_ with
  | true =>
    simp only [if_true]
    apply CapOK.modify h
    intro b
    rfl
  | false =>
    simp only [Bool.false_eq_true, if_false]
    rcases copy_from_begin_spec thr v.static_data raw v.size_ w.copies with
      ⟨h1, _⟩ | ⟨k, _, _, _, h1⟩
    · rw [h1]
      exact h
    · rw [h1]
      exact h

theorem swap_capOK {K : Nat} (thr : Nat → Bool) {w : World α} (h : CapOK K w)
    (a b : socow_vector α) : CapOK K (final (swap thr (w, a, b))).1 := by
  rcases swap_spec thr w a b with ⟨w', a', b', e, hh, _⟩ | ⟨w', a', b', _, e, hh, _⟩
  · rw [e]
    exact h.of_heap_eq hh
  · rw [e]
    exact h.of_heap_eq hh

theorem assign_capOK {K : Nat} (thr : Nat → Bool) {w : World α} (h : CapOK K w)
    (this other : socow_vector α) : CapOK K (final (assign thr w this other)).1 := by
  unfold assign
  have h1 := copy_ctor_capOK thr h other
  cases hc : copy_ctor thr w other with
  | error w1 =>
    rw [hc] at h1
    exact h1
  | ok s =>
    obtain ⟨w1, tmp⟩ := s
    rw [hc] at h1
    have h2 := swap_capOK thr h1 tmp this
    simp only
    cases hs : swap thr (w1, tmp, this) with
    | error s =>
      obtain ⟨w2, tmp2, this2⟩ := s
      rw [hs] at h2
      exact reset_capOK h2 tmp2
    | ok s =>
      obtain ⟨w2, tmp2, this2⟩ := s
      rw [hs] at h2
      exact reset_capOK h2 tmp2
/-- An operation on one container keeps the blocks large, provided the block the
container ends up on is large. -/
theorem Eff.capOK_step {K : Nat} {w w' : World α} {v v' : socow_vector α} (h : Eff w v w' v')
    (hv : Valid w v) (hc : CapOK K w) (hr : Roomy K w' v') : CapOK K w' := by
  intro q b' hb'
  have own : refOf v' q = 1 → K = 0 ∨ K < b'.capacity_ := by
    intro h1
    obtain ⟨hd, hp⟩ := refOf_eq_one h1
    subst hp
    exact hr.block hd b' hb'
  by_cases hq : refOf v q = 0
  · rcases h.other q hq with e | ⟨_, e1, _⟩
    · rw [e] at hb'
      exact hc q b' hb'
    · exact own e1
  · have h1 : refOf v q = 1 := by
      have := refOf_le v q
      omega
    obtain ⟨hd, hp⟩ := refOf_eq_one h1
    obtain ⟨b, hb⟩ := hv hd
    rw [hp] at hb
    by_cases h2 : 2 ≤ b.ref_count
    · obtain ⟨b2, e, ec, _⟩ := h.shared q b hb h1 h2
      rw [e] at hb'
      cases hb'
      rw [ec]
      exact hc q b hb
    · have hcnt := h.count q
      rw [rc_of_read hb', rc_of_read hb, h1] at hcnt
      have h3 := h.heapOK q b' hb'
      have h4 := refOf_le v' q
      exact own (by omega)

theorem ModeKept.roomy_kept {K : Nat} {w w' : World α} {v v' : socow_vector α}
    (h : ModeKept K w v w' v') (hr : Roomy K w v) : Roomy K w' v' := by
  intro hd
  rcases h with ⟨h1, h2⟩ | ⟨_, h2, _⟩
  · rw [h2]
    exact hr (h1 ▸ hd)
  · rw [h2] at hd
    cases hd

theorem push_back_roomy (K : Nat) (thr : Nat → Bool) (x : α) (w : World α)
    (v : socow_vector α) (hh : HeapOK w) (hv : Valid w v) (hr : Roomy K w v) :
    Roomy K (final (push_back K thr x (w, v))).1 (final (push_back K thr x (w, v))).2 := by
  rcases push_back_spec K thr x w v hh hv with ⟨w', v', e, hf, _⟩ | ⟨w', v', e, hok⟩
  · rw [e]
    exact hf.2.2.2.2.roomy_kept hr
  · rw [e]
    obtain ⟨_, _, _, _, _, _, hm⟩ := hok
    split at hm
    · rename_i hs
      intro _
      show K = 0 ∨ K < capacity K w' v'
      rw [hm.2]
      by_cases hd : v.dynamic_ = true
      · have := hr hd
        omega
      · have : capacity K w v = K := by simp [capacity, hd]
        omega
    · exact hm.roomy_kept hr

/-- The world and mode `insert` returns with are those of its `push_back`, up to the
elements of the array in use. -/
theorem insert_roomy (K : Nat) (thr : Nat → Bool) (ind : Nat) (x : α) (w : World α)
    (v : socow_vector α) (hh : HeapOK w) (hv : Valid w v) (hr : Roomy K w v) :
    Roomy K (final (no_iter (insert K thr ind x (w, v)))).1
      (final (no_iter (insert K thr ind x (w, v)))).2 := by
  have hp := push_back_roomy K thr x w v hh hv hr
  unfold insert
  rcases push_back_spec K thr x w v hh hv with ⟨w1, v1, e, _, _⟩ | ⟨w1, v1, e, hok⟩
  · rw [e] at hp ⊢
    exact hp
  · rw [e] at hp ⊢
    have hu : data K thr (w1, v1) = .ok (w1, v1) := unshare_noop K thr w1 v1 hok.2.2.2.1
    simp only [hu]
    intro hd
    show K = 0 ∨ K < capacity K (store (w1, v1) _).1 (store (w1, v1) _).2
    rw [capacity_store]
    apply hp
    have := (store_snd w1 v1
      (insert_loop (v1.size_ - 1 - ind) (v1.size_ - 1) (cdata w1 v1))).2.1
    show v1.dynamic_ = true
    rw [← this]
    exact hd
/-- What `change_capacity(n)` does: it throws and leaves everything as it was, or it
returns with the same size and elements, on a fresh block of capacity `n` when
`n > SMALL_SIZE`, on the inline storage otherwise. -/
theorem change_capacity_spec (K : Nat) (thr : Nat → Bool) (n : Nat) (w : World α)
    (v : socow_vector α) (hv : Valid w v) :
    (∃ w' v', change_capacity K thr n (w, v) = .error (w', v') ∧ Unchanged K w v w' v' ∧
      ∃ k, thr k = true) ∨
    (∃ w' v', change_capacity K thr n (w, v) = .ok (w', v') ∧ v'.size_ = v.size_ ∧
      (∀ j, j < v.size_ → cdata w' v' j = cdata w v j) ∧
      (K < n → v'.dynamic_ = true ∧ capacity K w' v' = n) ∧
      (n ≤ K → v'.dynamic_ = false)) := by
  cases hc : change_capacity K thr n (w, v) with
  | error s =>
    obtain ⟨w', v'⟩ := s
    left
    refine ⟨w', v', rfl, change_capacity_error K thr n w w' v v' hv hc, ?_⟩
    cases hd : v.dynamic_ with
    | false =>
      by_cases hn : K < n
      · rcases change_capacity_static_dynamic K thr n w v hn hd with
          ⟨w1, e, _⟩ | ⟨k, w1, _, hk, _⟩
        · rw [e] at hc; cases hc
        · exact ⟨_, hk⟩
      · rw [change_capacity_static_static K thr n w v (by omega) hd] at hc
        cases hc
    | true =>
      obtain ⟨b, hb⟩ := hv hd
      by_cases hn : K < n
      · rcases change_capacity_dynamic_dynamic K thr n w v hn hd b hb with
          ⟨w1, e, _⟩ | ⟨k, w1, _, hk, _⟩
        · rw [e] at hc; cases hc
        · exact ⟨_, hk⟩
      · rcases change_capacity_static_ok K thr n w v (by omega) hd with
          ⟨w1, e, _⟩ | ⟨k, _, hk, _⟩
        · rw [e] at hc; cases hc
        · exact ⟨_, hk⟩
  | ok s =>
    obtain ⟨w', v'⟩ := s
    right
    refine ⟨w', v', rfl, ?_⟩
    cases hd : v.dynamic_ with
    | false =>
      by_cases hn : K < n
      · rcases change_capacity_static_dynamic K thr n w v hn hd with
          ⟨w1, e, _, _, hr⟩ | ⟨k, w1, _, _, _, e, _⟩
        · rw [e] at hc
          cases hc
          have hrd : w'.read (w.heap.length + 1) =
              some ⟨1, n, filled v.static_data raw 0 v.size_⟩ := by simp [hr]
          refine ⟨rfl, ?_, fun _ => ⟨rfl, ?_⟩, fun h => by omega⟩
          · intro j hj
            simp [cdata, hd, World.buf, hrd, filled_lt _ _ _ _ hj]
          · simp [capacity, World.buf, hrd]
        · rw [e] at hc; cases hc
      · rw [change_capacity_static_static K thr n w v (by omega) hd] at hc
        cases hc
        exact ⟨rfl, fun _ _ => rfl, fun h => absurd h hn, fun _ => hd⟩
    | true =>
      obtain ⟨b, hb⟩ := hv hd
      have hcd : cdata w v = b.dynamic_data := by simp [cdata, hd, World.buf, hb]
      by_cases hn : K < n
      · rcases change_capacity_dynamic_dynamic K thr n w v hn hd b hb with
          ⟨w1, e, _, _, hr⟩ | ⟨k, w1, _, _, _, e, _⟩
        · rw [e] at hc
          cases hc
          have hrd : w'.read (w.heap.length + 1) =
              some ⟨1, n, filled b.dynamic_data raw 0 v.size_⟩ := by simp [hr]
          refine ⟨rfl, ?_, fun _ => ⟨rfl, ?_⟩, fun h => by omega⟩
          · intro j hj
            rw [hcd]
            simp [cdata, World.buf, hrd, filled_lt _ _ _ _ hj]
          · simp [capacity, World.buf, hrd]
        · rw [e] at hc; cases hc
      · rcases change_capacity_static_ok K thr n w v (by omega) hd with
          ⟨w1, e, _⟩ | ⟨k, _, _, _, e⟩
        · rw [e] at hc
          cases hc
          refine ⟨rfl, ?_, fun h => absurd h hn, fun _ => rfl⟩
          intro j hj
          rw [hcd]
          simp [cdata, World.buf, hb, filled_lt _ _ _ _ hj]
        · rw [e] at hc; cases hc

theorem change_capacity_roomy (K : Nat) (thr : Nat → Bool) (n : Nat) (w : World α)
    (v : socow_vector α) (hv : Valid w v) (hr : Roomy K w v) :
    Roomy K (final (change_capacity K thr n (w, v))).1
      (final (change_capacity K thr n (w, v))).2 := by
  rcases change_capacity_spec K thr n w v hv with
    ⟨w', v', e, hu, _⟩ | ⟨w', v', e, _, _, h1, h2⟩
  · rw [e]
    exact hu.modeKept.roomy_kept hr
  · rw [e]
    intro hd
    change v'.dynamic_ = true at hd
    by_cases hn : K < n
    · right
      show K < capacity K w' v'
      rw [(h1 hn).2]
      exact hn
    · have := h2 (by omega)
      rw [this] at hd
      cases hd

theorem unshare_roomy (K : Nat) (thr : Nat → Bool) (w : World α)
    (v : socow_vector α) (hv : Valid w v) (hr : Roomy K w v) :
    Roomy K (final (unshare K thr (w, v))).1 (final (unshare K thr (w, v))).2 := by
  unfold unshare
  split
  · split
    · exact change_capacity_roomy K thr _ w v hv hr
    · exact change_capacity_roomy K thr _ w v hv hr
  · exact hr

theorem reserve_roomy (K : Nat) (thr : Nat → Bool) (n : Nat) (w : World α)
    (v : socow_vector α) (hv : Valid w v) (hr : Roomy K w v) :
    Roomy K (final (reserve K thr n (w, v))).1 (final (reserve K thr n (w, v))).2 := by
  unfold reserve
  split
  · exact change_capacity_roomy K thr n w v hv hr
  · exact unshare_roomy K thr w v hv hr

theorem shrink_to_fit_roomy (K : Nat) (thr : Nat → Bool) (w : World α)
    (v : socow_vector α) (hv : Valid w v) (hr : Roomy K w v) :
    Roomy K (final (shrink_to_fit K thr (w, v))).1
      (final (shrink_to_fit K thr (w, v))).2 := by
  unfold shrink_to_fit
  split
  · exact change_capacity_roomy K thr _ w v hv hr
  · exact hr

theorem mutation_roomy (K : Nat) (thr : Nat → Bool) (m : Mutation α) (w : World α)
    (v : socow_vector α) (hh : HeapOK w) (hv : Valid w v) (hr : Roomy K w v)
    (hp : m.pre v = true) :
    Roomy K (final (m.run K thr (w, v))).1 (final (m.run K thr (w, v))).2 := by
  cases m with
  | push_back x => exact push_back_roomy K thr x w v hh hv hr
  | pop_back =>
    show Roomy K (final (pop_back K thr (w, v))).1 (final (pop_back K thr (w, v))).2
    rcases pop_back_spec K thr w v hh hv with ⟨w', v', e, hf, _⟩ | ⟨w', v', e, hok, _⟩
    · rw [e]
      exact hf.modeKept.roomy_kept hr
    · rw [e]
      exact hok.2.2.2.roomy_kept hr
  | insert pos x => exact insert_roomy K thr pos x w v hh hv hr
  | erase first last =>
    have hi : first ≤ last ∧ last ≤ v.size_ := by simpa [Mutation.pre] using hp
    show Roomy K (final (no_iter (erase K thr first last (w, v)))).1
      (final (no_iter (erase K thr first last (w, v)))).2
    rcases erase_spec K thr first last w v hh hv hi.1 hi.2 with
      ⟨w', v', e, hf, _⟩ | ⟨w', v', e, _, _, _, hok, _⟩
    · rw [e]
      exact hf.modeKept.roomy_kept hr
    · rw [e]
      exact hok.roomy_kept hr
  | clear =>
    show Roomy K (final (clear K thr (w, v))).1 (final (clear K thr (w, v))).2
    rcases clear_spec K thr w v hh hv with ⟨w', v', e, hf, _⟩ | ⟨w', v', e, hok, _⟩
    · rw [e]
      exact hf.modeKept.roomy_kept hr
    · rw [e]
      exact hok.2.2.2.roomy_kept hr
  | index_assign k x =>
    show Roomy K (final (index_assign K thr k x (w, v))).1
      (final (index_assign K thr k x (w, v))).2
    rcases index_assign_spec K thr k x w v hh hv with
      ⟨w', v', e, hf, _⟩ | ⟨w', v', e, hok, _⟩
    · rw [e]
      exact hf.modeKept.roomy_kept hr
    · rw [e]
      exact hok.2.2.2.roomy_kept hr
theorem on_vec_capOK {K : Nat} {s s' : Sys α} (h : RefInv s) (hc : CapOK K s.w) (i : Nat)
    (f : St α → Except (St α) (St α))
    (hf : ∀ v, s.vecs[i]? = some v →
      Eff s.w v (final (f (s.w, v))).1 (final (f (s.w, v))).2 ∧
      Roomy K (final (f (s.w, v))).1 (final (f (s.w, v))).2)
    (he : on_vec s i f = some s') : CapOK K s'.w := by
  unfold on_vec at he
  cases hv : s.vecs[i]? with
  | none => rw [hv] at he; cases he
  | some v =>
    rw [hv] at he
    simp only [Option.some.injEq] at he
    subst he
    exact (hf v hv).1.capOK_step (h.valid_inv hv) hc (hf v hv).2

/-- Every step of a program keeps the blocks of the heap larger than the inline
array. -/
theorem exec_capOK (K : Nat) (thr : Nat → Bool) (op : Op α) (s s' : Sys α) (h : RefInv s)
    (hc : CapOK K s.w) (he : exec K thr op s = some s') : CapOK K s'.w := by
  cases op with
  | construct =>
    simp only [exec, Option.some.injEq] at he
    subst he
    exact hc
  | copy i =>
    simp only [exec] at he
    cases hv : s.vecs[i]? with
    | none => rw [hv] at he; cases he
    | some v =>
      rw [hv] at he
      simp only at he
      have h1 := copy_ctor_capOK thr hc v
      cases hcc : copy_ctor thr s.w v with
      | ok r =>
        obtain ⟨w1, b⟩ := r
        rw [hcc] at he h1
        simp only [Option.some.injEq] at he
        subst he
        exact h1
      | error w1 =>
        rw [hcc] at he h1
        simp only [Option.some.injEq] at he
        subst he
        exact h1
  | destroy i =>
    simp only [exec] at he
    cases hv : s.vecs[i]? with
    | none => rw [hv] at he; cases he
    | some v =>
      rw [hv] at he
      simp only [Option.some.injEq] at he
      subst he
      exact reset_capOK hc v
  | assign i j =>
    simp only [exec] at he
    cases ha : s.vecs[i]? with
    | none => rw [ha] at he; cases he
    | some a =>
      cases hb : s.vecs[j]? with
      | none => rw [ha, hb] at he; cases he
      | some b =>
        rw [ha, hb] at he
        simp only at he
        by_cases hij : i = j
        · rw [if_pos hij] at he
          cases he
          exact hc
        · rw [if_neg hij] at he
          simp only [Option.some.injEq] at he
          subst he
          exact assign_capOK thr hc a b
  | swap i j =>
    simp only [exec] at he
    cases ha : s.vecs[i]? with
    | none => rw [ha] at he; cases he
    | some a =>
      cases hb : s.vecs[j]? with
      | none => rw [ha, hb] at he; cases he
      | some b =>
        rw [ha, hb] at he
        simp only at he
        by_cases hij : i = j
        · rw [if_pos hij] at he
          cases he
          exact hc
        · rw [if_neg hij] at he
          simp only [Option.some.injEq] at he
          subst he
          exact swap_capOK thr hc a b
  | mutate i m =>
    simp only [exec] at he
    cases hv : s.vecs[i]? with
    | none => rw [hv] at he; cases he
    | some v =>
      rw [hv] at he
      simp only at he
      by_cases hp : m.pre v = true
      · rw [if_pos hp] at he
        refine on_vec_capOK h hc i _ (fun v' hv' => ?_) he
        rw [hv] at hv'
        cases hv'
        exact ⟨mutation_eff K thr m s.w v h.1 (h.valid_inv hv) hp,
          mutation_roomy K thr m s.w v h.1 (h.valid_inv hv) (hc.roomy (h.valid_inv hv)) hp⟩
      · rw [if_neg hp] at he
        cases he
  | reserve i n =>
    exact on_vec_capOK h hc i _ (fun v hv => ⟨reserve_eff K thr n s.w v h.1 (h.valid_inv hv),
      reserve_roomy K thr n s.w v (h.valid_inv hv) (hc.roomy (h.valid_inv hv))⟩) he
  | shrink_to_fit i =>
    exact on_vec_capOK h hc i _ (fun v hv =>
      ⟨shrink_to_fit_eff K thr s.w v h.1 (h.valid_inv hv),
        shrink_to_fit_roomy K thr s.w v (h.valid_inv hv) (hc.roomy (h.valid_inv hv))⟩) he
  | data i =>
    exact on_vec_capOK h hc i _ (fun v hv => ⟨unshare_eff K thr s.w v h.1 (h.valid_inv hv),
      unshare_roomy K thr s.w v (h.valid_inv hv) (hc.roomy (h.valid_inv hv))⟩) he

/-- In every reachable program state the blocks of the heap are larger than the inline
array. -/
theorem Reachable.capOK {K : Nat} {thr : Nat → Bool} {s : Sys α} (h : Reachable K thr s) :
    CapOK K s.w := by
  induction h with
  | init =>
    intro q b hb
    simp [World.read] at hb
  | step op hr he ih => exact exec_capOK K thr op _ _ hr.inv ih he
/-- A target above the capacity of a container is above `SMALL_SIZE`. -/
theorem Roomy.lt_of_cap {K : Nat} {w : World α} {v : socow_vector α} (hr : Roomy K w v)
    {n : Nat} (hn : capacity K w v < n) : K < n := by
  cases hd : v.dynamic_ with
  | false =>
    have : capacity K w v = K := by simp [capacity, hd]
    omega
  | true =>
    have := hr hd
    omega

theorem change_capacity_ok (K : Nat) (thr : Nat → Bool) (n : Nat) (w : World α)
    (v : socow_vector α) (hv : Valid w v) (hthr : ∀ k, thr k = false) :
    ∃ w' v', change_capacity K thr n (w, v) = .ok (w', v') ∧ v'.size_ = v.size_ ∧
      (∀ j, j < v.size_ → cdata w' v' j = cdata w v j) ∧
      (K < n → v'.dynamic_ = true ∧ capacity K w' v' = n) ∧
      (n ≤ K → v'.dynamic_ = false) := by
  rcases change_capacity_spec K thr n w v hv with ⟨_, _, _, _, k, hk⟩ | h
  · rw [hthr] at hk
    cases hk
  · exact h

/-- `reserve(n)` with `n` above the capacity, when no element copy throws. -/
theorem reserve_grow (K : Nat) (thr : Nat → Bool) (n : Nat) (w : World α)
    (v : socow_vector α) (hv : Valid w v) (hr : Roomy K w v) (hn : capacity K w v < n)
    (hthr : ∀ k, thr k = false) :
    ∃ w' v', reserve K thr n (w, v) = .ok (w', v') ∧ capacity K w' v' = n ∧
      v'.dynamic_ = true ∧ size v' = size v ∧ elems w' v' = elems w v := by
  obtain ⟨w', v', e, hs, hc, h1, _⟩ := change_capacity_ok K thr n w v hv hthr
  refine ⟨w', v', ?_, (h1 (hr.lt_of_cap hn)).2, (h1 (hr.lt_of_cap hn)).1, hs,
    (elems_eq_iff w w' v v' hs).mpr hc⟩
  unfold reserve
  rw [if_pos hn]
  exact e
/-- What `reserve(n)` does when `n` is within the capacity: the detach. -/
theorem reserve_within (K : Nat) (thr : Nat → Bool) (n : Nat) (w : World α)
    (v : socow_vector α) (hn : n ≤ capacity K w v) :
    reserve K thr n (w, v) = unshare K thr (w, v) := by
  unfold reserve
  rw [if_neg]
  simp only [not_lt]
  exact hn

/-- `reserve(n)`, when no element copy throws: it returns with the same size and
elements, on storage that is again well-formed. -/
theorem reserve_ok (K : Nat) (thr : Nat → Bool) (n : Nat) (w : World α)
    (v : socow_vector α) (hh : HeapOK w) (hv : Valid w v) (hr : Roomy K w v)
    (hthr : ∀ k, thr k = false) :
    ∃ w' v', reserve K thr n (w, v) = .ok (w', v') ∧ size v' = size v ∧
      elems w' v' = elems w v ∧ Valid w' v' ∧ Roomy K w' v' := by
  have he := reserve_eff K thr n w v hh hv
  have hro := reserve_roomy K thr n w v hv hr
  by_cases hn : capacity K w v < n
  · obtain ⟨w', v', e, _, _, hs, hel⟩ := reserve_grow K thr n w v hv hr hn hthr
    rw [e] at he hro
    exact ⟨w', v', e, hs, hel, he.valid, hro⟩
  · have e := reserve_within K thr n w v (by omega)
    obtain ⟨w', v', e'⟩ := unshare_ok K thr w v hv hthr
    obtain ⟨hs, hc, _, hv'⟩ := unshare_ok_spec K thr w w' v v' hv e'
    rw [e, e'] at hro
    exact ⟨w', v', by rw [e, e'], hs, (elems_eq_iff w w' v v' hs).mpr hc, hv', hro⟩

/-- `shrink_to_fit()`, when no element copy throws: it returns with the same size and
elements, and the capacity is the size, or `SMALL_SIZE` when the size is below that. -/
theorem shrink_to_fit_ok (K : Nat) (thr : Nat → Bool) (w : World α)
    (v : socow_vector α) (hv : Valid w v) (hr : Roomy K w v)
    (hthr : ∀ k, thr k = false) :
    ∃ w' v', shrink_to_fit K thr (w, v) = .ok (w', v') ∧ size v' = size v ∧
      elems w' v' = elems w v ∧ capacity K w' v' = max (size v) K := by
  unfold shrink_to_fit
  by_cases hs : v.size_ = capacity K w v
  · simp only [hs, ne_eq, not_true_eq_false, if_false]
    refine ⟨w, v, rfl, rfl, rfl, ?_⟩
    unfold size
    cases hd : v.dynamic_ with
    | false =>
      have : capacity K w v = K := by simp [capacity, hd]
      omega
    | true =>
      have := hr hd
      omega
  · simp only [ne_eq, hs, not_false_eq_true, if_true]
    obtain ⟨w', v', e, hs', hc, h1, h2⟩ := change_capacity_ok K thr v.size_ w v hv hthr
    refine ⟨w', v', e, hs', (elems_eq_iff w w' v v' hs').mpr hc, ?_⟩
    unfold size
    by_cases hk : K < v.size_
    · rw [(h1 hk).2]
      omega
    · have : capacity K w' v' = K := by simp [capacity, h2 (by omega)]
      omega

/-! ## Filling a container by `push_back` -/

theorem push_back_inline_spare (K : Nat) (x : Nat) (w : World Nat) (v : socow_vector Nat)
    (hd : v.dynamic_ = false) (hs : v.size_ ≠ K) :
    push_back K noThrow x (w, v) =
      .ok ({ w with copies := w.copies + 1 },
        { v with static_data := construct_at v.static_data v.size_ (some x),
                 size_ := v.size_ + 1 }) := by
  unfold push_back data unshare
  simp [size, capacity, store, cdata, hd, hs, noThrow]

/-- One more `push_back` keeps the small-object rule, for `SMALL_SIZE ≥ 1`. -/
theorem SsoOK.after_push {K : Nat} (hK : 1 ≤ K) {s : St Nat} (h : SsoOK K s) (x : Nat) :
    SsoOK K (final (push_back K noThrow x s)) ∧
    (final (push_back K noThrow x s)).2.size_ = s.2.size_ + 1 := by
  obtain ⟨w, v⟩ := s
  obtain ⟨hh, hv, hx, h4, h5⟩ := h
  simp only at hh hv hx h4 h5
  by_cases hlt : v.size_ < K
  · obtain ⟨hd, hheap⟩ := h4 (by omega)
    rw [push_back_inline_spare K x w v hd (by omega)]
    refine ⟨⟨?_, ?_, ?_, ?_, ?_⟩, rfl⟩
    · intro q b hb
      exact hh q b hb
    · intro hd'
      rw [hd] at hd'
      cases hd'
    · intro hd'
      rw [hd] at hd'
      cases hd'
    · intro _
      exact ⟨hd, hheap⟩
    · intro hk
      simp only [final] at hk
      omega
  · obtain ⟨w', v', e, hs, _, _, hx', hv', hm, hcap⟩ :=
      push_back_ok K noThrow x w v hh hv (fun _ => rfl)
    rw [e]
    refine ⟨⟨hm.heapOK, hv', hx', ?_, ?_⟩, hs⟩
    · intro hk
      simp only [final] at hk
      omega
    · intro _
      show v'.dynamic_ = true ∧ v'.size_ ≤ capacity K w' v'
      by_cases he : v.size_ = capacity K w v
      · rw [if_pos he] at hcap
        refine ⟨hcap.1, ?_⟩
        rw [hcap.2, hs]
        omega
      · rw [if_neg he] at hcap
        obtain ⟨hd', hc'⟩ := hcap.of_excl hx
        by_cases hk : v.size_ = K
        · exfalso
          obtain ⟨hd, _⟩ := h4 (by omega)
          apply he
          simp [capacity, hd, hk]
        · obtain ⟨hd, hle⟩ := h5 (by omega)
          refine ⟨by rw [hd', hd], ?_⟩
          rw [hc', hs]
          omega

theorem SsoOK.after_all {K : Nat} (hK : 1 ≤ K) (xs : List Nat) (s : St Nat)
    (h : SsoOK K s) :
    SsoOK K (push_all K xs s) ∧ (push_all K xs s).2.size_ = s.2.size_ + xs.length := by
  induction xs generalizing s with
  | nil => exact ⟨h, rfl⟩
  | cons x xs ih =>
    obtain ⟨h1, h2⟩ := h.after_push hK x
    obtain ⟨h3, h4⟩ := ih _ h1
    refine ⟨h3, ?_⟩
    show (push_all K xs (final (push_back K noThrow x s))).2.size_ = _
    rw [h4, h2, List.length_cons]
    omega

/-- The small-object threshold, for `SMALL_SIZE ≥ 1`: after `n` calls of `push_back` on
a default-constructed container, the container has `n` elements; if `n ≤ SMALL_SIZE` it
is Inline with capacity `SMALL_SIZE` and nothing has been allocated; if
`n > SMALL_SIZE` it is Shared with a capacity of at least `n`. -/
theorem push_all_threshold (K : Nat) (hK : 1 ≤ K) (xs : List Nat) :
    size (push_all K xs (emptyWorld, default_ctor)).2 = xs.length ∧
    (xs.length ≤ K → (push_all K xs (emptyWorld, default_ctor)).2.dynamic_ = false ∧
      capacity K (push_all K xs (emptyWorld, default_ctor)).1
        (push_all K xs (emptyWorld, default_ctor)).2 = K ∧
      (push_all K xs (emptyWorld, default_ctor)).1.heap = []) ∧
    (K < xs.length → (push_all K xs (emptyWorld, default_ctor)).2.dynamic_ = true ∧
      xs.length ≤ capacity K (push_all K xs (emptyWorld, default_ctor)).1
        (push_all K xs (emptyWorld, default_ctor)).2) := by
  have h0 : SsoOK K ((emptyWorld, default_ctor) : St Nat) := by
    refine ⟨HeapOK_empty, ?_, ?_, fun _ => ⟨rfl, rfl⟩, ?_⟩
    · intro h
      cases h
    · intro h
      cases h
    · intro h
      simp [default_ctor] at h
  obtain ⟨⟨_, _, _, h4, h5⟩, hs⟩ := h0.after_all hK xs
  have hs' : (push_all K xs (emptyWorld, default_ctor)).2.size_ = xs.length := by
    rw [hs]
    simp [default_ctor]
  rw [hs'] at h4 h5
  refine ⟨hs', ?_, h5⟩
  intro hle
  obtain ⟨hd, hheap⟩ := h4 hle
  exact ⟨hd, by simp [capacity, hd], hheap⟩

/-- A `push_back` that returns at `size() == capacity()` doubles the capacity. -/
theorem push_back_doubles (K : Nat) (thr : Nat → Bool) (x : α) (w w' : World α)
    (v v' : socow_vector α) (hh : HeapOK w) (hv : Valid w v)
    (hs : size v = capacity K w v) (he : push_back K thr x (w, v) = .ok (w', v')) :
    v'.dynamic_ = true ∧ capacity K w' v' = capacity K w v * 2 := by
  rcases push_back_spec K thr x w v hh hv with ⟨_, _, e, _⟩ | ⟨w1, v1, e, hok⟩
  · rw [e] at he
    cases he
  · rw [e] at he
    cases he
    have := hok.2.2.2.2.2.2
    unfold size at hs
    rw [if_pos hs] at this
    exact this


/-! ## A failing allocator; postconditions within the capacity -/

/-- With the request served in full, `change_capacity` behaves as with an allocator that
always returns. -/
theorem change_capacity_alloc_eq (K : Nat) (thr : Nat → Bool) (A : Allocator) (n : Nat)
    (s : St α) (h : K < n → A.serves n) :
    change_capacity_alloc K thr A n s = change_capacity K thr n s := by
  unfold change_capacity_alloc change_capacity
  simp only
  split
  · rfl
  · split
    · rename_i h2
      obtain ⟨hlt, hg⟩ := h h2
      unfold try_allocate_buffer Allocator.bytes
      rw [Nat.mod_eq_of_lt hlt, hg]
      rfl
    · rfl

/-- When `operator new` refuses the request, `change_capacity` to a capacity above
`SMALL_SIZE` throws and nothing has changed. -/
theorem change_capacity_alloc_refused (K : Nat) (thr : Nat → Bool) (A : Allocator)
    (n : Nat) (s : St α) (hn : K < n) (h : A.grants (A.bytes n) = false) :
    change_capacity_alloc K thr A n s = .error s := by
  unfold change_capacity_alloc try_allocate_buffer
  have h1 : ¬ n ≤ K := by omega
  simp [h1, hn, h]

theorem unshare_alloc_eq (K : Nat) (thr : Nat → Bool) (A : Allocator) (s : St α)
    (h : A.serves (capacity K s.1 s.2)) :
    unshare_alloc K thr A s = unshare K thr s := by
  unfold unshare_alloc unshare
  split
  · rename_i h1
    have hd : s.2.dynamic_ = true := by
      cases hd : s.2.dynamic_ with
      | true => rfl
      | false => simp [hd] at h1
    have hc : capacity K s.1 s.2 = (s.1.buf s.2.dynamic_buffer_).capacity_ := by
      simp [capacity, hd]
    split
    · exact change_capacity_alloc_eq K thr A _ s (fun _ => hc ▸ h)
    · exact change_capacity_alloc_eq K thr A K s (fun hk => absurd hk (Nat.lt_irrefl K))
  · rfl

theorem reserve_alloc_eq (K : Nat) (thr : Nat → Bool) (A : Allocator) (n : Nat) (s : St α)
    (h1 : A.serves n) (h2 : A.serves (capacity K s.1 s.2)) :
    reserve_alloc K thr A n s = reserve K thr n s := by
  unfold reserve_alloc reserve
  split
  · exact change_capacity_alloc_eq K thr A n s (fun _ => h1)
  · exact unshare_alloc_eq K thr A s h2

theorem shrink_to_fit_alloc_eq (K : Nat) (thr : Nat → Bool) (A : Allocator) (s : St α)
    (h : A.serves s.2.size_) :
    shrink_to_fit_alloc K thr A s = shrink_to_fit K thr s := by
  unfold shrink_to_fit_alloc shrink_to_fit
  split
  · exact change_capacity_alloc_eq K thr A _ s (fun _ => h)
  · rfl

/-- `push_back` postcondition where the appended element lies within the capacity: on a
container with element sequence `xs`, when no element copy throws, `push_back(x)`
returns with `size()` one larger, and if that size is within `capacity()` the element
sequence is `xs` followed by `x` and every element stored before keeps its index and
value. -/
theorem push_back_post_bounded (K : Nat) (thr : Nat → Bool) (x : α) (w : World α)
    (v : socow_vector α) (xs : List α) (hh : HeapOK w) (hv : Valid w v)
    (hxs : elems w v = xs.map some) (hthr : ∀ k, thr k = false) :
    ∃ w' v', push_back K thr x (w, v) = .ok (w', v') ∧ size v' = size v + 1 ∧
      (size v' ≤ capacity K w' v' →
        elems w' v' = (xs ++ [x]).map some ∧
        ∀ j, j < size v → index_const w' v' j = index_const w v j) := by
  obtain ⟨w', v', e, hs, hc, hx, _⟩ := push_back_ok K thr x w v hh hv hthr
  refine ⟨w', v', e, hs, fun _ => ⟨?_, hc⟩⟩
  rw [elems_push w w' v v' x hs hc hx, hxs]
  simp

/-- `insert(pos, value)` postcondition where the elements lie within the capacity, with
`pos = begin + i` and `i ≤ size()`: on a container with element sequence `xs`, when no
element copy throws, `insert` returns an iterator at index `i` with `size()` one larger,
and if that size is within `capacity()` the element sequence is `xs[0..i)`, then the
value, then `xs[i..size)` in their order. -/
theorem insert_post_bounded (K : Nat) (thr : Nat → Bool) (w : World α)
    (v : socow_vector α) (xs : List α) (i : Nat) (x : α) (hh : HeapOK w) (hv : Valid w v)
    (hxs : elems w v = xs.map some) (hi : i ≤ size v) (hthr : ∀ k, thr k = false) :
    ∃ w' v', insert K thr i x (w, v) = .ok ((w', v'), i) ∧ size v' = size v + 1 ∧
      (size v' ≤ capacity K w' v' →
        elems w' v' = (xs.take i ++ x :: xs.drop i).map some) := by
  obtain ⟨hs, hc⟩ := cdata_of_elems w v xs hxs
  unfold size at hi
  rcases insert_spec K thr i x w v hh hv hi with
    ⟨_, _, _, _, k, hk⟩ | ⟨w', v', e, _, _, _, hs', hc1, hc2, hc3⟩
  · rw [hthr] at hk
    cases hk
  · refine ⟨w', v', e, hs', fun _ => ?_⟩
    apply elems_eq_of
    · rw [hs', hs]
      simp
      omega
    · intro k hk
      have hk' : k ≤ v.size_ := by
        simp at hk
        omega
      rw [getElem?_insert_list xs i x (by omega)]
      by_cases h1 : k < i
      · rw [if_pos h1, hc1 k h1, hc k (by omega)]
      · rw [if_neg h1]
        by_cases h2 : k = i
        · rw [if_pos h2, h2, hc2]
        · rw [if_neg h2, hc3 k (by omega) hk', hc _ (by omega)]

/-- When `operator new` refuses the request, `reserve(n)` with `n` above the capacity
and above `SMALL_SIZE` throws and nothing has changed. -/
theorem reserve_alloc_refused (K : Nat) (thr : Nat → Bool) (A : Allocator) (n : Nat)
    (s : St α) (hn : capacity K s.1 s.2 < n) (hk : K < n)
    (h : A.grants (A.bytes n) = false) :
    reserve_alloc K thr A n s = .error s := by
  unfold reserve_alloc
  rw [if_pos hn]
  exact change_capacity_alloc_refused K thr A n s hk h

/-! ## The claims -/

/-- C1, counterexample: `SMALL_SIZE = 4`, `a = [1,2,3,4,5,6]`, Shared and owned alone.
The reference `r = a[0]` is taken (no detach is needed, `r` points into the block of
`a`); then `b` is copy-constructed from `a` and shares that block.  The write `r = 99`, a
write through the `operator[]` of `a`, changes the first element observed through `b`
from 1 to 99. -/
theorem C1_value_independence_counterexample :
    index_ref 4 noThrow 0 scenario_a = .ok (scenario_a, (Place.block 1, 0)) ∧
    copy_ctor noThrow scenario_a.1 scenario_a.2 = .ok scenario_b ∧
    elems scenario_b.1 scenario_b.2 = [some 1, some 2, some 3, some 4, some 5, some 6] ∧
    elems (write_ref (Place.block 1, 0) 99 (scenario_b.1, scenario_a.2)).1 scenario_b.2 =
      [some 99, some 2, some 3, some 4, some 5, some 6] ∧
    ¬ (elems (write_ref (Place.block 1, 0) 99 (scenario_b.1, scenario_a.2)).1 scenario_b.2 =
      elems scenario_b.1 scenario_b.2) :=
  ⟨rfl, rfl, by decide, by decide, by decide⟩

/-- C1, amended. Value-semantics independence: in a reachable program state let `b` be a
copy of container `a`, made by copy construction or by copy assignment, with every
container within its capacity.  Then any one mutation applied to `b` within its
precondition (`push_back`, `pop_back`, `insert`, `erase`, `clear`, or an indexed write
`b[i] = x`, whose reference `operator[]` hands out at that moment, after the copy) that
leaves every container within its capacity leaves the size and every element observed
through `a` unchanged, and any such mutation applied to `a` leaves those observed
through `b` unchanged, whether the mutation returns or throws. -/
theorem C1_value_independence (K : Nat) (thr : Nat → Bool) (s s1 : Sys α) (ia ib : Nat)
    (hr : Reachable K thr s)
    (hcopy : (exec K thr (.copy ia) s = some s1 ∧ ib = s.vecs.length) ∨
      (exec K thr (.assign ib ia) s = some s1 ∧ ib ≠ ia))
    (_hb : Bounded K s1) :
    (∀ m s2, exec K thr (.mutate ib m) s1 = some s2 → Bounded K s2 →
      observe s2 ia = observe s1 ia) ∧
    (∀ m s2, exec K thr (.mutate ia m) s1 = some s2 → Bounded K s2 →
      observe s2 ib = observe s1 ib) := by
  have hne : ib ≠ ia := by
    rcases hcopy with ⟨he, hb⟩ | ⟨_, h⟩
    · simp only [exec] at he
      cases hv : s.vecs[ia]? with
      | none => rw [hv] at he; cases he
      | some v =>
        have := (List.getElem?_eq_some.mp hv).1
        omega
    · exact h
  have hr1 : Reachable K thr s1 := by
    rcases hcopy with ⟨he, _⟩ | ⟨he, _⟩
    · exact Reachable.step _ hr he
    · exact Reachable.step _ hr he
  exact ⟨fun m s2 he _ => mutate_frame K thr s1 s2 hr1.inv ib ia hne m he,
    fun m s2 he _ => mutate_frame K thr s1 s2 hr1.inv ia ib (fun h => hne h.symm) m he⟩

/-- C1, witness: `SMALL_SIZE = 4`, `a = [1,2,3,4,5,6]` and its copy `b` on one shared
block; after `b[0] = 99` container `b` is `[99,2,3,4,5,6]` on a block of its own and `a`
is `[1,2,3,4,5,6]` as before. -/
theorem C1_value_independence_witness :
    observe (step_after 4 (Op.mutate 1 (Mutation.index_assign 0 99))
        (state_after 4 six_copy_program)) 0 =
      observe (state_after 4 six_copy_program) 0 ∧
    observe (state_after 4 six_copy_program) 0 =
      some (6, [some 1, some 2, some 3, some 4, some 5, some 6]) ∧
    rc (state_after 4 six_copy_program).w 1 = 2 ∧
    observe (step_after 4 (Op.mutate 1 (Mutation.index_assign 0 99))
        (state_after 4 six_copy_program)) 1 =
      some (6, [some 99, some 2, some 3, some 4, some 5, some 6]) :=
  ⟨(C1_value_independence 4 noThrow (state_after 4 (six_copy_program.take 7))
      (state_after 4 six_copy_program) 0 1
      (Reachable.of_run (six_copy_program.take 7) initSys _ Reachable.init rfl)
      (Or.inl ⟨rfl, rfl⟩) (by unfold Bounded; decide)).1 (Mutation.index_assign 0 99) _ rfl
      (by unfold Bounded; decide),
    by decide, by decide, by decide⟩

/-- C2, failing run: with `SMALL_SIZE = 2` the program `a.push_back(1), (2), (3);
a.pop_back(); b(a); a.push_back(9)` reaches a state where `a` is Inline with `size() = 3`
and `capacity() = 2` (and `b` is Shared with size 2, capacity 4). -/
theorem C2_size_exceeds_capacity :
    Reachable 2 noThrow (state_after 2 shared_push_program) ∧
    (state_after 2 shared_push_program).vecs.map
        (fun v => (size v, capacity 2 (state_after 2 shared_push_program).w v, v.dynamic_)) =
      [(3, 2, false), (2, 4, true)] :=
  ⟨Reachable.of_run shared_push_program initSys _ Reachable.init rfl, by decide⟩

/-- C3. Reference-count invariant: in every reachable program state, a block that is
allocated has a reference count of at least 1, equal to the number of containers in
Shared mode that reference it, and an address where nothing is allocated is referenced by
no container; so across any step a block is deallocated exactly when it goes from being
referenced to being referenced by no container. -/
theorem C3_ref_count_invariant (K : Nat) (thr : Nat → Bool) (s : Sys α)
    (hr : Reachable K thr s) :
    (∀ q, match s.w.read q with
      | some b => 1 ≤ b.ref_count ∧ b.ref_count = refs s.vecs q
      | none => refs s.vecs q = 0) ∧
    (∀ op s' q, exec K thr op s = some s' →
      (((s.w.read q).isSome ∧ (s'.w.read q).isNone) ↔
        (0 < refs s.vecs q ∧ refs s'.vecs q = 0))) := by
  have key : ∀ t : Sys α, RefInv t → ∀ q, ((t.w.read q).isSome ↔ 0 < refs t.vecs q) ∧
      match t.w.read q with
      | some b => 1 ≤ b.ref_count ∧ b.ref_count = refs t.vecs q
      | none => refs t.vecs q = 0 := by
    intro t ht q
    have h2 := ht.2 q
    cases hq : t.w.read q with
    | some b =>
      rw [rc_of_read hq] at h2
      have h1 := ht.1 q b hq
      refine ⟨?_, h1, h2⟩
      simp only [Option.isSome_some, true_iff]
      omega
    | none =>
      rw [rc_of_none hq] at h2
      refine ⟨?_, h2.symm⟩
      simp only [Option.isSome_none, false_iff, Bool.false_eq_true]
      omega
  refine ⟨fun q => (key s hr.inv q).2, ?_⟩
  intro op s' q he
  have h1 := (key s hr.inv q).1
  have h2 := (key s' (Reachable.step op hr he).inv q).1
  rw [h1]
  constructor
  · rintro ⟨a, b⟩
    refine ⟨a, ?_⟩
    by_contra hc
    have : (s'.w.read q).isSome := h2.mpr (by omega)
    rw [Option.isNone_iff_eq_none] at b
    rw [b] at this
    cases this
  · rintro ⟨a, b⟩
    refine ⟨a, ?_⟩
    cases hq : s'.w.read q with
    | none => rfl
    | some b' =>
      have := h2.mp (by rw [hq]; rfl)
      omega

/-- C3, witness: with `SMALL_SIZE = 2`, after `a.push_back(1), (2), (3); a.pop_back();
b(a)` the block at address 1 has reference count 2 and two containers reference it; the
`a.push_back(9)` that follows detaches `a`, and the count is 1 with one container. -/
theorem C3_ref_count_invariant_witness :
    (match (state_after 2 shared_push_program).w.read 1 with
      | some b => 1 ≤ b.ref_count ∧
          b.ref_count = refs (state_after 2 shared_push_program).vecs 1
      | none => refs (state_after 2 shared_push_program).vecs 1 = 0) ∧
    refs (state_after 2 shared_push_program).vecs 1 = 1 ∧
    rc (state_after 2 (shared_push_program.take 6)).w 1 = 2 ∧
    refs (state_after 2 (shared_push_program.take 6)).vecs 1 = 2 :=
  ⟨(C3_ref_count_invariant 2 noThrow (state_after 2 shared_push_program)
      (Reachable.of_run shared_push_program initSys _ Reachable.init rfl)).1 1,
    by decide, by decide, by decide⟩

/-- C4. Detach postcondition: the mutable `data()` (behind `operator[]`, `front`, `back`,
`begin`, `end`) on a container that is Inline or whose block has reference count 1
changes nothing; on a container in Shared mode whose block `b` has reference count
above 1 it returns (when no element copy throws) with the container on storage it owns
alone (Inline, or a block with reference count 1), same size and element sequence, and
the old block still allocated with the same capacity and elements and a reference count
one lower. -/
theorem C4_detach (K : Nat) (thr : Nat → Bool) (w : World α) (v : socow_vector α) :
    ((v.dynamic_ = false ∨ rc w v.dynamic_buffer_ ≤ 1) → data K thr (w, v) = .ok (w, v)) ∧
    (∀ b, v.dynamic_ = true → w.read v.dynamic_buffer_ = some b → 1 < b.ref_count →
      (∀ k, thr k = false) →
      ∃ w' v', data K thr (w, v) = .ok (w', v') ∧
        (v'.dynamic_ = false ∨ (v'.dynamic_ = true ∧ rc w' v'.dynamic_buffer_ = 1)) ∧
        size v' = size v ∧ elems w' v' = elems w v ∧
        w'.read v.dynamic_buffer_ = some { b with ref_count := b.ref_count - 1 }) := by
  constructor
  · intro h
    apply unshare_noop
    intro hd
    rcases h with h | h
    · rw [hd] at h; cases h
    · exact h
  · intro b hd hb hrc hthr
    have hcd : cdata w v = b.dynamic_data := by simp [cdata, hd, World.buf, hb]
    rcases unshare_shared K thr w v b hd hb hrc with
      ⟨w', v', e, hs, hc, _, _, _, hr, hm⟩ | ⟨k, _, _, _, hk, _⟩
    · refine ⟨w', v', e, ?_, hs, ?_, hr⟩
      · rcases hm with ⟨h, _⟩ | ⟨h, hp, _, _, ⟨d, hd'⟩, _⟩ | ⟨h, _⟩
        · exact Or.inl h
        · exact Or.inr ⟨h, by rw [hp, rc_of_read hd']⟩
        · exact Or.inl h
      · exact (elems_eq_iff w w' v v' hs).mpr (fun j hj => by rw [hc j hj, hcd])
    · rw [hthr] at hk
      cases hk

/-- C4, witness: `SMALL_SIZE = 4`, `a = [1,2,3,4,5,6]`, `b = a`; the detach of `b`
satisfies the postcondition, and `b[0] = 99` gives `b = [99,2,3,4,5,6]` with `a`
unchanged and the reference count of the block of `a` back at 1. -/
theorem C4_detach_witness :
    (∃ w' v', data 4 noThrow scenario_b = .ok (w', v') ∧
      (v'.dynamic_ = false ∨ (v'.dynamic_ = true ∧ rc w' v'.dynamic_buffer_ = 1)) ∧
      size v' = size scenario_b.2 ∧ elems w' v' = elems scenario_b.1 scenario_b.2 ∧
      w'.read scenario_b.2.dynamic_buffer_ =
        some { (scenario_b.1.buf 1) with ref_count := (scenario_b.1.buf 1).ref_count - 1 }) ∧
    elems scenario_a.1 scenario_a.2 = [some 1, some 2, some 3, some 4, some 5, some 6] ∧
    rc scenario_b.1 scenario_a.2.dynamic_buffer_ = 2 ∧
    elems (final (index_assign 4 noThrow 0 99 scenario_b)).1
      (final (index_assign 4 noThrow 0 99 scenario_b)).2 =
      [some 99, some 2, some 3, some 4, some 5, some 6] ∧
    elems (final (index_assign 4 noThrow 0 99 scenario_b)).1 scenario_a.2 =
      [some 1, some 2, some 3, some 4, some 5, some 6] ∧
    rc (final (index_assign 4 noThrow 0 99 scenario_b)).1 scenario_a.2.dynamic_buffer_ = 1 :=
  ⟨(C4_detach 4 noThrow scenario_b.1 scenario_b.2).2 (scenario_b.1.buf 1) rfl rfl
      (by decide) (fun _ => rfl),
    by decide, by decide, by decide, by decide, by decide⟩

/-- C5, counterexample: with `SMALL_SIZE = 4`, `a = [1,2,3,4,5,6]` Shared.  Copy-assigning
`b = a` when `b` already references the block of `a` leaves the reference count at 2, not
one higher; copy-assigning `a` to an Inline container `[7,8]` copy-constructs two
elements. -/
theorem C5_copy_post_counterexample :
    (∃ w' b', assign noThrow scenario_b.1 scenario_b.2 scenario_a.2 = .ok (w', b') ∧
      scenario_a.2.dynamic_ = true ∧
      b'.dynamic_buffer_ = scenario_a.2.dynamic_buffer_ ∧
      rc scenario_b.1 scenario_a.2.dynamic_buffer_ = 2 ∧
      rc w' scenario_a.2.dynamic_buffer_ = 2 ∧
      ¬ (rc w' scenario_a.2.dynamic_buffer_ =
        rc scenario_b.1 scenario_a.2.dynamic_buffer_ + 1)) ∧
    (∃ w' b', assign noThrow scenario_a.1 (inlineVec [7, 8]) scenario_a.2 = .ok (w', b') ∧
      scenario_a.2.dynamic_ = true ∧ w'.copies = scenario_a.1.copies + 2 ∧
      ¬ (w'.copies = scenario_a.1.copies)) :=
  ⟨⟨_, _, rfl, rfl, rfl, by decide, by decide, by decide⟩,
    ⟨_, _, rfl, rfl, by decide, by decide⟩⟩

/-- C5, amended. Copy postcondition, when no element copy throws.  After
copy-constructing `c` from `a`: `c` has the size, mode, capacity and element sequence of
`a`, and `a` keeps its element sequence; if `a` is Shared, `c` references the same block,
its reference count is exactly one higher and no element is copied; if `a` is Inline, `c`
is Inline with its own copies (one copy construction per element, heap untouched).  After
copy-assigning `b = a` with `b` distinct from `a`: `b` has the size, mode, capacity and
element sequence of `a`, and `a` keeps its element sequence; if `a` is Shared, `b`
references the same block, whose reference count is one higher than before unless `b`
referenced that block already, in which case it is unchanged, and the only element copies
are those of the old elements of an Inline `b` into the temporary. -/
theorem C5_copy_post (K : Nat) (thr : Nat → Bool) (w : World α) (a b : socow_vector α)
    (hh : HeapOK w) (ha : Valid w a) (hb : Valid w b) (hthr : ∀ k, thr k = false) :
    (∃ w' c, copy_ctor thr w a = .ok (w', c) ∧ size c = size a ∧
      c.dynamic_ = a.dynamic_ ∧ capacity K w' c = capacity K w a ∧
      elems w' c = elems w a ∧ elems w' a = elems w a ∧
      (a.dynamic_ = true → c.dynamic_buffer_ = a.dynamic_buffer_ ∧
        rc w' a.dynamic_buffer_ = rc w a.dynamic_buffer_ + 1 ∧ w'.copies = w.copies) ∧
      (a.dynamic_ = false → w'.copies = w.copies + size a ∧ w'.heap = w.heap)) ∧
    (∃ w' b', assign thr w b a = .ok (w', b') ∧ size b' = size a ∧
      b'.dynamic_ = a.dynamic_ ∧ capacity K w' b' = capacity K w a ∧
      elems w' b' = elems w a ∧ elems w' a = elems w a ∧
      (a.dynamic_ = true → b'.dynamic_buffer_ = a.dynamic_buffer_ ∧
        rc w' a.dynamic_buffer_ =
          rc w a.dynamic_buffer_ + 1 - refOf b a.dynamic_buffer_ ∧
        w'.copies = w.copies + (if b.dynamic_ then 0 else size b))) := by
  constructor
  · rcases copy_ctor_moves thr w a hh ha with
      ⟨w', c, e, hc, _, hdyn, hstat⟩ | ⟨_, k, _, _, hk, _⟩
    · have hr : a.dynamic_ = true → ∃ b0 b1, w.read a.dynamic_buffer_ = some b0 ∧
          w'.read a.dynamic_buffer_ = some b1 ∧ b1.capacity_ = b0.capacity_ ∧
          b1.dynamic_data = b0.dynamic_data := by
        intro hd
        obtain ⟨b0, hb0⟩ := ha hd
        have e' := e
        rw [copy_ctor_dynamic thr w a hd] at e'
        simp only [Except.ok.injEq, Prod.mk.injEq] at e'
        refine ⟨b0, { b0 with ref_count := b0.ref_count + 1 }, hb0, ?_, rfl, rfl⟩
        rw [← e'.1, World.read_modify, if_pos rfl, hb0]
        rfl
      obtain ⟨c1, c2, c3, c4⟩ := hc.cdata w w' hr K
      obtain ⟨_, _, _, a4⟩ := (TookOver.self a).cdata w w' hr K
      refine ⟨w', c, e, c1, c2, c3, c4, a4, ?_, ?_⟩
      · intro hd
        exact ⟨hc.2.2.1 hd, (hdyn hd).2.1, (hdyn hd).1⟩
      · intro hd
        exact ⟨(hstat hd).2, (hstat hd).1⟩
    · rw [hthr] at hk
      cases hk
  · obtain ⟨w', b', e, hc, hstat, hdyn⟩ := assign_ok thr w b a hh hb ha hthr
    have hr : a.dynamic_ = true → ∃ b0 b1, w.read a.dynamic_buffer_ = some b0 ∧
        w'.read a.dynamic_buffer_ = some b1 ∧ b1.capacity_ = b0.capacity_ ∧
        b1.dynamic_data = b0.dynamic_data := by
      intro hd
      obtain ⟨b0, hb0, hb1, _⟩ := hdyn hd
      exact ⟨b0, _, hb0, hb1, rfl, rfl⟩
    obtain ⟨c1, c2, c3, c4⟩ := hc.cdata w w' hr K
    obtain ⟨_, _, _, a4⟩ := (TookOver.self a).cdata w w' hr K
    refine ⟨w', b', e, c1, c2, c3, c4, a4, ?_⟩
    intro hd
    obtain ⟨b0, hb0, hb1, hcop⟩ := hdyn hd
    exact ⟨hc.2.2.1 hd, by rw [rc_of_read hb0, rc_of_read hb1], hcop⟩

/-- C5, witness: copy construction from the Shared `a = [1,2,3,4,5,6]` of the scenario. -/
theorem C5_copy_post_witness :
    ∃ w' c, copy_ctor noThrow scenario_a.1 scenario_a.2 = .ok (w', c) ∧
      size c = size scenario_a.2 ∧ c.dynamic_ = scenario_a.2.dynamic_ ∧
      capacity 4 w' c = capacity 4 scenario_a.1 scenario_a.2 ∧
      elems w' c = elems scenario_a.1 scenario_a.2 ∧
      elems w' scenario_a.2 = elems scenario_a.1 scenario_a.2 ∧
      (scenario_a.2.dynamic_ = true → c.dynamic_buffer_ = scenario_a.2.dynamic_buffer_ ∧
        rc w' scenario_a.2.dynamic_buffer_ =
          rc scenario_a.1 scenario_a.2.dynamic_buffer_ + 1 ∧
        w'.copies = scenario_a.1.copies) ∧
      (scenario_a.2.dynamic_ = false → w'.copies = scenario_a.1.copies + size scenario_a.2 ∧
        w'.heap = scenario_a.1.heap) :=
  (C5_copy_post 4 noThrow scenario_a.1 scenario_a.2 (inlineVec [7, 8])
    (HeapOK.of_heap_check _ (by decide)) (Valid.of_valid_check _ _ (by decide))
    (fun h => by cases h) (fun _ => rfl)).1

/-- C6, counterexample: with `SMALL_SIZE = 3`, a container of size 2 on a block of
capacity 4 shared with another container; `push_back(9)` detaches into the inline
storage, then the copy construction of the new element throws.  The container is left
Inline with capacity 3, not Shared with capacity 4 as before the call. -/
theorem C6_push_back_strong_counterexample :
    ∃ w' v', push_back 3 (throwAt 2) 9 (sharedWorld, sharedVec) = .error (w', v') ∧
      sharedVec.dynamic_ = true ∧ capacity 3 sharedWorld sharedVec = 4 ∧
      v'.dynamic_ = false ∧ capacity 3 w' v' = 3 ∧
      ¬ (v'.dynamic_ = sharedVec.dynamic_ ∧
         capacity 3 w' v' = capacity 3 sharedWorld sharedVec) :=
  ⟨_, _, rfl, rfl, rfl, rfl, rfl, by decide⟩

/-- C6, amended. Exception guarantee of `push_back`: when an element copy throws during
`push_back`, `size()` and all element values are as before the call; mode and
`capacity()` are as before too, except that a container that was Shared with reference
count above 1 and had a size (or a block capacity) of at most `SMALL_SIZE` may have been
detached to Inline storage, with capacity `SMALL_SIZE`, before the failed construction. -/
theorem C6_push_back_strong (K : Nat) (thr : Nat → Bool) (x : α) (w w' : World α)
    (v v' : socow_vector α) (hh : HeapOK w) (hv : Valid w v)
    (he : push_back K thr x (w, v) = .error (w', v')) :
    size v' = size v ∧ elems w' v' = elems w v ∧
    ((v'.dynamic_ = v.dynamic_ ∧ capacity K w' v' = capacity K w v) ∨
     (v.dynamic_ = true ∧ 1 < rc w v.dynamic_buffer_ ∧
      (size v ≤ K ∨ capacity K w v ≤ K) ∧
      v'.dynamic_ = false ∧ capacity K w' v' = K)) := by
  rcases push_back_spec K thr x w v hh hv with ⟨w1, v1, e, hf, _⟩ | ⟨w1, v1, e, _⟩
  · rw [e] at he
    cases he
    obtain ⟨hs, hc, _, _, hm⟩ := hf
    refine ⟨hs, (elems_eq_iff w w' v v' hs).mpr hc, ?_⟩
    rcases hm with h | ⟨h1, h2, h3, h4⟩
    · exact Or.inl h
    · right
      refine ⟨h1, ?_, h4, h2, by simp [capacity, h2]⟩
      by_contra hrc
      exact h3 (fun _ => by omega)
  · rw [e] at he
    cases he

/-- C6, witness: the failing `push_back` of the counterexample keeps size and elements
and leaves the container Inline with capacity `SMALL_SIZE = 3`. -/
theorem C6_push_back_strong_witness :
    size (final (push_back 3 (throwAt 2) 9 (sharedWorld, sharedVec))).2 = size sharedVec ∧
    elems (final (push_back 3 (throwAt 2) 9 (sharedWorld, sharedVec))).1
      (final (push_back 3 (throwAt 2) 9 (sharedWorld, sharedVec))).2 =
      elems sharedWorld sharedVec ∧
    (((final (push_back 3 (throwAt 2) 9 (sharedWorld, sharedVec))).2.dynamic_ =
        sharedVec.dynamic_ ∧
      capacity 3 (final (push_back 3 (throwAt 2) 9 (sharedWorld, sharedVec))).1
        (final (push_back 3 (throwAt 2) 9 (sharedWorld, sharedVec))).2 =
        capacity 3 sharedWorld sharedVec) ∨
     (sharedVec.dynamic_ = true ∧ 1 < rc sharedWorld sharedVec.dynamic_buffer_ ∧
      (size sharedVec ≤ 3 ∨ capacity 3 sharedWorld sharedVec ≤ 3) ∧
      (final (push_back 3 (throwAt 2) 9 (sharedWorld, sharedVec))).2.dynamic_ = false ∧
      capacity 3 (final (push_back 3 (throwAt 2) 9 (sharedWorld, sharedVec))).1
        (final (push_back 3 (throwAt 2) 9 (sharedWorld, sharedVec))).2 = 3)) :=
  C6_push_back_strong 3 (throwAt 2) 9 sharedWorld _ sharedVec _
    HeapOK_shared (fun _ => ⟨_, rfl⟩) rfl

/-- C7. Atomicity of a capacity change: when an element copy throws during
`change_capacity` (called directly, or reached through `reserve`, `shrink_to_fit` or the
detach `unshare`), the container afterwards has the same mode, size, capacity and
elements as before, still references the same block when it was Shared, and every block
of the heap, that one included, has its reference count and elements unchanged. -/
theorem C7_change_capacity_atomic (K : Nat) (thr : Nat → Bool) (n : Nat) (w w' : World α)
    (v v' : socow_vector α) (hv : Valid w v)
    (he : change_capacity K thr n (w, v) = .error (w', v') ∨
      reserve K thr n (w, v) = .error (w', v') ∨
      shrink_to_fit K thr (w, v) = .error (w', v') ∨
      unshare K thr (w, v) = .error (w', v')) :
    Unchanged K w v w' v' := by
  rcases he with he | he | he | he
  · exact change_capacity_error K thr n w w' v v' hv he
  · unfold reserve at he
    split at he
    · exact change_capacity_error K thr n w w' v v' hv he
    · exact unshare_error K thr w w' v v' hv he
  · unfold shrink_to_fit at he
    split at he
    · exact change_capacity_error K thr _ w w' v v' hv he
    · cases he
  · exact unshare_error K thr w w' v v' hv he

/-- C7, witness: with `SMALL_SIZE = 1`, a container of two elements on a block shared
with another container detaches into a fresh block; the second element copy throws, and
container and heap are as before. -/
theorem C7_change_capacity_atomic_witness :
    (∃ s, unshare 1 (throwAt 1) (sharedWorld, sharedVec) = .error s) ∧
    Unchanged 1 sharedWorld sharedVec
      (final (unshare 1 (throwAt 1) (sharedWorld, sharedVec))).1
      (final (unshare 1 (throwAt 1) (sharedWorld, sharedVec))).2 :=
  ⟨⟨_, rfl⟩, C7_change_capacity_atomic 1 (throwAt 1) 0 sharedWorld _ sharedVec _
    (fun _ => ⟨_, rfl⟩) (Or.inr (Or.inr (Or.inr rfl)))⟩

/-- C8, failing run: `SMALL_SIZE = 2`, `a = [1,2]` sharing a block of capacity 4 with
`b`.  `a.push_back(9)` finds `size() = 2` different from `capacity() = 4` and takes the
branch without growth; there `data()` detaches `a` into its inline array
`T static_data[2]`, and the new element is constructed at `static_data[2]`, one behind
the end of that array.  The call returns with `size() = 3` and `capacity() = 2`: the
element sequence `[1,2,9]` the claim asks for does not fit the storage of `a`. -/
theorem C8_push_back_out_of_bounds :
    Reachable 2 noThrow sharedSys ∧
    elems sharedSys.w (vec_at sharedSys 0) = [some 1, some 2] ∧
    size (vec_at sharedSys 0) = 2 ∧ capacity 2 sharedSys.w (vec_at sharedSys 0) = 4 ∧
    ∃ w' v', push_back 2 noThrow 9 (sharedSys.w, vec_at sharedSys 0) = .ok (w', v') ∧
      v'.dynamic_ = false ∧ capacity 2 w' v' = 2 ∧ size v' = 3 ∧
      v'.static_data 2 = some 9 ∧ ¬ (2 < capacity 2 w' v') ∧
      ¬ (size v' ≤ capacity 2 w' v') :=
  ⟨Reachable.of_run (shared_push_program.take 6) initSys _ Reachable.init rfl,
    by decide, by decide, by decide, _, _, rfl, by decide, by decide, by decide,
    by decide, by decide, by decide⟩

/-- C9. `erase(first, last)` postcondition, with `first = begin + i`, `last = begin + j`
and `i ≤ j ≤ size()`: on a container with element sequence `xs`, `erase` returns whenever
the container owns its storage alone or no element copy throws in the detach it starts
with; and whenever it returns, the returned iterator is at index `i`, the element sequence
is `xs[0..i)` followed by `xs[j..size)` in their order, and `size()` is reduced by
`j - i`. -/
theorem C9_erase_post (K : Nat) (thr : Nat → Bool) (w : World α) (v : socow_vector α)
    (xs : List α) (i j : Nat) (hh : HeapOK w) (hv : Valid w v)
    (hxs : elems w v = xs.map some) (hij : i ≤ j) (hj : j ≤ size v) :
    ((Excl w v ∨ ∀ k, thr k = false) → ∃ s, erase K thr i j (w, v) = .ok s) ∧
    ∀ w' v' r, erase K thr i j (w, v) = .ok ((w', v'), r) →
      r = i ∧ elems w' v' = (xs.take i ++ xs.drop j).map some ∧
      size v' = size v - (j - i) := by
  obtain ⟨hs, hc⟩ := cdata_of_elems w v xs hxs
  unfold size at hj
  rcases erase_spec K thr i j w v hh hv hij hj with
    ⟨_, _, e, _, hnx, k, hk⟩ | ⟨w1, v1, e, _, _, _, _, hs1, hc1, hc2⟩
  · constructor
    · intro hthr
      exfalso
      rcases hthr with h | h
      · exact hnx h
      · rw [h] at hk
        cases hk
    · intro w' v' r he
      rw [e] at he
      cases he
  · refine ⟨fun _ => ⟨_, e⟩, ?_⟩
    intro w' v' r he
    rw [e] at he
    simp only [Except.ok.injEq, Prod.mk.injEq] at he
    obtain ⟨⟨hw, hv'⟩, hr⟩ := he
    subst hw hv' hr
    refine ⟨rfl, ?_, hs1⟩
    apply elems_eq_of
    · rw [hs1, hs]
      simp
      omega
    · intro k hk
      have hk' : k < v.size_ - (j - i) := by
        simp at hk
        omega
      rw [getElem?_erase_list xs i j (by omega) hij]
      by_cases h1 : k < i
      · rw [if_pos h1, hc1 k h1, hc k (by omega)]
      · rw [if_neg h1, hc2 k (by omega) hk', hc _ (by omega)]

/-- C9, witness: `erase(begin + 1, begin + 3)` on `[1,2,3,4,5]` (`SMALL_SIZE = 4`) yields
`[1,4,5]`, size 3, iterator at index 1. -/
theorem C9_erase_post_witness :
    ∃ w' v', erase 4 noThrow 1 3 (push_all 4 [1, 2, 3, 4, 5] (emptyWorld, default_ctor)) =
        .ok ((w', v'), 1) ∧
      elems w' v' = [some 1, some 4, some 5] ∧
      size v' = size (push_all 4 [1, 2, 3, 4, 5] (emptyWorld, default_ctor)).2 - (3 - 1) :=
  ⟨_, _, rfl,
    ((C9_erase_post 4 noThrow (push_all 4 [1, 2, 3, 4, 5] (emptyWorld, default_ctor)).1
      (push_all 4 [1, 2, 3, 4, 5] (emptyWorld, default_ctor)).2 [1, 2, 3, 4, 5] 1 3
      (HeapOK.of_heap_check _ (by decide)) (Valid.of_valid_check _ _ (by decide))
      (by decide) (by decide) (by decide)).2 _ _ 1 rfl).2⟩

/-- C11. `swap` exchanges the two containers: for two containers `a` and `b` in any
combination of modes, when no element copy throws, `a.swap(b)` returns, and afterwards
size, element sequence, capacity and mode of `a` are those `b` had before the call, and
those of `b` are those `a` had. -/
theorem C11_swap_exchanges (K : Nat) (thr : Nat → Bool) (w : World α)
    (a b : socow_vector α) (ha : Valid w a) (hb : Valid w b)
    (hthr : ∀ k, thr k = false) :
    ∃ w' a' b', swap thr (w, a, b) = .ok (w', a', b') ∧
      (size a' = size b ∧ elems w' a' = elems w b ∧
        capacity K w' a' = capacity K w b ∧ a'.dynamic_ = b.dynamic_) ∧
      (size b' = size a ∧ elems w' b' = elems w a ∧
        capacity K w' b' = capacity K w a ∧ b'.dynamic_ = a.dynamic_) := by
  obtain ⟨w', a', b', e, hh, _, h1, h2⟩ := swap_ok thr w a b hthr
  obtain ⟨⟨p1, p2, p3, p4⟩, q1, q2, q3, q4⟩ :=
    swap_exchange K w' w a b a' b' ha hb hh.symm h1 h2
  exact ⟨w', a', b', e, ⟨p1, p4, p3, p2⟩, q1, q4, q3, q2⟩

/-- C11, witness: `SMALL_SIZE = 4`, `a = [7,8]` Inline and `b = [1,2,3,4,5,6]` Shared
(capacity 8); after `a.swap(b)` container `a` is `[1,2,3,4,5,6]`, Shared with capacity 8,
and `b` is `[7,8]`, Inline with capacity 4. -/
theorem C11_swap_exchanges_witness :
    ∃ w' a' b', swap noThrow (scenario_a.1, inlineVec [7, 8], scenario_a.2) =
        .ok (w', a', b') ∧
      (size a' = 6 ∧ elems w' a' = [some 1, some 2, some 3, some 4, some 5, some 6] ∧
        capacity 4 w' a' = 8 ∧ a'.dynamic_ = true) ∧
      (size b' = 2 ∧ elems w' b' = [some 7, some 8] ∧
        capacity 4 w' b' = 4 ∧ b'.dynamic_ = false) :=
  C11_swap_exchanges 4 noThrow scenario_a.1 (inlineVec [7, 8]) scenario_a.2
    (fun h => by cases h) (Valid.of_valid_check _ _ (by decide)) (fun _ => rfl)

/-- C12. Swap symmetry: for two containers `a` and `b`, when no element copy throws,
`a.swap(b)` followed by `b.swap(a)` returns and restores size, element sequence,
capacity and mode of both. -/
theorem C12_swap_symmetry (K : Nat) (thr : Nat → Bool) (w : World α)
    (a b : socow_vector α) (ha : Valid w a) (hb : Valid w b)
    (hthr : ∀ k, thr k = false) :
    ∃ w1 a1 b1 w2 b2 a2, swap thr (w, a, b) = .ok (w1, a1, b1) ∧
      swap thr (w1, b1, a1) = .ok (w2, b2, a2) ∧
      (size a2 = size a ∧ elems w2 a2 = elems w a ∧
        capacity K w2 a2 = capacity K w a ∧ a2.dynamic_ = a.dynamic_) ∧
      (size b2 = size b ∧ elems w2 b2 = elems w b ∧
        capacity K w2 b2 = capacity K w b ∧ b2.dynamic_ = b.dynamic_) := by
  obtain ⟨w1, a1, b1, e1, hh1, _, h1, h2⟩ := swap_ok thr w a b hthr
  obtain ⟨w2, b2, a2, e2, hh2, _, h3, h4⟩ := swap_ok thr w1 b1 a1 hthr
  obtain ⟨⟨p1, p2, p3, p4⟩, q1, q2, q3, q4⟩ :=
    swap_exchange K w2 w a b b2 a2 ha hb (by rw [hh2, hh1])
      (h1.trans_took h3) (h2.trans_took h4)
  exact ⟨w1, a1, b1, w2, b2, a2, e1, e2, ⟨q1, q4, q3, q2⟩, p1, p4, p3, p2⟩

/-- C12, witness: `SMALL_SIZE = 4`, `a = [1,2]` and `b = [3,4,5]`, both Inline. -/
theorem C12_swap_symmetry_witness :
    ∃ w1 a1 b1 w2 b2 a2,
      swap noThrow (emptyWorld, inlineVec [1, 2], inlineVec [3, 4, 5]) = .ok (w1, a1, b1) ∧
      swap noThrow (w1, b1, a1) = .ok (w2, b2, a2) ∧
      (size a2 = 2 ∧ elems w2 a2 = [some 1, some 2] ∧
        capacity 4 w2 a2 = 4 ∧ a2.dynamic_ = false) ∧
      (size b2 = 3 ∧ elems w2 b2 = [some 3, some 4, some 5] ∧
        capacity 4 w2 b2 = 4 ∧ b2.dynamic_ = false) :=
  C12_swap_symmetry 4 noThrow emptyWorld (inlineVec [1, 2]) (inlineVec [3, 4, 5])
    (fun h => by cases h) (fun h => by cases h) (fun _ => rfl)

/-- C13, counterexample: `SMALL_SIZE = 4`, `a = [1,2,3,4]` (capacity 4), 4-byte
elements, and an `operator new` that grants at most `2 ^ 32` bytes.  `a.reserve(2 ^ 61)`
asks for `16 + 4 * 2 ^ 61` bytes, `operator new` throws `std::bad_alloc`, no element
operation has thrown, and after the call `capacity()` is still 4, not `2 ^ 61`. -/
theorem C13_reserve_exact_counterexample :
    Reachable 4 noThrow (state_after 4 four_program) ∧
    capacity 4 (state_after 4 four_program).w (vec_at (state_after 4 four_program) 0) = 4 ∧
    smallAlloc.bytes (2 ^ 61) = 16 + 4 * 2 ^ 61 ∧
    reserve_alloc 4 noThrow smallAlloc (2 ^ 61)
        ((state_after 4 four_program).w, vec_at (state_after 4 four_program) 0) =
      .error ((state_after 4 four_program).w, vec_at (state_after 4 four_program) 0) ∧
    ¬ (capacity 4 (state_after 4 four_program).w
        (vec_at (state_after 4 four_program) 0) = 2 ^ 61) :=
  ⟨Reachable.of_run four_program initSys _ Reachable.init rfl, by decide, by decide,
    reserve_alloc_refused 4 noThrow smallAlloc (2 ^ 61) _ (by decide) (by decide)
      (by decide),
    by decide⟩

/-- C13, amended. `reserve` grows exactly: for every container of a reachable program
state and every `n` above its `capacity()`, when no element copy throws: if the request
is served in full (the byte count `sizeof(dynamic_buffer) + sizeof(T) * n` fits `size_t`
and `operator new` returns), `reserve(n)` returns, `capacity()` is `n` exactly, the mode
is Shared, and `size()` and the element sequence are unchanged; if `operator new` throws
`std::bad_alloc`, `reserve(n)` throws and container and heap are as before. -/
theorem C13_reserve_exact (K : Nat) (thr thr' : Nat → Bool) (A : Allocator) (s : Sys α)
    (i n : Nat) (v : socow_vector α) (hr : Reachable K thr s) (hv : s.vecs[i]? = some v)
    (hn : capacity K s.w v < n) (hthr : ∀ k, thr' k = false) :
    (A.serves n →
      ∃ w' v', reserve_alloc K thr' A n (s.w, v) = .ok (w', v') ∧ capacity K w' v' = n ∧
        v'.dynamic_ = true ∧ size v' = size v ∧ elems w' v' = elems s.w v) ∧
    (A.grants (A.bytes n) = false →
      reserve_alloc K thr' A n (s.w, v) = .error (s.w, v)) := by
  have hval := hr.inv.valid_inv hv
  have hroomy := hr.capOK.roomy hval
  have e : reserve_alloc K thr' A n (s.w, v) = change_capacity_alloc K thr' A n (s.w, v) := by
    unfold reserve_alloc
    rw [if_pos hn]
  constructor
  · intro hA
    obtain ⟨w', v', e', h⟩ := reserve_grow K thr' n s.w v hval hroomy hn hthr
    refine ⟨w', v', ?_, h⟩
    rw [e, change_capacity_alloc_eq K thr' A n (s.w, v) (fun _ => hA), ← e']
    unfold reserve
    rw [if_pos hn]
  · intro hA
    rw [e]
    exact change_capacity_alloc_refused K thr' A n (s.w, v) (hroomy.lt_of_cap hn) hA

/-- C13, witness: `SMALL_SIZE = 4`, `a = [1,2,3,4]` Inline (capacity 4), an allocator
that serves the request; `a.reserve(10)` gives capacity 10, Shared, with the same four
elements. -/
theorem C13_reserve_exact_witness :
    ∃ w' v', reserve_alloc 4 noThrow smallAlloc 10
        ((state_after 4 four_program).w, vec_at (state_after 4 four_program) 0) =
        .ok (w', v') ∧
      capacity 4 w' v' = 10 ∧ v'.dynamic_ = true ∧ size v' = 4 ∧
      elems w' v' = [some 1, some 2, some 3, some 4] :=
  (C13_reserve_exact 4 noThrow noThrow smallAlloc (state_after 4 four_program) 0 10
    (vec_at (state_after 4 four_program) 0)
    (Reachable.of_run four_program initSys _ Reachable.init rfl) rfl (by decide)
    (fun _ => rfl)).1 (by unfold Allocator.serves; decide)

/-- C15, counterexample: `SMALL_SIZE = 4`, `a = [1,2]`; after `a.reserve(10)` and
`a.shrink_to_fit()` the container is Inline again with `capacity() = 4`, not
`size() = 2`.  And with an `operator new` that grants at most `2 ^ 32` bytes,
`a.reserve(2 ^ 61)` throws `std::bad_alloc` although no element operation throws. -/
theorem C15_reserve_shrink_counterexample :
    Reachable 4 noThrow (state_after 4 (four_program.take 3)) ∧
    (∃ w1 v1 w2 v2,
      reserve 4 noThrow 10 ((state_after 4 (four_program.take 3)).w,
        vec_at (state_after 4 (four_program.take 3)) 0) = .ok (w1, v1) ∧
      shrink_to_fit 4 noThrow (w1, v1) = .ok (w2, v2) ∧
      size v2 = 2 ∧ capacity 4 w2 v2 = 4 ∧ ¬ (capacity 4 w2 v2 = size v2)) ∧
    reserve_alloc 4 noThrow smallAlloc (2 ^ 61)
        ((state_after 4 (four_program.take 3)).w,
          vec_at (state_after 4 (four_program.take 3)) 0) =
      .error ((state_after 4 (four_program.take 3)).w,
        vec_at (state_after 4 (four_program.take 3)) 0) :=
  ⟨Reachable.of_run (four_program.take 3) initSys _ Reachable.init rfl,
    ⟨_, _, _, _, rfl, rfl, by decide, by decide, by decide⟩,
    reserve_alloc_refused 4 noThrow smallAlloc (2 ^ 61) _ (by decide) (by decide)
      (by decide)⟩

/-- C15, amended. Reserve/shrink round trip: for every container of a reachable program
state and every `n`, when no element copy throws and the allocator serves in full the
requests the two calls can make (blocks of `n`, of `capacity()` and of `size()` slots),
`reserve(n)` followed by `shrink_to_fit()` returns with the element sequence unchanged
and `capacity()` equal to the larger of `size()` and `SMALL_SIZE`: equal to `size()` when
`size() ≥ SMALL_SIZE`, and `SMALL_SIZE` (Inline storage) when the size is smaller. -/
theorem C15_reserve_shrink (K : Nat) (thr thr' : Nat → Bool) (A : Allocator) (s : Sys α)
    (i n : Nat) (v : socow_vector α) (hr : Reachable K thr s) (hv : s.vecs[i]? = some v)
    (hthr : ∀ k, thr' k = false) (h1 : A.serves n) (h2 : A.serves (capacity K s.w v))
    (h3 : A.serves (size v)) :
    ∃ w1 v1 w2 v2, reserve_alloc K thr' A n (s.w, v) = .ok (w1, v1) ∧
      shrink_to_fit_alloc K thr' A (w1, v1) = .ok (w2, v2) ∧
      capacity K w2 v2 = max (size v2) K ∧ size v2 = size v ∧
      elems w2 v2 = elems s.w v := by
  have hval := hr.inv.valid_inv hv
  obtain ⟨w1, v1, e1, hs1, hel1, hv1, hr1⟩ :=
    reserve_ok K thr' n s.w v hr.inv.1 hval (hr.capOK.roomy hval) hthr
  obtain ⟨w2, v2, e2, hs2, hel2, hc⟩ := shrink_to_fit_ok K thr' w1 v1 hv1 hr1 hthr
  refine ⟨w1, v1, w2, v2, ?_, ?_, by rw [hc, hs2], by rw [hs2, hs1], by rw [hel2, hel1]⟩
  · rw [reserve_alloc_eq K thr' A n (s.w, v) h1 h2]
    exact e1
  · rw [shrink_to_fit_alloc_eq K thr' A (w1, v1) (by
      show A.serves v1.size_
      unfold size at hs1 h3
      rw [hs1]
      exact h3)]
    exact e2

/-- C15, witness: `SMALL_SIZE = 4`, `a = [1,2,3,4]`, an allocator that serves the
requests; `a.reserve(10)` then `a.shrink_to_fit()` gives capacity 4 with the same
elements. -/
theorem C15_reserve_shrink_witness :
    ∃ w1 v1 w2 v2,
      reserve_alloc 4 noThrow smallAlloc 10 ((state_after 4 four_program).w,
        vec_at (state_after 4 four_program) 0) = .ok (w1, v1) ∧
      shrink_to_fit_alloc 4 noThrow smallAlloc (w1, v1) = .ok (w2, v2) ∧
      capacity 4 w2 v2 = max (size v2) 4 ∧ size v2 = 4 ∧
      elems w2 v2 = [some 1, some 2, some 3, some 4] :=
  C15_reserve_shrink 4 noThrow noThrow smallAlloc (state_after 4 four_program) 0 10
    (vec_at (state_after 4 four_program) 0)
    (Reachable.of_run four_program initSys _ Reachable.init rfl) rfl (fun _ => rfl)
    (by unfold Allocator.serves; decide) (by unfold Allocator.serves; decide)
    (by unfold Allocator.serves; decide)

/-- C17, failing run: with `SMALL_SIZE = 0`, the first `push_back` on a
default-constructed container (size 0 = capacity 0) allocates a block of `0 * 2 = 0`
slots and constructs the element at `dynamic_data[0]`, behind the block; the container
is Shared with `size() = 1` and `capacity() = 0`, not `max(0 * 2, 1) = 1`, and two more
calls leave it at size 3 with capacity 0. -/
theorem C17_zero_threshold_growth :
    size (default_ctor : socow_vector Nat) = capacity 0 emptyWorld default_ctor ∧
    (∃ s, push_back 0 noThrow 1 (emptyWorld, default_ctor) = .ok s) ∧
    (push_all 0 [1] (emptyWorld, default_ctor)).2.dynamic_ = true ∧
    size (push_all 0 [1] (emptyWorld, default_ctor)).2 = 1 ∧
    capacity 0 (push_all 0 [1] (emptyWorld, default_ctor)).1
      (push_all 0 [1] (emptyWorld, default_ctor)).2 = 0 ∧
    ¬ (capacity 0 (push_all 0 [1] (emptyWorld, default_ctor)).1
      (push_all 0 [1] (emptyWorld, default_ctor)).2 = max (0 * 2) 1) ∧
    ¬ (1 ≤ capacity 0 (push_all 0 [1] (emptyWorld, default_ctor)).1
      (push_all 0 [1] (emptyWorld, default_ctor)).2) ∧
    size (push_all 0 [1, 2, 3] (emptyWorld, default_ctor)).2 = 3 ∧
    capacity 0 (push_all 0 [1, 2, 3] (emptyWorld, default_ctor)).1
      (push_all 0 [1, 2, 3] (emptyWorld, default_ctor)).2 = 0 :=
  ⟨by decide, ⟨_, rfl⟩, by decide, by decide, by decide, by decide, by decide, by decide,
    by decide⟩

/-- C18, counterexample: `a = [1,2]` and `b = [3,4,5]`, both Inline; the copy of the
surplus element `5` throws.  After the failed `a.swap(b)` the containers hold `[3,4]` and
`[1,2,5]`: the sizes are as before, the element values are not. -/
theorem C18_inline_swap_rollback_counterexample :
    ∃ w' a' b',
      swap (throwAt 0) (emptyWorld, inlineVec [1, 2], inlineVec [3, 4, 5]) =
        .error (w', a', b') ∧
      size a' = 2 ∧ size b' = 3 ∧
      elems w' a' = [some 3, some 4] ∧ elems w' b' = [some 1, some 2, some 5] ∧
      ¬ (elems w' a' = elems emptyWorld (inlineVec [1, 2])) ∧
      ¬ (elems w' b' = elems emptyWorld (inlineVec [3, 4, 5])) :=
  ⟨_, _, _, rfl, by decide, by decide, by decide, by decide, by decide, by decide⟩

/-- C18, amended. Inline/Inline `swap` when a copy throws: for two Inline containers `a`
and `b`, if an element copy construction throws while `swap` transfers the surplus
elements of the longer one (so the sizes differ), then after the failed call both are
Inline with the sizes they had; the surplus elements of the longer one (indices from the
smaller size on) are as before; at every index below the smaller size the elements have
been exchanged, `a` holding the value `b` had there and `b` the value `a` had; and the
partly built copies are destroyed: with `k` the number of surplus elements copied before
the throw, the `k` slots behind the elements of the shorter container hold no object and
its slots after them are untouched, so a slot from the smaller size on that held no
object before the call holds none after it, in either container. -/
theorem C18_inline_swap_failure (thr : Nat → Bool) (w w' : World α)
    (a b a' b' : socow_vector α) (ha : a.dynamic_ = false) (hb : b.dynamic_ = false)
    (he : swap thr (w, a, b) = .error (w', a', b')) :
    size a ≠ size b ∧ size a' = size a ∧ size b' = size b ∧
    a'.dynamic_ = false ∧ b'.dynamic_ = false ∧
    (∀ j, j < min (size a) (size b) →
      index_const w' a' j = index_const w b j ∧ index_const w' b' j = index_const w a j) ∧
    (∀ j, min (size a) (size b) ≤ j → j < size a →
      index_const w' a' j = index_const w a j) ∧
    (∀ j, min (size a) (size b) ≤ j → j < size b →
      index_const w' b' j = index_const w b j) ∧
    (∀ j, min (size a) (size b) ≤ j → a.static_data j = none → a'.static_data j = none) ∧
    (∀ j, min (size a) (size b) ≤ j → b.static_data j = none → b'.static_data j = none) ∧
    ∃ k, thr (w.copies + k) = true ∧ (∀ m, m < k → thr (w.copies + m) = false) ∧
      (size a < size b → k < size b - size a ∧ ∀ j, size a ≤ j →
        a'.static_data j = if j < size a + k then none else a.static_data j) ∧
      (size b < size a → k < size a - size b ∧ ∀ j, size b ≤ j →
        b'.static_data j = if j < size b + k then none else b.static_data j) := by
  obtain ⟨h1, h2, h3, h4, h5, h6, h7, h8, h9, h10, h11⟩ :=
    swap_inline_error thr w w' a b a' b' ha hb he
  have ca : ∀ (u : World α) j, index_const u a j = a.static_data j := by
    intro u j
    simp [index_const, cdata, ha]
  have cb : ∀ (u : World α) j, index_const u b j = b.static_data j := by
    intro u j
    simp [index_const, cdata, hb]
  have ca' : ∀ (u : World α) j, index_const u a' j = a'.static_data j := by
    intro u j
    simp [index_const, cdata, h3]
  have cb' : ∀ (u : World α) j, index_const u b' j = b'.static_data j := by
    intro u j
    simp [index_const, cdata, h4]
  refine ⟨h5, h1, h2, h3, h4, ?_, ?_, ?_, h9, h10, h11⟩
  · intro j hj
    rw [ca', cb', ca, cb]
    exact h6 j hj
  · intro j hj1 hj2
    rw [ca', ca]
    exact h7 j hj1 hj2
  · intro j hj1 hj2
    rw [cb', cb]
    exact h8 j hj1 hj2

/-- C18, witness: `a = [1,2]` and `b = [3,4,5,6]`, both Inline; the copy of `5` into
`a` succeeds and the copy of `6` throws.  After the failed swap the sizes are 2 and 4 as
before, the surplus elements `5, 6` of `b` are in place, the two common indices are
exchanged, and the copy of `5` built at index 2 of `a` has been destroyed. -/
theorem C18_inline_swap_failure_witness :
    ∃ w' a' b',
      swap (throwAt 1) (emptyWorld, inlineVec [1, 2], inlineVec [3, 4, 5, 6]) =
        .error (w', a', b') ∧
      size a' = size (inlineVec [1, 2]) ∧ size b' = size (inlineVec [3, 4, 5, 6]) ∧
      elems w' a' = [some 3, some 4] ∧
      elems w' b' = [some 1, some 2, some 5, some 6] ∧
      a'.static_data 2 = none ∧ a'.static_data 3 = none :=
  ⟨_, _, _, rfl,
    (C18_inline_swap_failure (throwAt 1) emptyWorld _ (inlineVec [1, 2])
      (inlineVec [3, 4, 5, 6]) _ _ rfl rfl rfl).2.1,
    by decide, by decide, by decide, by decide, by decide⟩

/-- C19, counterexample: `SMALL_SIZE = 4`, `a = [7,8]` Inline and `b = [1,2,3,4,5,6]`
Shared; `a.swap(b)` copy-constructs two elements (the elements of `a`, into the inline
storage of `b`), and so does `b.swap(a)`. -/
theorem C19_swap_copies_counterexample :
    (inlineVec [7, 8]).dynamic_ = false ∧ scenario_a.2.dynamic_ = true ∧
    (∃ s, swap noThrow (scenario_a.1, inlineVec [7, 8], scenario_a.2) = .ok s) ∧
    (final (swap noThrow (scenario_a.1, inlineVec [7, 8], scenario_a.2))).1.copies =
      scenario_a.1.copies + 2 ∧
    (final (swap noThrow (scenario_a.1, scenario_a.2, inlineVec [7, 8]))).1.copies =
      scenario_a.1.copies + 2 ∧
    ¬ ((final (swap noThrow (scenario_a.1, inlineVec [7, 8], scenario_a.2))).1.copies =
      scenario_a.1.copies) :=
  ⟨rfl, rfl, ⟨_, rfl⟩, by decide, by decide, by decide⟩

/-- C19, amended. Element copies of `swap` outside the Inline/Inline case: when both
containers are Shared, `a.swap(b)` always returns and invokes the element copy
constructor zero times; when one is Shared and the other Inline, `swap` returns when no
element copy throws, and a `swap` that returns has invoked the element copy constructor
exactly once per element of the Inline side. -/
theorem C19_swap_copies (thr : Nat → Bool) (w : World α) (a b : socow_vector α) :
    (a.dynamic_ = true → b.dynamic_ = true →
      ∃ a' b', swap thr (w, a, b) = .ok (w, a', b')) ∧
    ((∀ k, thr k = false) → ∃ s, swap thr (w, a, b) = .ok s) ∧
    ∀ w' a' b', swap thr (w, a, b) = .ok (w', a', b') →
      (a.dynamic_ = true → b.dynamic_ = true → w'.copies = w.copies) ∧
      (a.dynamic_ = true → b.dynamic_ = false → w'.copies = w.copies + size b) ∧
      (a.dynamic_ = false → b.dynamic_ = true → w'.copies = w.copies + size a) := by
  refine ⟨?_, ?_, ?_⟩
  · intro ha hb
    unfold swap swap_storage
    simp only [ha, hb, Bool.and_self, if_true]
    exact ⟨_, _, rfl⟩
  · intro hthr
    obtain ⟨w', a', b', e, _⟩ := swap_ok thr w a b hthr
    exact ⟨_, e⟩
  · intro w' a' b' he
    rcases swap_spec thr w a b with ⟨w1, a1, b1, e, _, hc, _⟩ | ⟨w1, a1, b1, _, e, _⟩
    · rw [e] at he
      cases he
      unfold swap_copies at hc
      refine ⟨?_, ?_, ?_⟩
      · intro ha hb
        simpa [ha, hb] using hc
      · intro ha hb
        simpa [ha, hb, size] using hc
      · intro ha hb
        simpa [ha, hb, size] using hc
    · rw [e] at he
      cases he

/-- C19, witness: the swap of the counterexample: two copy constructions for the two
elements of the Inline side. -/
theorem C19_swap_copies_witness :
    ∃ w' a' b', swap noThrow (scenario_a.1, inlineVec [7, 8], scenario_a.2) =
        .ok (w', a', b') ∧
      w'.copies = scenario_a.1.copies + size (inlineVec [7, 8]) :=
  ⟨_, _, _, rfl,
    ((C19_swap_copies noThrow scenario_a.1 (inlineVec [7, 8]) scenario_a.2).2.2
      _ _ _ rfl).2.2 rfl rfl⟩

/-- C20. Shared blocks are larger than the inline array: for `SMALL_SIZE ≥ 1`, in every
reachable program state every container in Shared mode references an allocated block
whose capacity is strictly above `SMALL_SIZE`, and so is every block of the heap. -/
theorem C20_shared_capacity_above_threshold (K : Nat) (thr : Nat → Bool) (s : Sys α)
    (hK : 1 ≤ K) (hr : Reachable K thr s) :
    (∀ (i : Nat) (v : socow_vector α), s.vecs[i]? = some v → v.dynamic_ = true →
      (∃ b, s.w.read v.dynamic_buffer_ = some b ∧ K < b.capacity_) ∧
      K < capacity K s.w v) ∧
    ∀ q b, s.w.read q = some b → K < b.capacity_ := by
  have hc := hr.capOK
  constructor
  · intro i v hv hd
    have hval := hr.inv.valid_inv hv
    obtain ⟨b, hb⟩ := hval hd
    have h1 := hc _ b hb
    have h2 := hc.roomy hval hd
    exact ⟨⟨b, hb, by omega⟩, by omega⟩
  · intro q b hb
    have := hc q b hb
    omega

/-- C20, witness: `SMALL_SIZE = 2`, after `a.push_back(1), (2), (3); a.pop_back(); b(a)`
both containers are Shared on a block of capacity 4. -/
theorem C20_shared_capacity_above_threshold_witness :
    (vec_at sharedSys 0).dynamic_ = true ∧ (vec_at sharedSys 1).dynamic_ = true ∧
    capacity 2 sharedSys.w (vec_at sharedSys 1) = 4 ∧
    2 < capacity 2 sharedSys.w (vec_at sharedSys 0) :=
  ⟨rfl, rfl, by decide,
    ((C20_shared_capacity_above_threshold 2 noThrow sharedSys (by decide)
      (Reachable.of_run (shared_push_program.take 6) initSys _ Reachable.init rfl)).1
      0 (vec_at sharedSys 0) rfl rfl).2⟩

end Socow
